import Mathlib

/-!
Verification of the SimpleDB mini-RDBMS core (storage engine, hash index,
query executor) against its specification.

The Lean definitions below are a shallow embedding of the Python sources
`simpledb/storage/heap.py`, `simpledb/storage/rid_directory.py`,
`simpledb/storage/tombstones.py`, `simpledb/index/hash_index.py`,
`simpledb/exec/executor.py` and `simpledb/exec/join.py`.

Modelling conventions:
- Python dicts become ordered association lists with first-key update
  (which matches dict insertion-order semantics).
- The JSONL heap file becomes a list of stored records; byte offsets become
  list positions (the source only ever seeks to offsets captured at append
  time, so positions are a faithful abstraction of the byte offsets).
- Python exceptions become `Except Err`; statement execution threads the
  storage state explicitly so that an error raised half-way through a
  statement returns the state at the raise point (this is what makes
  "no partial write" claims meaningful).
- Python `==` is modelled by `pyEq`, including the `bool`/`int`
  conflation (`True == 1`, `False == 0`) and `None == None`.
-/

namespace SimpleDB

/-- Dynamically typed row values: integer, text, boolean, or null
(Python `int` / `str` / `bool` / `None`). -/
inductive Value where
  | vInt  : Int → Value
  | vStr  : String → Value
  | vBool : Bool → Value
  | vNull : Value
deriving DecidableEq, Repr

/-- Python `==` on row values. `bool` is a subclass of `int` in Python, so
`True == 1` and `False == 0`; `None == None` holds; no other cross-type
pair compares equal. -/
def pyEq : Value → Value → Bool
  | .vInt a, .vInt b => a == b
  | .vStr a, .vStr b => a == b
  | .vBool a, .vBool b => a == b
  | .vNull, .vNull => true
  | .vInt a, .vBool b => a == (if b then (1 : Int) else 0)
  | .vBool a, .vInt b => (if a then (1 : Int) else 0) == b
  | _, _ => false

/-- A logical row: a Python dict from column name to value, as an ordered
association list. -/
abbrev Row := List (String × Value)

/-- Python `row.get(c)`: the value under key `c`, `None` when absent. -/
def rowGet : Row → String → Value
  | [], _ => .vNull
  | kv :: rest, c => if kv.1 = c then kv.2 else rowGet rest c

/-- Python `row[c] = v`: update the first binding of `c` in place, or append
a new binding (dict insertion-order semantics). -/
def rowSet : Row → String → Value → Row
  | [], c, v => [(c, v)]
  | kv :: rest, c, v => if kv.1 = c then (c, v) :: rest else kv :: rowSet rest c v

/-- One record of the heap log: the stored dict `{"_rid": rid, **row}`. -/
structure StoredRow where
  rid : Nat
  fields : Row
deriving DecidableEq, Repr

/-- State of one table's storage: heap log (`<table>.jsonl`), rid directory
(`<table>.dir.json`), tombstone set (`<table>.tombstones.json`) and the
persisted `next_rid` counter (`<table>.meta.json`). -/
structure HeapState where
  log : List StoredRow
  dir : List (Nat × Nat)
  tombs : List Nat
  nextRid : Nat
deriving DecidableEq, Repr

/-- `RidDirectory.get`. -/
def assocGet : List (Nat × Nat) → Nat → Option Nat
  | [], _ => none
  | kv :: rest, k => if kv.1 = k then some kv.2 else assocGet rest k

/-- `RidDirectory.set`: record/overwrite an offset. -/
def assocSet : List (Nat × Nat) → Nat → Nat → List (Nat × Nat)
  | [], k, v => [(k, v)]
  | kv :: rest, k, v => if kv.1 = k then (k, v) :: rest else kv :: assocSet rest k v

/-- Errors raised by the engine: `ExecutionError` and `ConstraintError`
from `simpledb/errors.py`. -/
inductive Err where
  | execError : String → Err
  | constraintError : String → Err
deriving DecidableEq, Repr

/-- Whether an error is a `ConstraintError`. -/
def Err.isConstraint : Err → Bool
  | .constraintError _ => true
  | .execError _ => false

/-- The persistent side effects of `HeapTable.insert`, used to state the
temporal-ordering claim. -/
inductive HeapEvent where
  | counterPersist
  | logAppend
  | dirUpdate
deriving DecidableEq, Repr

/-- `HeapTable.insert`, instrumented with the trace of persistent writes in
program order.  The source does, in order:
`meta["next_rid"] = rid + 1; self._save_meta(meta)` (counter persist),
then `f.write(line)` on the data file opened in append mode (log append,
with `offset = f.tell()` captured just before the write), then
`self.rid_dir.set(rid, offset); self.rid_dir.save()` (directory update). -/
def HeapTable.insertT (h : HeapState) (row : Row) : Nat × HeapState × List HeapEvent :=
  -- meta = self._load_meta(); rid = int(meta["next_rid"])
  let rid := h.nextRid
  -- meta["next_rid"] = rid + 1; self._save_meta(meta)
  let h1 : HeapState := { h with nextRid := rid + 1 }
  let tr1 := [HeapEvent.counterPersist]
  -- offset = f.tell(); f.write(line)
  let off := h1.log.length
  let h2 : HeapState := { h1 with log := h1.log ++ [⟨rid, row⟩] }
  let tr2 := tr1 ++ [HeapEvent.logAppend]
  -- self.rid_dir.set(rid, offset); self.rid_dir.save()
  let h3 : HeapState := { h2 with dir := assocSet h2.dir rid off }
  let tr3 := tr2 ++ [HeapEvent.dirUpdate]
  (rid, h3, tr3)

/-- `HeapTable.insert`: the assigned rid and the new storage state. -/
def HeapTable.insert (h : HeapState) (row : Row) : Nat × HeapState :=
  ((insertT h row).1, (insertT h row).2.1)

/-- The persistent-write trace of one `HeapTable.insert` call. -/
def HeapTable.insertTrace (h : HeapState) (row : Row) : List HeapEvent :=
  (insertT h row).2.2

/-- `HeapTable.tombstone` (via `Tombstones.add`): add to the persisted set. -/
def HeapTable.tombstone (h : HeapState) (rid : Nat) : HeapState :=
  { h with tombs := if rid ∈ h.tombs then h.tombs else h.tombs ++ [rid] }

/-- `HeapTable.scan_active`: every log record whose rid is not tombstoned.
(The defensive skips for legacy `"_op": "DELETE"` / `"_deleted"` markers
and for malformed JSON lines concern content this core never writes, so
they have no counterpart on well-formed model states.) -/
def HeapTable.scanActive (h : HeapState) : List StoredRow :=
  h.log.filter (fun rec => decide (rec.rid ∉ h.tombs))

/-- `HeapTable.get_by_rid`: absent if tombstoned or unknown; otherwise read
the record at the directory's offset, failing on a rid mismatch, and
re-check the tombstone set before returning. -/
def HeapTable.getByRid (h : HeapState) (rid : Nat) : Except Err (Option StoredRow) :=
  if rid ∈ h.tombs then .ok none
  else
    match assocGet h.dir rid with
    | none => .ok none
    | some off =>
      match h.log[off]? with
      | none => .error (.execError ("RID offset past EOF: rid=" ++ toString rid))
      | some rec =>
        if rec.rid ≠ rid then
          .error (.execError ("RID directory mismatch: expected " ++ toString rid ++
            ", got " ++ toString rec.rid ++ ". Consider rebuilding the directory."))
        else if rid ∈ h.tombs then .ok none
        else .ok (some rec)

/-- Heap-level operations, for stating properties over any sequence of
storage mutations. -/
inductive HeapTable.Op where
  | opInsert : Row → Op
  | opTombstone : Nat → Op

/-- Apply a sequence of heap-level operations. -/
def HeapTable.applyOps (h : HeapState) : List Op → HeapState
  | [] => h
  | .opInsert row :: rest => applyOps (insert h row).2 rest
  | .opTombstone rid :: rest => applyOps (tombstone h rid) rest

/-- Invariant used for the rid-lookup claim: the directory maps `rid` to a
log position holding exactly the record `⟨rid, row⟩`, and `rid` is below the
persisted counter (so later inserts never reuse it). -/
def HeapTable.TracksRow (h : HeapState) (rid : Nat) (row : Row) : Prop :=
  (∃ off, assocGet h.dir rid = some off ∧ h.log[off]? = some ⟨rid, row⟩) ∧
    rid < h.nextRid

/-- The characters `Nat.toDigits 10` produces, expressed via `Nat.digits`. -/
def decChars (n : Nat) : List Char :=
  if n = 0 then ['0'] else ((Nat.digits 10 n).map Nat.digitChar).reverse

/-- `encode_key`: type-tagged stable string key (`i:` integer decimal form,
`s:` text, `b:` lower-cased boolean; null gets the unused `n:null`). -/
def encodeKey : Value → String
  | .vNull => "n:null"
  | .vBool b => "b:" ++ (if b then "true" else "false")
  | .vInt i => "i:" ++ Int.repr i
  | .vStr s => "s:" ++ s

/-- In-memory state of a `HashIndex`: name, indexed column, and the mapping
from encoded key to a set of rids (Python `dict[str, set[int]]`, modelled
as an association list of duplicate-free rid lists; `lookup` sorts, so the
list order never matters). -/
structure HashIndexSt where
  name : String
  columnName : String
  mapping : List (String × List Nat)
deriving DecidableEq, Repr

/-- `self.mapping.get(k, set())`. -/
def HashIndex.getSet : List (String × List Nat) → String → List Nat
  | [], _ => []
  | kv :: rest, k => if kv.1 = k then kv.2 else getSet rest k

/-- `self.mapping.setdefault(k, set()).add(int(rid))`. -/
def HashIndex.addKey : List (String × List Nat) → String → Nat → List (String × List Nat)
  | [], k, rid => [(k, [rid])]
  | kv :: rest, k, rid =>
    if kv.1 = k then (k, if rid ∈ kv.2 then kv.2 else kv.2 ++ [rid]) :: rest
    else kv :: addKey rest k rid

/-- `s = self.mapping.get(k); if not s: return; s.discard(int(rid));
if not s: self.mapping.pop(k, None)`. -/
def HashIndex.removeKey : List (String × List Nat) → String → Nat → List (String × List Nat)
  | [], _, _ => []
  | kv :: rest, k, rid =>
    if kv.1 = k then
      (if kv.2 = [] then kv :: rest
       else if kv.2.filter (fun r => decide (r ≠ rid)) = [] then rest
       else (k, kv.2.filter (fun r => decide (r ≠ rid))) :: rest)
    else kv :: removeKey rest k rid

/-- Mapping-level effect of `HashIndex.add`: no-op for null, else insert the
rid under the encoded key. -/
def HashIndex.addVal (m : List (String × List Nat)) (v : Value) (rid : Nat) :
    List (String × List Nat) :=
  match v with
  | .vNull => m
  | _ => addKey m (encodeKey v) rid

/-- Mapping-level effect of `HashIndex.remove`: no-op for null, else remove
the rid from the encoded key's set, dropping the key when it becomes empty. -/
def HashIndex.removeVal (m : List (String × List Nat)) (v : Value) (rid : Nat) :
    List (String × List Nat) :=
  match v with
  | .vNull => m
  | _ => removeKey m (encodeKey v) rid

/-- `HashIndex.add`. -/
def HashIndex.add (idx : HashIndexSt) (v : Value) (rid : Nat) : HashIndexSt :=
  { idx with mapping := addVal idx.mapping v rid }

/-- `HashIndex.remove`. -/
def HashIndex.remove (idx : HashIndexSt) (v : Value) (rid : Nat) : HashIndexSt :=
  { idx with mapping := removeVal idx.mapping v rid }

/-- `HashIndex.lookup`: empty for null or unknown key, otherwise the rids for
the encoded key in ascending order. -/
def HashIndex.lookup (idx : HashIndexSt) (v : Value) : List Nat :=
  match v with
  | .vNull => []
  | _ => (getSet idx.mapping (encodeKey v)).mergeSort (fun a b => a ≤ b)

/-- `HashIndex.clear`: empty the mapping in memory. -/
def HashIndex.clear (idx : HashIndexSt) : HashIndexSt :=
  { idx with mapping := [] }

/-! ### Heap well-formedness

The consistency invariant of one table's storage, maintained by the
executor: log rids are unique, the directory is sound (every entry points
at the record carrying its rid) and complete (every log record is found
through the directory), and rids in the log and tombstone set are below
the persisted counter. -/

abbrev HeapWF (h : HeapState) : Prop :=
  (h.log.map StoredRow.rid).Nodup ∧
  (∀ e ∈ h.dir, (h.log[e.2]?).map StoredRow.rid = some e.1) ∧
  (∀ rec ∈ h.log, (assocGet h.dir rec.rid).bind (fun off => h.log[off]?) = some rec) ∧
  (∀ rec ∈ h.log, rec.rid < h.nextRid) ∧
  (∀ t ∈ h.tombs, t < h.nextRid)

/-! ### The index-consistency invariant

For an index on column `col` of a table with storage `h`: the mapping's
keys are unique (Python dict) and never the null key, every indexed rid
belongs to an active row whose `col`-value encodes to its key, and every
active row with a non-null `col`-value is indexed under its encoded value.
Together these say: `lookup v` returns exactly the active rids whose `col`
equals `v`, and nulls are never indexed. -/
abbrev IndexGood (col : String) (m : List (String × List Nat)) (h : HeapState) : Prop :=
  (m.map Prod.fst).Nodup ∧
  (∀ k ∈ m.map Prod.fst, k ≠ encodeKey .vNull) ∧
  (∀ e ∈ m, ∀ r ∈ e.2, ∃ rec ∈ HeapTable.scanActive h, rec.rid = r ∧
      rowGet rec.fields col ≠ Value.vNull ∧ encodeKey (rowGet rec.fields col) = e.1) ∧
  (∀ rec ∈ HeapTable.scanActive h, rowGet rec.fields col ≠ Value.vNull →
      rec.rid ∈ HashIndex.getSet m (encodeKey (rowGet rec.fields col)))

/-- The index-building loop of CREATE INDEX: starting from an accumulator,
add `(row.get(column), rid)` for each scanned record in order. -/
def HashIndex.buildMapping (col : String) :
    List StoredRow → List (String × List Nat) → List (String × List Nat)
  | [], m => m
  | rec :: rest, m => buildMapping col rest (addVal m (rowGet rec.fields col) rec.rid)

/-! ### Catalog metadata and statement trees (`simpledb/ast.py`,
`simpledb/catalog.py`)

Only the parts the executor consumes.  Type names are stored uppercased, as
the parser/catalog produce them. -/

structure TypeSpec where
  name : String
  params : List Nat
deriving DecidableEq, Repr

structure ColumnDef where
  name : String
  typ : TypeSpec
  notNull : Bool
  unique : Bool
  primaryKey : Bool
deriving DecidableEq, Repr

structure TableMeta where
  name : String
  columns : List ColumnDef
deriving DecidableEq, Repr

/-- `TableMeta.column_names`. -/
def TableMeta.columnNames (t : TableMeta) : List String :=
  t.columns.map (fun c => c.name)

/-- `TableMeta.primary_key_column`: the first PRIMARY KEY column, if any. -/
def TableMeta.primaryKeyColumn (t : TableMeta) : Option String :=
  ((t.columns.filter (fun c => c.primaryKey)).map (fun c => c.name)).head?

/-- One table's runtime state as the executor sees it: catalog metadata, the
open heap storage, and the opened index instances of the table in
declaration order (`table.indexes.values()`). -/
structure Table where
  meta : TableMeta
  heap : HeapState
  indexes : List HashIndexSt
deriving DecidableEq, Repr

structure ColumnRef where
  column : String
  table : Option String
deriving DecidableEq, Repr

structure Condition where
  left : ColumnRef
  op : String
  right : Value
deriving DecidableEq, Repr

structure WhereClause where
  conditions : List Condition
deriving DecidableEq, Repr

structure Assignment where
  column : String
  value : Value
deriving DecidableEq, Repr

structure CommandOk where
  rowsAffected : Nat
  message : String
deriving DecidableEq, Repr

/-- Whether a Python dict has a key (`c in row`), as distinct from holding
`None` under it. -/
def rowHasKey (r : Row) (c : String) : Bool :=
  (r.find? (fun kv => kv.1 == c)).isSome

/-- `_validate_types`, for one column definition and its value: null passes;
otherwise the value's kind must match the declared type exactly (booleans
are rejected where INTEGER is declared), and VARCHAR(n) strings must have
length at most n.  (An absent VARCHAR length parameter would be a Python
`IndexError`; the catalog guarantees one is present.) -/
def Executor.validateColumn (tname : String) (c : ColumnDef) (v : Value) :
    Except Err Unit :=
  match v with
  | .vNull => .ok ()
  | _ =>
    if c.typ.name = "INTEGER" then
      match v with
      | .vInt _ => .ok ()
      | _ => .error (.execError ("Type error: " ++ tname ++ "." ++ c.name ++
          " expects INTEGER"))
    else if c.typ.name = "TEXT" ∨ c.typ.name = "DATE" ∨ c.typ.name = "VARCHAR" then
      match v with
      | .vStr s =>
        if c.typ.name = "VARCHAR" then
          match c.typ.params.head? with
          | some maxLen =>
            if s.length > maxLen then
              .error (.execError ("Type error: " ++ tname ++ "." ++ c.name ++
                " exceeds VARCHAR length"))
            else .ok ()
          | none => .error (.execError "VARCHAR without length parameter")
        else .ok ()
      | _ => .error (.execError ("Type error: " ++ tname ++ "." ++ c.name ++
          " expects TEXT/DATE"))
    else if c.typ.name = "BOOLEAN" then
      match v with
      | .vBool _ => .ok ()
      | _ => .error (.execError ("Type error: " ++ tname ++ "." ++ c.name ++
          " expects BOOLEAN"))
    else .error (.execError ("Unsupported type: " ++ c.typ.name))

/-- `_validate_types`: loop over the schema columns, skipping columns not
present in the row dict. -/
def Executor.validateTypes (tname : String) (cols : List ColumnDef) (row : Row) :
    Except Err Unit :=
  match cols with
  | [] => .ok ()
  | c :: rest =>
    if rowHasKey row c.name then
      match Executor.validateColumn tname c (rowGet row c.name) with
      | .error e => .error e
      | .ok _ => Executor.validateTypes tname rest row
    else Executor.validateTypes tname rest row

/-- Python `x in <set of values>`: membership under Python equality. -/
def pyMem (v : Value) (l : List Value) : Bool :=
  l.any (fun w => pyEq w v)

/-- The NOT NULL / PRIMARY KEY null check for one candidate row. -/
def Executor.checkNotNullRow (tname : String) (cols : List ColumnDef) (nr : Row) :
    Except Err Unit :=
  match cols with
  | [] => .ok ()
  | c :: rest =>
    if (c.notNull || c.primaryKey) && (rowGet nr c.name == Value.vNull) then
      (if c.primaryKey then
        .error (.constraintError ("PRIMARY KEY column cannot be NULL: " ++
          tname ++ "." ++ c.name))
      else
        .error (.constraintError ("NOT NULL constraint failed: " ++
          tname ++ "." ++ c.name)))
    else Executor.checkNotNullRow tname rest nr

/-- The NOT NULL / PRIMARY KEY null check over the whole batch. -/
def Executor.checkNotNull (tname : String) (cols : List ColumnDef) :
    List Row → Except Err Unit
  | [] => .ok ()
  | nr :: rest =>
    match Executor.checkNotNullRow tname cols nr with
    | .error e => .error e
    | .ok _ => Executor.checkNotNull tname cols rest

/-- The PRIMARY KEY uniqueness loop: candidate values may not collide with a
kept existing value nor with an earlier candidate's value (`seen_new`). -/
def Executor.checkPkLoop (tname pkCol : String) (existingPks : List Value)
    (seen : List Value) : List Row → Except Err Unit
  | [] => .ok ()
  | nr :: rest =>
    if pyMem (rowGet nr pkCol) existingPks then
      .error (.constraintError ("PRIMARY KEY constraint failed: duplicate value for " ++
        tname ++ "." ++ pkCol))
    else if pyMem (rowGet nr pkCol) seen then
      .error (.constraintError
        "PRIMARY KEY constraint failed: duplicate value within statement batch")
    else Executor.checkPkLoop tname pkCol existingPks (seen ++ [rowGet nr pkCol]) rest

/-- The UNIQUE loop for one column: null candidate values are skipped
entirely; non-null values may not collide with a kept existing non-null
value nor with an earlier candidate's value. -/
def Executor.checkUniqueLoop (tname ucol : String) (existingVals : List Value)
    (seen : List Value) : List Row → Except Err Unit
  | [] => .ok ()
  | nr :: rest =>
    if rowGet nr ucol == Value.vNull then
      Executor.checkUniqueLoop tname ucol existingVals seen rest
    else if pyMem (rowGet nr ucol) existingVals then
      .error (.constraintError ("UNIQUE constraint failed: duplicate value for " ++
        tname ++ "." ++ ucol))
    else if pyMem (rowGet nr ucol) seen then
      .error (.constraintError
        ("UNIQUE constraint failed: duplicate value within statement batch for " ++
          tname ++ "." ++ ucol))
    else Executor.checkUniqueLoop tname ucol existingVals (seen ++ [rowGet nr ucol]) rest

/-- The non-null values a kept existing row set holds in a column. -/
def Executor.uniqueExisting (rows : List Row) (ucol : String) : List Value :=
  (rows.map (fun r => rowGet r ucol)).filter (fun v => decide (v ≠ Value.vNull))

/-- The UNIQUE check over every UNIQUE-flagged column. -/
def Executor.checkUniqueCols (tname : String) (existingKept : List Row)
    (newRows : List Row) : List String → Except Err Unit
  | [] => .ok ()
  | ucol :: rest =>
    match Executor.checkUniqueLoop tname ucol
        (Executor.uniqueExisting existingKept ucol) [] newRows with
    | .error e => .error e
    | .ok _ => Executor.checkUniqueCols tname existingKept newRows rest

/-- `_enforce_constraints_batch`: NOT NULL / PRIMARY KEY / UNIQUE over the
entire candidate batch, against the existing active rows minus those being
replaced. -/
def Executor.enforceConstraintsBatch (table : TableMeta)
    (existingRows : List StoredRow) (newRows : List Row)
    (excludeRids : List Nat) : Except Err Unit :=
  let existingKept : List StoredRow :=
    existingRows.filter (fun r => decide (r.rid ∉ excludeRids))
  match Executor.checkNotNull table.name table.columns newRows with
  | .error e => .error e
  | .ok _ =>
    match (match table.primaryKeyColumn with
      | none => Except.ok ()
      | some pkCol =>
        Executor.checkPkLoop table.name pkCol
          (existingKept.map (fun r : StoredRow => rowGet r.fields pkCol)) [] newRows) with
    | .error e => .error e
    | .ok _ =>
      Executor.checkUniqueCols table.name
        (existingKept.map (fun r : StoredRow => r.fields)) newRows
        ((table.columns.filter (fun c => c.unique)).map (fun c => c.name))

/-- `_resolve_col_single_table`. -/
def Executor.resolveColSingle (tableName ctx : String) (cr : ColumnRef) :
    Except Err String :=
  match cr.table with
  | some tb =>
    if tb ≠ tableName then
      .error (.execError (ctx ++ ": column qualifier " ++ tb ++ "." ++ cr.column ++
        " does not match " ++ tableName))
    else .ok cr.column
  | none => .ok cr.column

/-- The condition loop of `_row_matches_where_single_table`. -/
def Executor.rowMatchesConds (tableName : String) (fields : Row) :
    List Condition → Except Err Bool
  | [] => .ok true
  | cond :: rest =>
    if cond.op ≠ "=" then .error (.execError "Only '=' is supported in WHERE")
    else
      match Executor.resolveColSingle tableName "WHERE" cond.left with
      | .error e => .error e
      | .ok col =>
        if pyEq (rowGet fields col) cond.right then
          Executor.rowMatchesConds tableName fields rest
        else .ok false

/-- `_row_matches_where_single_table`. -/
def Executor.rowMatchesWhere (tableName : String) (fields : Row) :
    Option WhereClause → Except Err Bool
  | none => .ok true
  | some w => Executor.rowMatchesConds tableName fields w.conditions

/-- `cond.left.table is not None and cond.left.table != table.name`:
ignore conditions qualified to some other table. -/
def Executor.qualifierSkips (tb : Option String) (tname : String) : Bool :=
  match tb with
  | some s => s ≠ tname
  | none => false

/-- The scan of `_choose_index_candidates`: keep the smallest candidate list,
first-found winning ties. -/
def Executor.chooseLoop (t : Table) :
    List Condition → Option (String × List Nat) → Option (String × List Nat)
  | [], best => best
  | cond :: rest, best =>
    if cond.op ≠ "=" then Executor.chooseLoop t rest best
    else if Executor.qualifierSkips cond.left.table t.meta.name then
      Executor.chooseLoop t rest best
    else
      match t.indexes.find? (fun ix => ix.columnName == cond.left.column) with
      | none => Executor.chooseLoop t rest best
      | some idx =>
        match best with
        | none => Executor.chooseLoop t rest (some (idx.name, HashIndex.lookup idx cond.right))
        | some b =>
          if (HashIndex.lookup idx cond.right).length < b.2.length then
            Executor.chooseLoop t rest (some (idx.name, HashIndex.lookup idx cond.right))
          else Executor.chooseLoop t rest best

/-- `_choose_index_candidates`. -/
def Executor.chooseIndexCandidates (t : Table) :
    Option WhereClause → Option (String × List Nat)
  | none => none
  | some w => Executor.chooseLoop t w.conditions none

/-- `_fetch_rows_by_candidates`: point-read each candidate rid, skipping
deleted/unknown ones. -/
def Executor.fetchRows (h : HeapState) : List Nat → Except Err (List StoredRow)
  | [] => .ok []
  | rid :: rest =>
    match HeapTable.getByRid h rid with
    | .error e => .error e
    | .ok none => Executor.fetchRows h rest
    | .ok (some rec) =>
      match Executor.fetchRows h rest with
      | .error e => .error e
      | .ok out => .ok (rec :: out)

/-- The `candidates`/`matched` filter loop: keep rows matching the complete
WHERE clause. -/
def Executor.filterMatching (tableName : String) (w : Option WhereClause) :
    List StoredRow → Except Err (List StoredRow)
  | [] => .ok []
  | rec :: rest =>
    match Executor.rowMatchesWhere tableName rec.fields w with
    | .error e => .error e
    | .ok true =>
      match Executor.filterMatching tableName w rest with
      | .error e => .error e
      | .ok out => .ok (rec :: out)
    | .ok false => Executor.filterMatching tableName w rest

/-- The candidate rows of a WHERE-bearing statement: index plan when one is
chosen, full active scan otherwise. -/
def Executor.candidateRows (t : Table) (w : Option WhereClause) :
    Except Err (List StoredRow) :=
  match Executor.chooseIndexCandidates t w with
  | some p => Executor.fetchRows t.heap p.2
  | none => .ok (HeapTable.scanActive t.heap)

/-- The column-existence check of `_insert` over the supplied column list. -/
def Executor.checkInsertCols (tname : String) (tableCols : List String) :
    List String → Except Err Unit
  | [] => .ok ()
  | c :: rest =>
    if c ∈ tableCols then Executor.checkInsertCols tname tableCols rest
    else .error (.execError ("Unknown column in INSERT: " ++ tname ++ "." ++ c))

/-- Apply `row[c] = v` assignments in order. -/
def Executor.applyPairs : Row → List (String × Value) → Row
  | row, [] => row
  | row, (c, v) :: rest => Executor.applyPairs (rowSet row c v) rest

/-- `_insert`'s row construction: all schema columns start as null, then
`for c, v in zip(stmt.columns, stmt.values): row[c] = v` — the shorter of
the two lists governs. -/
def Executor.buildInsertRow (columns : List ColumnDef) (cols : List String)
    (vals : List Value) : Row :=
  Executor.applyPairs (columns.map (fun c => (c.name, Value.vNull))) (cols.zip vals)

/-- `_insert`: validate columns, build the row, type-check, enforce
constraints, then append to the heap and add the new rid to every index. -/
def Executor.insertStmt (t : Table) (cols : List String) (vals : List Value) :
    (Except Err CommandOk) × Table :=
  match Executor.checkInsertCols t.meta.name t.meta.columnNames cols with
  | .error e => (.error e, t)
  | .ok _ =>
    match Executor.validateTypes t.meta.name t.meta.columns
        (Executor.buildInsertRow t.meta.columns cols vals) with
    | .error e => (.error e, t)
    | .ok _ =>
      match Executor.enforceConstraintsBatch t.meta (HeapTable.scanActive t.heap)
          [Executor.buildInsertRow t.meta.columns cols vals] [] with
      | .error e => (.error e, t)
      | .ok _ =>
        (.ok ⟨1, "1 row inserted"⟩,
          { t with
            heap := (HeapTable.insert t.heap
              (Executor.buildInsertRow t.meta.columns cols vals)).2,
            indexes := t.indexes.map (fun ix =>
              HashIndex.add ix
                (rowGet (Executor.buildInsertRow t.meta.columns cols vals) ix.columnName)
                (HeapTable.insert t.heap
                  (Executor.buildInsertRow t.meta.columns cols vals)).1) })

/-- The deletion loop of `_delete`: per matched row, remove it from every
index first, then tombstone it. -/
def Executor.applyDeletes (heap : HeapState) (indexes : List HashIndexSt) :
    List StoredRow → HeapState × List HashIndexSt
  | [] => (heap, indexes)
  | rec :: rest =>
    Executor.applyDeletes (HeapTable.tombstone heap rec.rid)
      (indexes.map (fun ix =>
        HashIndex.remove ix (rowGet rec.fields ix.columnName) rec.rid))
      rest

/-- `_delete`. -/
def Executor.deleteStmt (t : Table) (w : Option WhereClause) :
    (Except Err CommandOk) × Table :=
  match Executor.candidateRows t w with
  | .error e => (.error e, t)
  | .ok candidates =>
    match Executor.filterMatching t.meta.name w candidates with
    | .error e => (.error e, t)
    | .ok matched =>
      (.ok ⟨matched.length, toString matched.length ++ " rows deleted"⟩,
        { t with
          heap := (Executor.applyDeletes t.heap t.indexes matched).1,
          indexes := (Executor.applyDeletes t.heap t.indexes matched).2 })

/-- The assignment-column existence check of `_update`. -/
def Executor.checkAssignCols (tname : String) (tableCols : List String) :
    List Assignment → Except Err Unit
  | [] => .ok ()
  | a :: rest =>
    if a.column ∈ tableCols then Executor.checkAssignCols tname tableCols rest
    else .error (.execError ("Unknown column in UPDATE: " ++ tname ++ "." ++ a.column))

/-- One UPDATE candidate row: the old row's values for all schema columns,
with the SET assignments applied. -/
def Executor.buildCandidate (columns : List ColumnDef) (old : StoredRow)
    (assigns : List Assignment) : Row :=
  Executor.applyPairs (columns.map (fun c => (c.name, rowGet old.fields c.name)))
    (assigns.map (fun a => (a.column, a.value)))

/-- The candidate-construction loop of `_update`, type-checking each
candidate as it is built. -/
def Executor.buildCandidates (tname : String) (columns : List ColumnDef)
    (assigns : List Assignment) : List StoredRow → Except Err (List Row)
  | [] => .ok []
  | old :: rest =>
    match Executor.validateTypes tname columns
        (Executor.buildCandidate columns old assigns) with
    | .error e => .error e
    | .ok _ =>
      match Executor.buildCandidates tname columns assigns rest with
      | .error e => .error e
      | .ok out => .ok (Executor.buildCandidate columns old assigns :: out)

/-- The mutation loop of `_update`: per matched row, insert the new version,
tombstone the old rid, and swap (old value, old rid) for (new value, new
rid) in every index. -/
def Executor.applyUpdates (heap : HeapState) (indexes : List HashIndexSt) :
    List (StoredRow × Row) → HeapState × List HashIndexSt
  | [] => (heap, indexes)
  | (old, cand) :: rest =>
    Executor.applyUpdates
      (HeapTable.tombstone (HeapTable.insert heap cand).2 old.rid)
      (indexes.map (fun ix =>
        HashIndex.add (HashIndex.remove ix (rowGet old.fields ix.columnName) old.rid)
          (rowGet cand ix.columnName) (HeapTable.insert heap cand).1))
      rest

/-- `_update`. -/
def Executor.updateStmt (t : Table) (assigns : List Assignment)
    (w : Option WhereClause) : (Except Err CommandOk) × Table :=
  match Executor.checkAssignCols t.meta.name t.meta.columnNames assigns with
  | .error e => (.error e, t)
  | .ok _ =>
    match Executor.candidateRows t w with
    | .error e => (.error e, t)
    | .ok candidates =>
      match Executor.filterMatching t.meta.name w candidates with
      | .error e => (.error e, t)
      | .ok toUpdate =>
        if toUpdate.isEmpty then (.ok ⟨0, "0 rows updated"⟩, t)
        else
          match Executor.buildCandidates t.meta.name t.meta.columns assigns toUpdate with
          | .error e => (.error e, t)
          | .ok newRows =>
            match Executor.enforceConstraintsBatch t.meta
                (HeapTable.scanActive t.heap) newRows (toUpdate.map (fun r => r.rid)) with
            | .error e => (.error e, t)
            | .ok _ =>
              (.ok ⟨toUpdate.length, toString toUpdate.length ++ " rows updated"⟩,
                { t with
                  heap := (Executor.applyUpdates t.heap t.indexes
                    (toUpdate.zip newRows)).1,
                  indexes := (Executor.applyUpdates t.heap t.indexes
                    (toUpdate.zip newRows)).2 })

/-- `_create_index` (after catalog validation of the column): build the new
index from a scan of the currently active rows and register it on the
table.  (Global index-name uniqueness is catalog business, out of scope.) -/
def Executor.createIndexStmt (t : Table) (idxName colName : String) :
    (Except Err CommandOk) × Table :=
  if colName ∉ t.meta.columnNames then
    (.error (.execError ("Column not found: " ++ t.meta.name ++ "." ++ colName)), t)
  else
    (.ok ⟨0, "Index created and built: " ++ idxName⟩,
      { t with indexes := t.indexes ++
          [⟨idxName, colName, HashIndex.buildMapping colName (HeapTable.scanActive t.heap) []⟩] })

/-- The four mutating statements of the engine. -/
inductive Stmt where
  | sInsert : List String → List Value → Stmt
  | sUpdate : List Assignment → Option WhereClause → Stmt
  | sDelete : Option WhereClause → Stmt
  | sCreateIndex : String → String → Stmt

/-- Dispatch of `Executor.execute` for the mutating statements. -/
def Executor.execStmt (t : Table) : Stmt → (Except Err CommandOk) × Table
  | .sInsert cols vals => Executor.insertStmt t cols vals
  | .sUpdate assigns w => Executor.updateStmt t assigns w
  | .sDelete w => Executor.deleteStmt t w
  | .sCreateIndex n c => Executor.createIndexStmt t n c

/-- Full consistency of a table: well-formed storage, and every index of
the table consistent with the active rows. -/
abbrev TableGood (t : Table) : Prop :=
  HeapWF t.heap ∧ ∀ ix ∈ t.indexes, IndexGood ix.columnName ix.mapping t.heap

/-- A query result: ordered column names and rows.  (The plan-diagnostics
`stats` dict of `QueryResult` carries no row data and is not modelled; the
claims below compare result rows.) -/
structure QueryOut where
  columns : List String
  rows : List (List Value)
deriving DecidableEq, Repr

/-- The output-column resolution loop of `_select_single_table` for an
explicit column list. -/
def Executor.selectColsLoop (t : Table) : List ColumnRef → Except Err (List String)
  | [] => .ok []
  | c :: rest =>
    match Executor.resolveColSingle t.meta.name "SELECT" c with
    | .error e => .error e
    | .ok col =>
      if col ∉ t.meta.columnNames then
        .error (.execError ("Unknown column in SELECT: " ++ t.meta.name ++ "." ++ col))
      else
        match Executor.selectColsLoop t rest with
        | .error e => .error e
        | .ok out => .ok (col :: out)

/-- Output columns of a single-table SELECT: all schema columns for `*`,
else the resolved explicit list. -/
def Executor.selectOutCols (t : Table) : Option (List ColumnRef) → Except Err (List String)
  | none => .ok (t.meta.columns.map (fun c => c.name))
  | some crs => Executor.selectColsLoop t crs

/-- `_select_single_table`: project the matched rows of the chosen plan
(index candidates re-filtered by the full WHERE clause, or a full scan). -/
def Executor.selectSingle (t : Table) (cols? : Option (List ColumnRef))
    (w : Option WhereClause) : Except Err QueryOut :=
  match Executor.selectOutCols t cols? with
  | .error e => .error e
  | .ok outCols =>
    match Executor.candidateRows t w with
    | .error e => .error e
    | .ok candidates =>
      match Executor.filterMatching t.meta.name w candidates with
      | .error e => .error e
      | .ok matched =>
        .ok ⟨outCols, matched.map (fun rec => outCols.map (fun c => rowGet rec.fields c))⟩

/-- A table with its indexes removed: forces the scan plan. -/
def Table.noIndexes (t : Table) : Table :=
  { t with indexes := [] }

/-! ### JOIN (`simpledb/exec/join.py`) -/

structure JoinClause where
  tableName : String
  left : ColumnRef
  right : ColumnRef
deriving DecidableEq, Repr

/-- A combined (joined) row: Python dict keyed by (table, column) pairs. -/
abbrev CombinedRow := List ((String × String) × Value)

/-- `row.get(key)` on a combined row. -/
def combinedGet : CombinedRow → (String × String) → Value
  | [], _ => .vNull
  | kv :: rest, k => if kv.1 = k then kv.2 else combinedGet rest k

/-- `key in row` on a combined row. -/
def combinedHasKey (r : CombinedRow) (k : String × String) : Bool :=
  (r.find? (fun kv => kv.1 == k)).isSome

/-- `combined[key] = v` on a combined row (dict update or append). -/
def combinedSet : CombinedRow → (String × String) → Value → CombinedRow
  | [], k, v => [(k, v)]
  | kv :: rest, k, v =>
    if kv.1 = k then (k, v) :: rest else kv :: combinedSet rest k v

/-- Apply a sequence of combined-row dict assignments in order. -/
def applyCombinedPairs : CombinedRow → List ((String × String) × Value) → CombinedRow
  | row, [] => row
  | row, (k, v) :: rest => applyCombinedPairs (combinedSet row k v) rest

/-- `_resolve_in_combined`: qualified references must be present; unqualified
references must match exactly one (table, column) key. -/
def Join.resolveInCombined (row : CombinedRow) (cr : ColumnRef) : Except Err Value :=
  match cr.table with
  | some tb =>
    if combinedHasKey row (tb, cr.column) then .ok (combinedGet row (tb, cr.column))
    else .error (.execError ("Unknown column in joined row: " ++ tb ++ "." ++ cr.column))
  | none =>
    match (row.map Prod.fst).filter (fun k => decide (k.2 = cr.column)) with
    | [] => .error (.execError ("Unknown column: " ++ cr.column))
    | [k] => .ok (combinedGet row k)
    | _ => .error (.execError ("Ambiguous column: " ++ cr.column ++
        " (qualify with table.)"))

/-- The condition loop of `where_matches` over a combined row. -/
def Join.whereMatchesConds (row : CombinedRow) : List Condition → Except Err Bool
  | [] => .ok true
  | cond :: rest =>
    if cond.op ≠ "=" then .error (.execError "Only '=' supported in WHERE")
    else
      match Join.resolveInCombined row cond.left with
      | .error e => .error e
      | .ok lv =>
        if pyEq lv cond.right then Join.whereMatchesConds row rest
        else .ok false

/-- `where_matches`. -/
def Join.whereMatches (row : CombinedRow) : Option WhereClause → Except Err Bool
  | none => .ok true
  | some w => Join.whereMatchesConds row w.conditions

/-- A session's open tables: name → runtime table state (catalog lookup plus
`HeapTable.open`/index opening merged into one map). -/
abbrev Database := List (String × Table)

/-- `Catalog.require_table` (plus opening the table's storage). -/
def requireTable : Database → String → Except Err Table
  | [], name => .error (.execError ("Table not found: " ++ name))
  | (n, t) :: rest, name =>
    if n = name then .ok t else requireTable rest name

/-- Merge a right-table record into a combined row under qualified keys
(the `_rid` key of the stored dict is skipped; model rows keep it apart). -/
def Join.extendCombined (lrow : CombinedRow) (tname : String) (rec : StoredRow) :
    CombinedRow :=
  applyCombinedPairs lrow (rec.fields.map (fun kv => ((tname, kv.1), kv.2)))

/-- The per-left-row probe of the index nested-loop join: look up the key,
point-read each rid, skip deleted ones, and extend the left row. -/
def Join.probeRids (rheap : HeapState) (tname : String) (lrow : CombinedRow) :
    List Nat → Except Err (List CombinedRow)
  | [] => .ok []
  | rid :: rest =>
    match HeapTable.getByRid rheap rid with
    | .error e => .error e
    | .ok none => Join.probeRids rheap tname lrow rest
    | .ok (some rec) =>
      match Join.probeRids rheap tname lrow rest with
      | .error e => .error e
      | .ok out => .ok (Join.extendCombined lrow tname rec :: out)

/-- The index nested-loop join over the accumulated left rows. -/
def Join.indexLoop (rheap : HeapState) (idx : HashIndexSt) (tname : String)
    (leftColRef : ColumnRef) : List CombinedRow → Except Err (List CombinedRow)
  | [] => .ok []
  | lrow :: rest =>
    match Join.resolveInCombined lrow leftColRef with
    | .error e => .error e
    | .ok keyVal =>
      match Join.probeRids rheap tname lrow (HashIndex.lookup idx keyVal) with
      | .error e => .error e
      | .ok block =>
        match Join.indexLoop rheap idx tname leftColRef rest with
        | .error e => .error e
        | .ok out => .ok (block ++ out)

/-- The nested-loop scan join over the accumulated left rows. -/
def Join.scanLoop (rightRows : List StoredRow) (rightCol tname : String)
    (leftColRef : ColumnRef) : List CombinedRow → Except Err (List CombinedRow)
  | [] => .ok []
  | lrow :: rest =>
    match Join.resolveInCombined lrow leftColRef with
    | .error e => .error e
    | .ok keyVal =>
      match Join.scanLoop rightRows rightCol tname leftColRef rest with
      | .error e => .error e
      | .ok out =>
        .ok ((rightRows.filter (fun r => pyEq (rowGet r.fields rightCol) keyVal)).map
          (Join.extendCombined lrow tname) ++ out)

/-- Determine which side of the ON condition references the joining table:
its column is the right join column, the other side resolves against the
left rows. -/
def Join.onSides (j : JoinClause) : Option (String × ColumnRef) :=
  if j.left.table = some j.tableName then some (j.left.column, j.right)
  else if j.right.table = some j.tableName then some (j.right.column, j.left)
  else none

/-- `inner_join`: one join step; the right join column is the ON side
qualified to the joining table; probe its index when one exists, otherwise
scan the right table's active rows per left row.  Returns the joined rows
and the plan method. -/
def Join.innerJoin (db : Database) (leftRows : List CombinedRow) (j : JoinClause) :
    Except Err (List CombinedRow × String) :=
  match requireTable db j.tableName with
  | .error e => .error e
  | .ok rt =>
    match Join.onSides j with
    | none => .error (.execError
        "JOIN ON must reference the joining table with qualification, e.g. t1.x = t2.y")
    | some p =>
      match rt.indexes.find? (fun ix => ix.columnName == p.1) with
      | some idx =>
        match Join.indexLoop rt.heap idx j.tableName p.2 leftRows with
        | .error e => .error e
        | .ok out => .ok (out, "index")
      | none =>
        match Join.scanLoop (HeapTable.scanActive rt.heap) p.1 j.tableName p.2
            leftRows with
        | .error e => .error e
        | .ok out => .ok (out, "scan")

structure SelectStmt where
  columns : Option (List ColumnRef)
  fromTable : String
  joins : List JoinClause
  whereC : Option WhereClause
deriving DecidableEq, Repr

/-- Fold the join steps left to right. -/
def Join.joinFold (db : Database) : List JoinClause → List CombinedRow →
    Except Err (List CombinedRow)
  | [], rows => .ok rows
  | j :: rest, rows =>
    match Join.innerJoin db rows j with
    | .error e => .error e
    | .ok p => Join.joinFold db rest p.1

/-- The WHERE filter over combined rows: evaluation stops at the first row
whose evaluation raises. -/
def Join.whereFilter (w : Option WhereClause) : List CombinedRow →
    Except Err (List CombinedRow)
  | [] => .ok []
  | r :: rest =>
    match Join.whereMatches r w with
    | .error e => .error e
    | .ok true =>
      match Join.whereFilter w rest with
      | .error e => .error e
      | .ok out => .ok (r :: out)
    | .ok false => Join.whereFilter w rest

/-- Qualified output keys of `SELECT *` over base and joined tables. -/
def Executor.starColsJoins (db : Database) : List JoinClause →
    Except Err (List (String × String))
  | [] => .ok []
  | j :: rest =>
    match requireTable db j.tableName with
    | .error e => .error e
    | .ok rt =>
      match Executor.starColsJoins db rest with
      | .error e => .error e
      | .ok out => .ok (rt.meta.columns.map (fun c => (j.tableName, c.name)) ++ out)

/-- Explicit projection keys in a joined query: every reference must be
qualified, else the statement fails outright. -/
def Executor.qualifyCols : List ColumnRef → Except Err (List (String × String))
  | [] => .ok []
  | c :: rest =>
    match c.table with
    | none => .error (.execError
        "In JOIN queries, qualify selected columns with table (e.g., users.id).")
    | some tb =>
      match Executor.qualifyCols rest with
      | .error e => .error e
      | .ok out => .ok ((tb, c.column) :: out)

/-- `_select_join`: seed combined rows from the base table's active rows,
apply the join steps, filter by WHERE, then project (qualified star or an
explicit fully-qualified list; a qualified reference that matches nothing
projects as null via `row.get`). -/
def Executor.selectJoin (db : Database) (stmt : SelectStmt) : Except Err QueryOut :=
  match requireTable db stmt.fromTable with
  | .error e => .error e
  | .ok base =>
    match Join.joinFold db stmt.joins
        ((HeapTable.scanActive base.heap).map (fun rec =>
          applyCombinedPairs []
            (rec.fields.map (fun kv => ((stmt.fromTable, kv.1), kv.2))))) with
    | .error e => .error e
    | .ok rows =>
      match Join.whereFilter stmt.whereC rows with
      | .error e => .error e
      | .ok frows =>
        match stmt.columns with
        | none =>
          match Executor.starColsJoins db stmt.joins with
          | .error e => .error e
          | .ok joinCols =>
            .ok ⟨(base.meta.columns.map (fun c => (stmt.fromTable, c.name))
                ++ joinCols).map (fun p => p.1 ++ "." ++ p.2),
              frows.map (fun r =>
                (base.meta.columns.map (fun c => (stmt.fromTable, c.name))
                  ++ joinCols).map (fun p => combinedGet r p))⟩
        | some crs =>
          match Executor.qualifyCols crs with
          | .error e => .error e
          | .ok qcols =>
            .ok ⟨qcols.map (fun p => p.1 ++ "." ++ p.2),
              frows.map (fun r => qcols.map (fun p => combinedGet r p))⟩

/-- The conditions of an optional WHERE clause. -/
def Executor.wConds : Option WhereClause → List Condition
  | none => []
  | some w => w.conditions

/-- The pure (non-raising) reading of the single-table WHERE matcher:
all conditions hold under Python equality. -/
def Executor.rowMatchesPure (fields : Row) (conds : List Condition) : Bool :=
  conds.all (fun cond => pyEq (rowGet fields cond.left.column) cond.right)

/-- The premises under which the single-table plans agree: every condition
is an in-scope equality on a non-null literal, and on the active rows
Python equality with the literal coincides with structural equality
(ruling out the bool/int conflation that the type-tagged index keys do not
share). -/
def Executor.condsOkFor (t : Table) (w : Option WhereClause) : Bool :=
  (Executor.wConds w).all (fun cond =>
    (cond.op == "=") &&
    !(Executor.qualifierSkips cond.left.table t.meta.name) &&
    !(cond.right == Value.vNull) &&
    (HeapTable.scanActive t.heap).all (fun rec =>
      !(pyEq (rowGet rec.fields cond.left.column) cond.right) ||
        (rowGet rec.fields cond.left.column == cond.right)))

/-- The premises under which one join step's plans agree: every key value
resolved from a left row is non-null, and on the active right rows Python
equality with it coincides with structural equality. -/
def Join.compatOk (rheap : HeapState) (rightCol : String) (leftColRef : ColumnRef)
    (leftRows : List CombinedRow) : Bool :=
  leftRows.all (fun lrow =>
    match Join.resolveInCombined lrow leftColRef with
    | .error _ => true
    | .ok v =>
      !(v == Value.vNull) &&
      (HeapTable.scanActive rheap).all (fun rec =>
        !(pyEq (rowGet rec.fields rightCol) v) ||
          (rowGet rec.fields rightCol == v)))

/-- A nullable INTEGER column named `a` with no constraints. -/
def planColA : ColumnDef :=
  ⟨"a", ⟨"INTEGER", []⟩, false, false, false⟩

/-- A nullable INTEGER column named `b` with no constraints. -/
def planColB : ColumnDef :=
  ⟨"b", ⟨"INTEGER", []⟩, false, false, false⟩

/-- A single-column table whose one active row holds a null, with a
consistent (hence empty) index on that column. -/
def planTNull : Table :=
  ⟨⟨"t", [planColA]⟩,
    ⟨[⟨1, [("a", Value.vNull)]⟩], [(1, 0)], [], 2⟩,
    [⟨"ix_t_a", "a", []⟩]⟩

/-- `WHERE a = NULL` on `planTNull`. -/
def planWNull : Option WhereClause :=
  some ⟨[⟨⟨"a", none⟩, "=", Value.vNull⟩]⟩

/-- A two-row integer table with a consistent index on its column. -/
def planT1 : Table :=
  ⟨⟨"t", [planColA]⟩,
    ⟨[⟨1, [("a", Value.vInt 7)]⟩, ⟨2, [("a", Value.vInt 8)]⟩], [(1, 0), (2, 1)],
      [], 3⟩,
    [⟨"ix_t_a", "a", [("i:7", [1]), ("i:8", [2])]⟩]⟩

/-- `WHERE a = 7` on `planT1`. -/
def planW1 : Option WhereClause :=
  some ⟨[⟨⟨"a", none⟩, "=", Value.vInt 7⟩]⟩

/-- A right table for one join step, indexed on its join column. -/
def planRt : Table :=
  ⟨⟨"r", [planColB]⟩,
    ⟨[⟨1, [("b", Value.vInt 7)]⟩], [(1, 0)], [], 2⟩,
    [⟨"ix_r_b", "b", [("i:7", [1])]⟩]⟩

def planDb1 : Database := [("r", planRt)]

def planDb2 : Database := [("r", Table.noIndexes planRt)]

/-- `JOIN r ON r.b = l.a`. -/
def planJ : JoinClause :=
  ⟨"r", ⟨"b", some "r"⟩, ⟨"a", some "l"⟩⟩

def planLeftRows : List CombinedRow := [[(("l", "a"), Value.vInt 7)]]

/-- The combined rows the index-nested-loop step produces on the inputs
above. -/
def planOut1 : List CombinedRow :=
  [[(("l", "a"), Value.vInt 7), (("r", "b"), Value.vInt 7)]]

/-- A base table `a(x)` with one row `x = 7`. -/
def joinTa : Table :=
  ⟨⟨"a", [⟨"x", ⟨"INTEGER", []⟩, false, false, false⟩]⟩,
    ⟨[⟨1, [("x", Value.vInt 7)]⟩], [(1, 0)], [], 2⟩, []⟩

/-- A join table `b(y)` with one row `y = 7` and no index. -/
def joinTb : Table :=
  ⟨⟨"b", [⟨"y", ⟨"INTEGER", []⟩, false, false, false⟩]⟩,
    ⟨[⟨1, [("y", Value.vInt 7)]⟩], [(1, 0)], [], 2⟩, []⟩

def joinDbEx : Database := [("a", joinTa), ("b", joinTb)]

/-- `JOIN b ON b.y = a.x`. -/
def joinJEx : JoinClause := ⟨"b", ⟨"y", some "b"⟩, ⟨"x", some "a"⟩⟩

/-- `SELECT a.zzz FROM a JOIN b ON b.y = a.x` — `a.zzz` does not exist. -/
def joinStmtMissingProj : SelectStmt :=
  ⟨some [⟨"zzz", some "a"⟩], "a", [joinJEx], none⟩

/-- `SELECT a.x FROM a JOIN b ON b.y = a.x WHERE a.zzz = 1`. -/
def joinStmtBadWhere : SelectStmt :=
  ⟨some [⟨"x", some "a"⟩], "a", [joinJEx],
    some ⟨[⟨⟨"zzz", some "a"⟩, "=", Value.vInt 1⟩]⟩⟩

/-- `SELECT x FROM a JOIN b ON b.y = a.x` — unqualified projection. -/
def joinStmtUnqual : SelectStmt :=
  ⟨some [⟨"x", none⟩], "a", [joinJEx], none⟩

/-- The first (only) combined row the join pipeline produces on `joinDbEx`. -/
def joinRowEx : CombinedRow :=
  [(("a", "x"), Value.vInt 7), (("b", "y"), Value.vInt 7)]


theorem HeapTable.insert_eq (h : HeapState) (row : Row) :
    insert h row =
      (h.nextRid,
        { log := h.log ++ [⟨h.nextRid, row⟩],
          dir := assocSet h.dir h.nextRid h.log.length,
          tombs := h.tombs,
          nextRid := h.nextRid + 1 }) := rfl

theorem HeapTable.insertTrace_eq (h : HeapState) (row : Row) :
    insertTrace h row = [.counterPersist, .logAppend, .dirUpdate] := rfl

theorem assocGet_assocSet_self (m : List (Nat × Nat)) (k v : Nat) :
    assocGet (assocSet m k v) k = some v := by
  induction m with
  | nil => simp [assocSet, assocGet]
  | cons kv rest ih =>
    by_cases hk : kv.1 = k
    · simp [assocSet, hk, assocGet]
    · simpa [assocSet, hk, assocGet] using ih

theorem assocGet_assocSet_ne (m : List (Nat × Nat)) (k v k' : Nat) (hne : k' ≠ k) :
    assocGet (assocSet m k v) k' = assocGet m k' := by
  induction m with
  | nil => simp [assocSet, assocGet, Ne.symm hne]
  | cons kv rest ih =>
    by_cases hk : kv.1 = k
    · have hk' : kv.1 ≠ k' := by rw [hk]; exact Ne.symm hne
      simp [assocSet, hk, assocGet, Ne.symm hne, hk']
    · by_cases hk' : kv.1 = k'
      · simp [assocSet, hk, assocGet, hk', hne]
      · simpa [assocSet, hk, assocGet, hk'] using ih

theorem HeapTable.tracksRow_insert (h : HeapState) (row : Row) :
    TracksRow (insert h row).2 (insert h row).1 row := by
  rw [insert_eq]
  refine ⟨⟨h.log.length, assocGet_assocSet_self _ _ _, ?_⟩, Nat.lt_succ_self _⟩
  simp

theorem HeapTable.tracksRow_preserved_insert (h : HeapState) (rid : Nat) (row r' : Row)
    (ht : TracksRow h rid row) : TracksRow (insert h r').2 rid row := by
  obtain ⟨⟨off, hdir, hlog⟩, hlt⟩ := ht
  rw [insert_eq]
  refine ⟨⟨off, ?_, ?_⟩, Nat.lt_succ_of_lt hlt⟩
  · rw [assocGet_assocSet_ne _ _ _ _ (Nat.ne_of_lt hlt)]
    exact hdir
  · have hofflt : off < h.log.length := by
      rcases List.getElem?_eq_some.mp hlog with ⟨hh, _⟩
      exact hh
    rw [List.getElem?_append_left hofflt]
    exact hlog

theorem HeapTable.tracksRow_preserved_tombstone (h : HeapState) (rid : Nat) (row : Row) (r : Nat)
    (ht : TracksRow h rid row) : TracksRow (tombstone h r) rid row := ht

theorem HeapTable.tracksRow_preserved_ops (h : HeapState) (rid : Nat) (row : Row) (ops : List Op)
    (ht : TracksRow h rid row) : TracksRow (applyOps h ops) rid row := by
  induction ops generalizing h with
  | nil => exact ht
  | cons op rest ih =>
    cases op with
    | opInsert r' => exact ih _ (tracksRow_preserved_insert _ _ _ _ ht)
    | opTombstone r => exact ih _ (tracksRow_preserved_tombstone _ _ _ _ ht)

theorem HeapTable.getByRid_of_tracks (h : HeapState) (rid : Nat) (row : Row)
    (ht : TracksRow h rid row) (hnt : rid ∉ h.tombs) :
    getByRid h rid = .ok (some ⟨rid, row⟩) := by
  obtain ⟨⟨off, hdir, hlog⟩, _⟩ := ht
  simp [getByRid, hnt, hdir, hlog]

theorem HeapTable.getByRid_of_tombstoned (h : HeapState) (rid : Nat) (hnt : rid ∈ h.tombs) :
    getByRid h rid = .ok none := by
  simp [getByRid, hnt]

/-- C4: for every row `r` inserted into a table, with `rid` the value returned
by `insert(r)`: after any further sequence of heap operations, `get_by_rid rid`
returns exactly `r`'s column values as long as `rid` has not been tombstoned,
and once `rid` is in the tombstone set it returns absent (`None`). -/
theorem insert_getByRid_roundtrip (h : HeapState) (r : Row) (ops : List HeapTable.Op) :
    ((HeapTable.insert h r).1 ∉ (HeapTable.applyOps (HeapTable.insert h r).2 ops).tombs →
      HeapTable.getByRid (HeapTable.applyOps (HeapTable.insert h r).2 ops)
        (HeapTable.insert h r).1 = .ok (some ⟨(HeapTable.insert h r).1, r⟩)) ∧
    ((HeapTable.insert h r).1 ∈ (HeapTable.applyOps (HeapTable.insert h r).2 ops).tombs →
      HeapTable.getByRid (HeapTable.applyOps (HeapTable.insert h r).2 ops)
        (HeapTable.insert h r).1 = .ok none) := by
  constructor
  · intro hnt
    exact HeapTable.getByRid_of_tracks _ _ _
      (HeapTable.tracksRow_preserved_ops _ _ _ _ (HeapTable.tracksRow_insert h r)) hnt
  · intro ht
    exact HeapTable.getByRid_of_tombstoned _ _ ht

/-- Witness for `insert_getByRid_roundtrip` at concrete inputs: the inserted
row read back after an unrelated insert, and the absent answer once the rid
is tombstoned. -/
theorem insert_getByRid_roundtrip_witness :
    (HeapTable.getByRid
        (HeapTable.applyOps (HeapTable.insert ⟨[], [], [], 1⟩ [("a", .vInt 7)]).2
          [.opInsert [("a", .vInt 8)]])
        (HeapTable.insert ⟨[], [], [], 1⟩ [("a", .vInt 7)]).1 =
      .ok (some ⟨1, [("a", .vInt 7)]⟩)) ∧
    (HeapTable.getByRid
        (HeapTable.applyOps (HeapTable.insert ⟨[], [], [], 1⟩ [("a", .vInt 7)]).2
          [.opTombstone 1])
        (HeapTable.insert ⟨[], [], [], 1⟩ [("a", .vInt 7)]).1 =
      .ok none) :=
  ⟨(insert_getByRid_roundtrip ⟨[], [], [], 1⟩ [("a", .vInt 7)]
      [.opInsert [("a", .vInt 8)]]).1 (by decide),
    (insert_getByRid_roundtrip ⟨[], [], [], 1⟩ [("a", .vInt 7)]
      [.opTombstone 1]).2 (by decide)⟩

/-- C5 counterexample: in the source, `HeapTable.insert` persists the
`next_rid` counter FIRST, then appends to the heap log, then updates the
rid directory — so the counter write precedes the log append, refuting the
claimed order (log append, then directory, then counter, with the counter
write never preceding the log append). -/
theorem insert_effect_order_cex :
    HeapTable.insertTrace ⟨[], [], [], 1⟩ [("a", .vInt 7)] =
        [.counterPersist, .logAppend, .dirUpdate] ∧
      ¬ (HeapTable.insertTrace ⟨[], [], [], 1⟩ [("a", .vInt 7)]).indexOf HeapEvent.logAppend <
          (HeapTable.insertTrace ⟨[], [], [], 1⟩ [("a", .vInt 7)]).indexOf
            HeapEvent.counterPersist := by
  constructor
  · rfl
  · decide

theorem toDigitsCore_eq_decChars :
    ∀ (fuel n : Nat) (acc : List Char), n < fuel →
      Nat.toDigitsCore 10 fuel n acc = decChars n ++ acc := by
  intro fuel
  induction fuel with
  | zero => intro n acc h; exact absurd h (Nat.not_lt_zero n)
  | succ fuel ih =>
    intro n acc h
    show (if n / 10 = 0 then Nat.digitChar (n % 10) :: acc
      else Nat.toDigitsCore 10 fuel (n / 10) (Nat.digitChar (n % 10) :: acc)) =
        decChars n ++ acc
    by_cases hq : n / 10 = 0
    · rw [if_pos hq]
      by_cases hn : n = 0
      · subst hn
        simp only [decChars, if_pos rfl]
        rw [show (0 : Nat) % 10 = 0 from rfl, show Nat.digitChar 0 = '0' from rfl]
        rfl
      · have hdig : Nat.digits 10 n = [n % 10] := by
          rw [Nat.digits_def' (by norm_num : 1 < 10) (Nat.pos_of_ne_zero hn), hq]
          simp
        simp [decChars, hn, hdig]
    · rw [if_neg hq]
      have hn : n ≠ 0 := by
        intro h0; exact hq (by simp [h0])
      have hqlt : n / 10 < fuel :=
        lt_of_lt_of_le (Nat.div_lt_self (Nat.pos_of_ne_zero hn) (by norm_num))
          (Nat.lt_succ_iff.mp h)
      rw [ih (n / 10) _ hqlt]
      have hdig : Nat.digits 10 n = n % 10 :: Nat.digits 10 (n / 10) :=
        Nat.digits_def' (by norm_num : 1 < 10) (Nat.pos_of_ne_zero hn)
      simp [decChars, hn, hq, hdig]

theorem natRepr_eq_decChars (n : Nat) : Nat.repr n = (decChars n).asString := by
  show (Nat.toDigits 10 n).asString = (decChars n).asString
  rw [Nat.toDigits, toDigitsCore_eq_decChars (n + 1) n [] (Nat.lt_succ_self n)]
  simp

theorem digitChar_inj_lt :
    ∀ a < 10, ∀ b < 10, Nat.digitChar a = Nat.digitChar b → a = b := by decide

theorem map_digitChar_inj :
    ∀ l1 l2 : List Nat, (∀ d ∈ l1, d < 10) → (∀ d ∈ l2, d < 10) →
      l1.map Nat.digitChar = l2.map Nat.digitChar → l1 = l2 := by
  intro l1
  induction l1 with
  | nil => intro l2 _ _ h; cases l2 <;> simp_all
  | cons a t ih =>
    intro l2 h1 h2 h
    cases l2 with
    | nil => simp at h
    | cons b t2 =>
      simp only [List.map_cons, List.cons.injEq] at h
      have ha : a = b :=
        digitChar_inj_lt a (h1 a (by simp)) b (h2 b (by simp)) h.1
      have ht : t = t2 :=
        ih t2 (fun d hd => h1 d (by simp [hd])) (fun d hd => h2 d (by simp [hd])) h.2
      rw [ha, ht]

theorem decChars_inj : ∀ m n : Nat, decChars m = decChars n → m = n := by
  have key : ∀ k : Nat, k ≠ 0 → decChars k = ['0'] → False := by
    intro k hk h
    unfold decChars at h
    rw [if_neg hk] at h
    have hlen : (Nat.digits 10 k).length = 1 := by
      have := congrArg List.length h
      simpa using this
    obtain ⟨d, hd⟩ := List.length_eq_one.mp hlen
    rw [hd] at h
    simp only [List.map_cons, List.map_nil, List.reverse_cons, List.reverse_nil,
      List.nil_append, List.cons.injEq] at h
    have hdlt : d < 10 := Nat.digits_lt_base (by norm_num) (hd ▸ List.mem_singleton.mpr rfl)
    have hd0 : d = 0 := by
      refine digitChar_inj_lt d hdlt 0 (by norm_num) ?_
      rw [h.1]
      rfl
    have hdig0 : Nat.digits 10 k = [0] := by rw [hd, hd0]
    have hofd := Nat.ofDigits_digits 10 k
    rw [hdig0] at hofd
    simp [Nat.ofDigits] at hofd
    exact hk hofd.symm
  intro m n h
  by_cases hm : m = 0
  · by_cases hn : n = 0
    · rw [hm, hn]
    · exfalso
      refine key n hn ?_
      rw [← h, hm]
      rfl
  · by_cases hn : n = 0
    · exfalso
      refine key m hm ?_
      rw [h, hn]
      rfl
    · unfold decChars at h
      rw [if_neg hm, if_neg hn] at h
      have h2 := List.reverse_injective h
      have h3 := map_digitChar_inj _ _
        (fun d hd => Nat.digits_lt_base (by norm_num) hd)
        (fun d hd => Nat.digits_lt_base (by norm_num) hd) h2
      have := congrArg (Nat.ofDigits 10) h3
      rwa [Nat.ofDigits_digits, Nat.ofDigits_digits] at this

theorem asString_inj (l1 l2 : List Char) (h : l1.asString = l2.asString) : l1 = l2 := by
  simpa [List.asString] using congrArg String.data h

theorem natRepr_inj (m n : Nat) (h : Nat.repr m = Nat.repr n) : m = n := by
  rw [natRepr_eq_decChars, natRepr_eq_decChars] at h
  exact decChars_inj m n (asString_inj _ _ h)

theorem dash_not_mem_decChars (n : Nat) : '-' ∉ decChars n := by
  unfold decChars
  by_cases hn : n = 0
  · rw [if_pos hn]; decide
  · rw [if_neg hn]
    intro hmem
    rw [List.mem_reverse] at hmem
    obtain ⟨d, hd, hdc⟩ := List.mem_map.mp hmem
    have hdlt : d < 10 := Nat.digits_lt_base (by norm_num) hd
    have hall : ∀ d < 10, Nat.digitChar d ≠ '-' := by decide
    exact hall d hdlt hdc

theorem string_append_cancel_left (s a b : String) (h : s ++ a = s ++ b) : a = b := by
  have hd := congrArg String.data h
  simp only [String.data_append] at hd
  have h2 := List.append_cancel_left hd
  cases a with
  | mk da =>
    cases b with
    | mk db =>
      exact congrArg String.mk h2

theorem intRepr_inj (a b : Int) (h : Int.repr a = Int.repr b) : a = b := by
  cases a with
  | ofNat m =>
    cases b with
    | ofNat n =>
      have := natRepr_inj m n h
      rw [this]
    | negSucc n =>
      exfalso
      simp only [Int.repr] at h
      have hd := congrArg String.data h
      rw [natRepr_eq_decChars m] at hd
      simp only [String.data_append] at hd
      have hmem : '-' ∈ decChars m := by
        rw [show ((decChars m).asString).data = decChars m from rfl] at hd
        rw [hd]
        simp [show ("-" : String).data = ['-'] from rfl]
      exact dash_not_mem_decChars m hmem
  | negSucc m =>
    cases b with
    | ofNat n =>
      exfalso
      simp only [Int.repr] at h
      have hd := congrArg String.data h.symm
      rw [natRepr_eq_decChars n] at hd
      simp only [String.data_append] at hd
      have hmem : '-' ∈ decChars n := by
        rw [show ((decChars n).asString).data = decChars n from rfl] at hd
        rw [hd]
        simp [show ("-" : String).data = ['-'] from rfl]
      exact dash_not_mem_decChars n hmem
    | negSucc n =>
      simp only [Int.repr] at h
      have h2 := string_append_cancel_left "-" _ _ h
      have hmn := natRepr_inj _ _ h2
      simp only [Nat.succ.injEq] at hmn
      rw [hmn]

theorem data_head_ne (a b : Char) (l1 l2 : List Char) (hne : a ≠ b) :
    a :: l1 ≠ b :: l2 := by
  intro h
  injection h with h1 _
  exact hne h1

theorem encodeKey_inj (a b : Value) (ha : a ≠ .vNull) (hb : b ≠ .vNull)
    (h : encodeKey a = encodeKey b) : a = b := by
  cases a with
  | vNull => exact absurd rfl ha
  | vInt i =>
    cases b with
    | vNull => exact absurd rfl hb
    | vInt j =>
      have := string_append_cancel_left "i:" _ _ h
      rw [intRepr_inj i j this]
    | vStr t =>
      exfalso
      have hd := congrArg String.data h
      simp only [encodeKey, String.data_append,
        show ("i:" : String).data = ['i', ':'] from rfl,
        show ("s:" : String).data = ['s', ':'] from rfl,
        List.cons_append, List.nil_append] at hd
      exact data_head_ne _ _ _ _ (by decide) hd
    | vBool c =>
      exfalso
      have hd := congrArg String.data h
      cases c <;>
        simp only [encodeKey, if_pos, if_neg, Bool.false_eq_true, not_false_iff,
          String.data_append,
          show ("i:" : String).data = ['i', ':'] from rfl,
          show ("b:" : String).data = ['b', ':'] from rfl,
          show ("true" : String).data = ['t', 'r', 'u', 'e'] from rfl,
          show ("false" : String).data = ['f', 'a', 'l', 's', 'e'] from rfl,
          List.cons_append, List.nil_append] at hd <;>
        exact data_head_ne _ _ _ _ (by decide) hd
  | vStr s =>
    cases b with
    | vNull => exact absurd rfl hb
    | vInt j =>
      exfalso
      have hd := congrArg String.data h
      simp only [encodeKey, String.data_append,
        show ("i:" : String).data = ['i', ':'] from rfl,
        show ("s:" : String).data = ['s', ':'] from rfl,
        List.cons_append, List.nil_append] at hd
      exact data_head_ne _ _ _ _ (by decide) hd
    | vStr t =>
      have := string_append_cancel_left "s:" _ _ h
      rw [this]
    | vBool c =>
      exfalso
      have hd := congrArg String.data h
      cases c <;>
        simp only [encodeKey, String.data_append,
          show ("s:" : String).data = ['s', ':'] from rfl,
          show ("b:" : String).data = ['b', ':'] from rfl,
          show ("true" : String).data = ['t', 'r', 'u', 'e'] from rfl,
          show ("false" : String).data = ['f', 'a', 'l', 's', 'e'] from rfl,
          List.cons_append, List.nil_append] at hd <;>
        exact data_head_ne _ _ _ _ (by decide) hd
  | vBool c =>
    cases b with
    | vNull => exact absurd rfl hb
    | vInt j =>
      exfalso
      have hd := congrArg String.data h
      cases c <;>
        simp only [encodeKey, String.data_append,
          show ("i:" : String).data = ['i', ':'] from rfl,
          show ("b:" : String).data = ['b', ':'] from rfl,
          show ("true" : String).data = ['t', 'r', 'u', 'e'] from rfl,
          show ("false" : String).data = ['f', 'a', 'l', 's', 'e'] from rfl,
          List.cons_append, List.nil_append] at hd <;>
        exact data_head_ne _ _ _ _ (by decide) hd
    | vStr t =>
      exfalso
      have hd := congrArg String.data h
      cases c <;>
        simp only [encodeKey, String.data_append,
          show ("s:" : String).data = ['s', ':'] from rfl,
          show ("b:" : String).data = ['b', ':'] from rfl,
          show ("true" : String).data = ['t', 'r', 'u', 'e'] from rfl,
          show ("false" : String).data = ['f', 'a', 'l', 's', 'e'] from rfl,
          List.cons_append, List.nil_append] at hd <;>
        exact data_head_ne _ _ _ _ (by decide) hd
    | vBool d =>
      cases c <;> cases d <;> simp_all [encodeKey]

theorem encodeKey_ne_null (a : Value) (ha : a ≠ .vNull) :
    encodeKey a ≠ encodeKey .vNull := by
  cases a with
  | vNull => exact absurd rfl ha
  | vInt i =>
    intro h
    have hd := congrArg String.data h
    simp only [encodeKey, String.data_append,
      show ("i:" : String).data = ['i', ':'] from rfl,
      show ("n:null" : String).data = ['n', ':', 'n', 'u', 'l', 'l'] from rfl,
      List.cons_append, List.nil_append] at hd
    exact data_head_ne _ _ _ _ (by decide) hd
  | vStr s =>
    intro h
    have hd := congrArg String.data h
    simp only [encodeKey, String.data_append,
      show ("s:" : String).data = ['s', ':'] from rfl,
      show ("n:null" : String).data = ['n', ':', 'n', 'u', 'l', 'l'] from rfl,
      List.cons_append, List.nil_append] at hd
    exact data_head_ne _ _ _ _ (by decide) hd
  | vBool c =>
    intro h
    have hd := congrArg String.data h
    cases c <;>
      simp only [encodeKey, String.data_append,
        show ("b:" : String).data = ['b', ':'] from rfl,
        show ("true" : String).data = ['t', 'r', 'u', 'e'] from rfl,
        show ("false" : String).data = ['f', 'a', 'l', 's', 'e'] from rfl,
        show ("n:null" : String).data = ['n', ':', 'n', 'u', 'l', 'l'] from rfl,
        List.cons_append, List.nil_append] at hd <;>
      exact data_head_ne _ _ _ _ (by decide) hd

theorem HashIndex.mem_getSet_addKey (m : List (String × List Nat)) (k : String)
    (rid : Nat) (k' : String) (r : Nat) :
    r ∈ getSet (addKey m k rid) k' ↔ (r ∈ getSet m k' ∨ (k' = k ∧ r = rid)) := by
  induction m with
  | nil =>
    show r ∈ getSet [(k, [rid])] k' ↔ r ∈ getSet [] k' ∨ (k' = k ∧ r = rid)
    by_cases hk : k = k'
    · subst hk
      rw [show getSet [(k, [rid])] k = [rid] from by simp [getSet]]
      simp [getSet]
    · rw [show getSet [(k, [rid])] k' = [] from by simp [getSet, hk]]
      constructor
      · intro hr
        exact absurd hr (List.not_mem_nil r)
      · rintro (hr | ⟨hc, _⟩)
        · exact absurd hr (List.not_mem_nil r)
        · exact absurd hc.symm hk
  | cons kv rest ih =>
    by_cases h1 : kv.1 = k
    · rw [show addKey (kv :: rest) k rid
          = (k, if rid ∈ kv.2 then kv.2 else kv.2 ++ [rid]) :: rest from by
        simp [addKey, h1]]
      by_cases h2 : k = k'
      · subst h2
        rw [show getSet ((k, if rid ∈ kv.2 then kv.2 else kv.2 ++ [rid]) :: rest) k
            = (if rid ∈ kv.2 then kv.2 else kv.2 ++ [rid]) from by simp [getSet]]
        rw [show getSet (kv :: rest) k = kv.2 from by simp [getSet, h1]]
        by_cases h3 : rid ∈ kv.2
        · rw [if_pos h3]
          constructor
          · exact fun hr => Or.inl hr
          · rintro (hr | ⟨_, hr⟩)
            · exact hr
            · rw [hr]; exact h3
        · rw [if_neg h3, List.mem_append, List.mem_singleton]
          tauto
      · rw [show getSet ((k, if rid ∈ kv.2 then kv.2 else kv.2 ++ [rid]) :: rest) k'
            = getSet rest k' from by simp [getSet, fun hh : k = k' => h2 hh]]
        rw [show getSet (kv :: rest) k' = getSet rest k' from by
          simp [getSet, h1, fun hh : k = k' => h2 hh]]
        constructor
        · exact fun hr => Or.inl hr
        · rintro (hr | ⟨hc, _⟩)
          · exact hr
          · exact absurd hc.symm h2
    · rw [show addKey (kv :: rest) k rid = kv :: addKey rest k rid from by
        simp [addKey, h1]]
      by_cases h2 : kv.1 = k'
      · rw [show getSet (kv :: addKey rest k rid) k' = kv.2 from by simp [getSet, h2],
          show getSet (kv :: rest) k' = kv.2 from by simp [getSet, h2]]
        constructor
        · exact fun hr => Or.inl hr
        · rintro (hr | ⟨hc, _⟩)
          · exact hr
          · exact absurd (h2.trans hc) h1
      · rw [show getSet (kv :: addKey rest k rid) k' = getSet (addKey rest k rid) k' from by
          simp [getSet, h2],
          show getSet (kv :: rest) k' = getSet rest k' from by simp [getSet, h2]]
        exact ih

theorem HashIndex.getSet_eq_nil_of_not_mem_keys (m : List (String × List Nat))
    (k : String) (hk : k ∉ m.map Prod.fst) : getSet m k = [] := by
  induction m with
  | nil => rfl
  | cons kv rest ih =>
    simp only [List.map_cons, List.mem_cons] at hk
    push_neg at hk
    have hne : kv.1 ≠ k := fun hh => hk.1 hh.symm
    rw [show getSet (kv :: rest) k = getSet rest k from by simp [getSet, hne]]
    exact ih hk.2

theorem HashIndex.mem_getSet_removeKey (m : List (String × List Nat)) (k : String)
    (rid : Nat) (k' : String) (r : Nat) (hnd : (m.map Prod.fst).Nodup) :
    r ∈ getSet (removeKey m k rid) k' ↔
      (r ∈ getSet m k' ∧ ¬(k' = k ∧ r = rid)) := by
  induction m with
  | nil => simp [removeKey, getSet]
  | cons kv rest ih =>
    simp only [List.map_cons, List.nodup_cons] at hnd
    by_cases h1 : kv.1 = k
    · by_cases hemp : kv.2 = []
      · rw [show removeKey (kv :: rest) k rid = kv :: rest from by
          simp [removeKey, h1, hemp]]
        constructor
        · intro hr
          refine ⟨hr, ?_⟩
          rintro ⟨hk', hrid⟩
          rw [show k' = k from hk', ← h1] at hr
          rw [show getSet (kv :: rest) kv.1 = kv.2 from by simp [getSet]] at hr
          rw [hemp] at hr
          exact absurd hr (List.not_mem_nil r)
        · exact fun hr => hr.1
      · by_cases hflt : kv.2.filter (fun x => decide (x ≠ rid)) = []
        · rw [show removeKey (kv :: rest) k rid = rest from by
            simp only [removeKey]
            rw [if_pos h1, if_neg hemp, if_pos hflt]]
          by_cases h2 : kv.1 = k'
          · have hgr : getSet rest k' = [] := by
              refine getSet_eq_nil_of_not_mem_keys rest k' ?_
              rw [← h2]
              exact hnd.1
            rw [hgr, show getSet (kv :: rest) k' = kv.2 from by simp [getSet, h2]]
            simp only [List.not_mem_nil, false_iff]
            rintro ⟨hmem, hne⟩
            have hmf : r ∈ kv.2.filter (fun x => decide (x ≠ rid)) := by
              rw [List.mem_filter]
              refine ⟨hmem, ?_⟩
              simp only [decide_eq_true_eq]
              intro hrr
              exact hne ⟨h2.symm.trans h1, hrr⟩
            rw [hflt] at hmf
            exact absurd hmf (List.not_mem_nil r)
          · rw [show getSet (kv :: rest) k' = getSet rest k' from by simp [getSet, h2]]
            constructor
            · intro hr
              refine ⟨hr, ?_⟩
              rintro ⟨hk', _⟩
              exact h2 (h1.trans hk'.symm)
            · exact fun hr => hr.1
        · rw [show removeKey (kv :: rest) k rid
              = (k, kv.2.filter (fun x => decide (x ≠ rid))) :: rest from by
            simp only [removeKey]
            rw [if_pos h1, if_neg hemp, if_neg hflt]]
          by_cases h2 : k = k'
          · subst h2
            rw [show getSet ((k, kv.2.filter (fun x => decide (x ≠ rid))) :: rest) k
                = kv.2.filter (fun x => decide (x ≠ rid)) from by simp [getSet]]
            rw [show getSet (kv :: rest) k = kv.2 from by simp [getSet, h1]]
            constructor
            · intro hr
              rw [List.mem_filter] at hr
              simp only [decide_eq_true_eq] at hr
              exact ⟨hr.1, fun hc => hr.2 hc.2⟩
            · intro hr
              rw [List.mem_filter]
              simp only [decide_eq_true_eq]
              exact ⟨hr.1, fun hc => hr.2 ⟨rfl, hc⟩⟩
          · rw [show getSet ((k, kv.2.filter (fun x => decide (x ≠ rid))) :: rest) k'
                = getSet rest k' from by simp [getSet, fun hh : k = k' => h2 hh]]
            rw [show getSet (kv :: rest) k' = getSet rest k' from by
              simp [getSet, h1, fun hh : k = k' => h2 hh]]
            constructor
            · intro hr
              exact ⟨hr, fun hc => h2 hc.1.symm⟩
            · exact fun hr => hr.1
    · rw [show removeKey (kv :: rest) k rid = kv :: removeKey rest k rid from by
        simp [removeKey, h1]]
      by_cases h2 : kv.1 = k'
      · rw [show getSet (kv :: removeKey rest k rid) k' = kv.2 from by simp [getSet, h2],
          show getSet (kv :: rest) k' = kv.2 from by simp [getSet, h2]]
        constructor
        · intro hr
          refine ⟨hr, ?_⟩
          rintro ⟨hk', _⟩
          exact h1 (h2.trans hk')
        · exact fun hr => hr.1
      · rw [show getSet (kv :: removeKey rest k rid) k'
            = getSet (removeKey rest k rid) k' from by simp [getSet, h2],
          show getSet (kv :: rest) k' = getSet rest k' from by simp [getSet, h2]]
        exact ih hnd.2

theorem HashIndex.mem_keys_addKey (m : List (String × List Nat)) (k : String)
    (rid : Nat) (x : String) :
    x ∈ (addKey m k rid).map Prod.fst ↔ (x ∈ m.map Prod.fst ∨ x = k) := by
  induction m with
  | nil =>
    show x ∈ [(k, [rid])].map Prod.fst ↔ _
    simp
  | cons kv rest ih =>
    by_cases h1 : kv.1 = k
    · rw [show addKey (kv :: rest) k rid
          = (k, if rid ∈ kv.2 then kv.2 else kv.2 ++ [rid]) :: rest from by
        simp [addKey, h1]]
      simp only [List.map_cons, List.mem_cons, h1]
      tauto
    · rw [show addKey (kv :: rest) k rid = kv :: addKey rest k rid from by
        simp [addKey, h1]]
      simp only [List.map_cons, List.mem_cons, ih]
      tauto

theorem HashIndex.keysNodup_addKey (m : List (String × List Nat)) (k : String)
    (rid : Nat) (hnd : (m.map Prod.fst).Nodup) :
    ((addKey m k rid).map Prod.fst).Nodup := by
  induction m with
  | nil => simp [addKey]
  | cons kv rest ih =>
    simp only [List.map_cons, List.nodup_cons] at hnd
    by_cases h1 : kv.1 = k
    · rw [show addKey (kv :: rest) k rid
          = (k, if rid ∈ kv.2 then kv.2 else kv.2 ++ [rid]) :: rest from by
        simp [addKey, h1]]
      simp only [List.map_cons, List.nodup_cons]
      exact ⟨h1 ▸ hnd.1, hnd.2⟩
    · rw [show addKey (kv :: rest) k rid = kv :: addKey rest k rid from by
        simp [addKey, h1]]
      simp only [List.map_cons, List.nodup_cons]
      refine ⟨?_, ih hnd.2⟩
      rw [mem_keys_addKey]
      rintro (hmem | hk)
      · exact hnd.1 hmem
      · exact h1 hk

theorem HashIndex.keys_removeKey_sublist (m : List (String × List Nat)) (k : String)
    (rid : Nat) :
    ((removeKey m k rid).map Prod.fst).Sublist (m.map Prod.fst) := by
  induction m with
  | nil => simp [removeKey]
  | cons kv rest ih =>
    by_cases h1 : kv.1 = k
    · by_cases hemp : kv.2 = []
      · rw [show removeKey (kv :: rest) k rid = kv :: rest from by
          simp [removeKey, h1, hemp]]
      · by_cases hflt : kv.2.filter (fun r => decide (r ≠ rid)) = []
        · rw [show removeKey (kv :: rest) k rid = rest from by
            simp only [removeKey]
            rw [if_pos h1, if_neg hemp, if_pos hflt]]
          exact List.sublist_cons_of_sublist _ (List.Sublist.refl _)
        · rw [show removeKey (kv :: rest) k rid
              = (k, kv.2.filter (fun r => decide (r ≠ rid))) :: rest from by
            simp only [removeKey]
            rw [if_pos h1, if_neg hemp, if_neg hflt]]
          simp only [List.map_cons]
          rw [← h1]
    · rw [show removeKey (kv :: rest) k rid = kv :: removeKey rest k rid from by
        simp [removeKey, h1]]
      simp only [List.map_cons]
      exact List.Sublist.cons₂ _ ih

theorem HashIndex.keysNodup_removeKey (m : List (String × List Nat)) (k : String)
    (rid : Nat) (hnd : (m.map Prod.fst).Nodup) :
    ((removeKey m k rid).map Prod.fst).Nodup :=
  (keys_removeKey_sublist m k rid).nodup hnd

theorem assocGet_some_mem (m : List (Nat × Nat)) (k v : Nat)
    (h : assocGet m k = some v) : (k, v) ∈ m := by
  induction m with
  | nil => exact absurd h (by simp [assocGet])
  | cons kv rest ih =>
    by_cases h1 : kv.1 = k
    · rw [show assocGet (kv :: rest) k = some kv.2 from by simp [assocGet, h1]] at h
      injection h with hv
      have hkv : kv = (k, v) := by
        obtain ⟨a, b⟩ := kv
        simp only at h1 hv
        rw [h1, hv]
      rw [← hkv]
      exact List.mem_cons_self kv rest
    · rw [show assocGet (kv :: rest) k = assocGet rest k from by simp [assocGet, h1]] at h
      exact List.mem_cons_of_mem kv (ih h)

theorem mem_assocSet (m : List (Nat × Nat)) (k v : Nat) (e : Nat × Nat)
    (he : e ∈ assocSet m k v) : e ∈ m ∨ e = (k, v) := by
  induction m with
  | nil =>
    simp only [assocSet, List.mem_singleton] at he
    exact Or.inr he
  | cons kv rest ih =>
    by_cases h1 : kv.1 = k
    · rw [show assocSet (kv :: rest) k v = (k, v) :: rest from by
        simp [assocSet, h1]] at he
      rcases List.mem_cons.mp he with hh | hh
      · exact Or.inr hh
      · exact Or.inl (List.mem_cons_of_mem kv hh)
    · rw [show assocSet (kv :: rest) k v = kv :: assocSet rest k v from by
        simp [assocSet, h1]] at he
      rcases List.mem_cons.mp he with hh | hh
      · exact Or.inl (by rw [hh]; exact List.mem_cons_self kv rest)
      · rcases ih hh with hm | hh2
        · exact Or.inl (List.mem_cons_of_mem kv hm)
        · exact Or.inr hh2

theorem HeapTable.mem_scanActive (h : HeapState) (rec : StoredRow) :
    rec ∈ scanActive h ↔ (rec ∈ h.log ∧ rec.rid ∉ h.tombs) := by
  simp [scanActive, List.mem_filter]

theorem HeapTable.active_rid_unique (h : HeapState) (hwf : HeapWF h)
    (rec1 rec2 : StoredRow) (h1 : rec1 ∈ scanActive h) (h2 : rec2 ∈ scanActive h)
    (hr : rec1.rid = rec2.rid) : rec1 = rec2 := by
  have hm1 : rec1 ∈ h.log := ((mem_scanActive h rec1).mp h1).1
  have hm2 : rec2 ∈ h.log := ((mem_scanActive h rec2).mp h2).1
  exact List.inj_on_of_nodup_map hwf.1 hm1 hm2 hr

theorem HeapTable.getByRid_active (h : HeapState) (hwf : HeapWF h) (rec : StoredRow)
    (ha : rec ∈ scanActive h) : getByRid h rec.rid = .ok (some rec) := by
  obtain ⟨hlog, htomb⟩ := (mem_scanActive h rec).mp ha
  have hc := hwf.2.2.1 rec hlog
  rw [Option.bind_eq_some] at hc
  obtain ⟨off, hoff, hrec⟩ := hc
  simp [getByRid, htomb, hoff, hrec]

theorem HeapTable.getByRid_no_active (h : HeapState) (hwf : HeapWF h) (rid : Nat)
    (hno : ∀ rec ∈ scanActive h, rec.rid ≠ rid) : getByRid h rid = .ok none := by
  by_cases ht : rid ∈ h.tombs
  · simp [getByRid, ht]
  · match hd : assocGet h.dir rid with
    | none => simp [getByRid, ht, hd]
    | some off =>
      exfalso
      have hmem := assocGet_some_mem h.dir rid off hd
      have hsound := hwf.2.1 (rid, off) hmem
      simp only [Option.map_eq_some'] at hsound
      obtain ⟨rec, hrec, hrid⟩ := hsound
      have hlog : rec ∈ h.log := List.getElem?_mem hrec
      have hact : rec ∈ scanActive h := by
        rw [mem_scanActive]
        exact ⟨hlog, by rw [hrid]; exact ht⟩
      exact hno rec hact hrid

theorem HeapTable.getByRid_ok (h : HeapState) (hwf : HeapWF h) (rid : Nat) :
    ∃ o, getByRid h rid = .ok o := by
  by_cases hex : ∃ rec ∈ scanActive h, rec.rid = rid
  · obtain ⟨rec, ha, hr⟩ := hex
    exact ⟨some rec, by rw [← hr]; exact getByRid_active h hwf rec ha⟩
  · push_neg at hex
    exact ⟨none, getByRid_no_active h hwf rid hex⟩

theorem HeapTable.heapWF_insert (h : HeapState) (row : Row) (hwf : HeapWF h) :
    HeapWF (insert h row).2 := by
  rw [insert_eq]
  obtain ⟨hnd, hsound, hcomp, hfr, hft⟩ := hwf
  refine ⟨?_, ?_, ?_, ?_, ?_⟩
  · simp only [List.map_append, List.map_cons, List.map_nil]
    rw [List.nodup_append]
    refine ⟨hnd, List.nodup_singleton _, ?_⟩
    intro x hx hy
    rw [List.mem_singleton] at hy
    obtain ⟨rec, hrec, hrid⟩ := List.mem_map.mp hx
    have := hfr rec hrec
    omega
  · intro e he
    rcases mem_assocSet h.dir h.nextRid h.log.length e he with hold | hnew
    · have := hsound e hold
      simp only [Option.map_eq_some'] at this
      obtain ⟨rec, hrec, hrid⟩ := this
      have hlt : e.2 < h.log.length := (List.getElem?_eq_some.mp hrec).1
      simp only [List.getElem?_append_left hlt, hrec, Option.map_some', hrid]
    · rw [hnew]
      simp
  · intro rec hrec
    rcases List.mem_append.mp hrec with hold | hnew
    · have hne : rec.rid ≠ h.nextRid := Nat.ne_of_lt (hfr rec hold)
      rw [assocGet_assocSet_ne _ _ _ _ hne]
      have := hcomp rec hold
      rw [Option.bind_eq_some] at this ⊢
      obtain ⟨off, hoff, hrecoff⟩ := this
      have hlt : off < h.log.length := (List.getElem?_eq_some.mp hrecoff).1
      exact ⟨off, hoff, by rw [List.getElem?_append_left hlt]; exact hrecoff⟩
    · rw [List.mem_singleton] at hnew
      rw [hnew]
      rw [show (⟨h.nextRid, row⟩ : StoredRow).rid = h.nextRid from rfl,
        assocGet_assocSet_self]
      simp
  · intro rec hrec
    rcases List.mem_append.mp hrec with hold | hnew
    · exact Nat.lt_succ_of_lt (hfr rec hold)
    · rw [List.mem_singleton] at hnew
      rw [hnew]
      exact Nat.lt_succ_self _
  · intro t ht
    exact Nat.lt_succ_of_lt (hft t ht)

theorem HeapTable.mem_tombstone_tombs (h : HeapState) (rid x : Nat) :
    x ∈ (tombstone h rid).tombs ↔ (x ∈ h.tombs ∨ x = rid) := by
  show x ∈ (if rid ∈ h.tombs then h.tombs else h.tombs ++ [rid]) ↔ _
  by_cases hr : rid ∈ h.tombs
  · rw [if_pos hr]
    constructor
    · exact fun hx => Or.inl hx
    · rintro (hx | hx)
      · exact hx
      · rw [hx]; exact hr
  · rw [if_neg hr]
    simp [List.mem_append]

theorem HeapTable.heapWF_tombstone (h : HeapState) (rid : Nat) (hwf : HeapWF h)
    (hlt : rid < h.nextRid) : HeapWF (tombstone h rid) := by
  obtain ⟨hnd, hsound, hcomp, hfr, hft⟩ := hwf
  refine ⟨hnd, hsound, hcomp, hfr, ?_⟩
  intro t ht
  rcases (mem_tombstone_tombs h rid t).mp ht with hh | hh
  · exact hft t hh
  · rw [hh]; exact hlt

theorem HeapTable.scanActive_insert (h : HeapState) (row : Row) (hwf : HeapWF h) :
    scanActive (insert h row).2 = scanActive h ++ [⟨h.nextRid, row⟩] := by
  rw [insert_eq]
  show (h.log ++ [(⟨h.nextRid, row⟩ : StoredRow)]).filter
      (fun rec => decide (rec.rid ∉ h.tombs)) = scanActive h ++ [⟨h.nextRid, row⟩]
  rw [List.filter_append]
  congr 1
  have hfresh : h.nextRid ∉ h.tombs := fun hmem => absurd (hwf.2.2.2.2 _ hmem) (lt_irrefl _)
  simp [hfresh]

theorem HeapTable.scanActive_tombstone (h : HeapState) (rid : Nat) :
    scanActive (tombstone h rid) =
      (scanActive h).filter (fun rec => decide (rec.rid ≠ rid)) := by
  show h.log.filter _ = (h.log.filter _).filter _
  rw [List.filter_filter]
  apply List.filter_congr
  intro rec _
  by_cases h1 : rec.rid ∈ h.tombs <;> by_cases h2 : rec.rid = rid <;>
    simp [mem_tombstone_tombs, h1, h2]

theorem HeapTable.scanActive_subset_log (h : HeapState) (rec : StoredRow)
    (hr : rec ∈ scanActive h) : rec ∈ h.log :=
  ((mem_scanActive h rec).mp hr).1

theorem HashIndex.mem_getSet_entry (m : List (String × List Nat)) (k : String)
    (r : Nat) (hr : r ∈ getSet m k) : ∃ e ∈ m, e.1 = k ∧ r ∈ e.2 := by
  induction m with
  | nil => exact absurd hr (by simp [getSet])
  | cons kv rest ih =>
    by_cases h1 : kv.1 = k
    · rw [show getSet (kv :: rest) k = kv.2 from by simp [getSet, h1]] at hr
      exact ⟨kv, List.mem_cons_self kv rest, h1, hr⟩
    · rw [show getSet (kv :: rest) k = getSet rest k from by simp [getSet, h1]] at hr
      obtain ⟨e, he, hk, hre⟩ := ih hr
      exact ⟨e, List.mem_cons_of_mem kv he, hk, hre⟩

theorem HashIndex.getSet_of_mem_entry (m : List (String × List Nat))
    (e : String × List Nat) (hnd : (m.map Prod.fst).Nodup) (he : e ∈ m) :
    getSet m e.1 = e.2 := by
  induction m with
  | nil => exact absurd he (List.not_mem_nil e)
  | cons kv rest ih =>
    simp only [List.map_cons, List.nodup_cons] at hnd
    rcases List.mem_cons.mp he with hh | hh
    · rw [hh]
      simp [getSet]
    · have hne : kv.1 ≠ e.1 := by
        intro hk
        exact hnd.1 (hk ▸ List.mem_map.mpr ⟨e, hh, rfl⟩)
      rw [show getSet (kv :: rest) e.1 = getSet rest e.1 from by simp [getSet, hne]]
      exact ih hnd.2 hh

theorem IndexGood.sound_getSet (col : String) (m : List (String × List Nat))
    (h : HeapState) (hg : IndexGood col m h) (k : String) (r : Nat)
    (hr : r ∈ HashIndex.getSet m k) :
    ∃ rec ∈ HeapTable.scanActive h, rec.rid = r ∧
      rowGet rec.fields col ≠ Value.vNull ∧ encodeKey (rowGet rec.fields col) = k := by
  obtain ⟨e, he, hk, hre⟩ := HashIndex.mem_getSet_entry m k r hr
  obtain ⟨rec, harec, hrid, hnn, henc⟩ := hg.2.2.1 e he r hre
  exact ⟨rec, harec, hrid, hnn, henc.trans hk⟩

/-- The lookup-level reading of `IndexGood`: for non-null `v`, the rids
returned by `lookup v` are exactly the active rids whose column value is
`v`. -/
theorem IndexGood.mem_lookup_iff (col : String) (idx : HashIndexSt) (h : HeapState)
    (hg : IndexGood col idx.mapping h) (v : Value)
    (hv : v ≠ .vNull) (r : Nat) :
    r ∈ HashIndex.lookup idx v ↔
      ∃ rec ∈ HeapTable.scanActive h, rec.rid = r ∧ rowGet rec.fields col = v := by
  have hlk : HashIndex.lookup idx v
      = (HashIndex.getSet idx.mapping (encodeKey v)).mergeSort (fun a b => a ≤ b) := by
    cases v with
    | vNull => exact absurd rfl hv
    | vInt i => rfl
    | vStr s => rfl
    | vBool b => rfl
  rw [hlk, List.mem_mergeSort]
  constructor
  · intro hr
    obtain ⟨rec, harec, hrid, hnn, henc⟩ :=
      IndexGood.sound_getSet col idx.mapping h hg (encodeKey v) r hr
    exact ⟨rec, harec, hrid, encodeKey_inj _ _ hnn hv henc⟩
  · rintro ⟨rec, harec, hrid, hval⟩
    have := hg.2.2.2 rec harec (by rw [hval]; exact hv)
    rw [hval] at this
    rw [← hrid]
    exact this

/-- Inserting a row and indexing its column value preserves the invariant. -/
theorem indexGood_insert_step (col : String) (m : List (String × List Nat))
    (h : HeapState) (row : Row) (hwf : HeapWF h) (hg : IndexGood col m h) :
    IndexGood col (HashIndex.addVal m (rowGet row col) h.nextRid)
      (HeapTable.insert h row).2 := by
  have hscan := HeapTable.scanActive_insert h row hwf
  obtain ⟨hnd, hnn, hsound, hcomp⟩ := hg
  by_cases hw : rowGet row col = Value.vNull
  · rw [hw]
    refine ⟨hnd, hnn, ?_, ?_⟩
    · intro e he r hre
      obtain ⟨rec, harec, hrid, hrnn, henc⟩ := hsound e he r hre
      exact ⟨rec, by rw [hscan]; exact List.mem_append_left _ harec, hrid, hrnn, henc⟩
    · intro rec hrec hv
      rw [hscan] at hrec
      rcases List.mem_append.mp hrec with hold | hnew
      · exact hcomp rec hold hv
      · rw [List.mem_singleton] at hnew
        rw [hnew] at hv
        exact absurd hw (by simpa using hv)
  · have hrw : HashIndex.addVal m (rowGet row col) h.nextRid
        = HashIndex.addKey m (encodeKey (rowGet row col)) h.nextRid := by
      cases hv : rowGet row col with
      | vNull => exact absurd hv hw
      | vInt i => rfl
      | vStr s => rfl
      | vBool b => rfl
    rw [hrw]
    have hnd' := HashIndex.keysNodup_addKey m (encodeKey (rowGet row col)) h.nextRid hnd
    refine ⟨hnd', ?_, ?_, ?_⟩
    · intro k hk
      rcases (HashIndex.mem_keys_addKey m _ _ k).mp hk with hold | hnew
      · exact hnn k hold
      · rw [hnew]
        exact encodeKey_ne_null _ hw
    · intro e he r hre
      have hrget : r ∈ HashIndex.getSet
          (HashIndex.addKey m (encodeKey (rowGet row col)) h.nextRid) e.1 := by
        rw [HashIndex.getSet_of_mem_entry _ e hnd' he]
        exact hre
      rcases (HashIndex.mem_getSet_addKey m _ _ e.1 r).mp hrget with hold | ⟨hk, hr⟩
      · obtain ⟨rec, harec, hrid, hrnn, henc⟩ :=
          IndexGood.sound_getSet col m h ⟨hnd, hnn, hsound, hcomp⟩ e.1 r hold
        exact ⟨rec, by rw [hscan]; exact List.mem_append_left _ harec, hrid, hrnn, henc⟩
      · refine ⟨⟨h.nextRid, row⟩, ?_, by simpa using hr.symm, hw, hk.symm⟩
        rw [hscan]
        exact List.mem_append_right _ (List.mem_singleton.mpr rfl)
    · intro rec hrec hv
      rw [hscan] at hrec
      rcases List.mem_append.mp hrec with hold | hnew
      · rw [HashIndex.mem_getSet_addKey]
        exact Or.inl (hcomp rec hold hv)
      · rw [List.mem_singleton] at hnew
        rw [hnew]
        rw [HashIndex.mem_getSet_addKey]
        exact Or.inr ⟨rfl, rfl⟩

/-- Removing a row's index entry and tombstoning it preserves the invariant. -/
theorem indexGood_delete_step (col : String) (m : List (String × List Nat))
    (h : HeapState) (rec₀ : StoredRow) (hwf : HeapWF h) (hg : IndexGood col m h)
    (ha : rec₀ ∈ HeapTable.scanActive h) :
    IndexGood col (HashIndex.removeVal m (rowGet rec₀.fields col) rec₀.rid)
      (HeapTable.tombstone h rec₀.rid) := by
  have hscan := HeapTable.scanActive_tombstone h rec₀.rid
  obtain ⟨hnd, hnn, hsound, hcomp⟩ := hg
  have hmem_scan' : ∀ rec : StoredRow,
      rec ∈ HeapTable.scanActive (HeapTable.tombstone h rec₀.rid) ↔
        (rec ∈ HeapTable.scanActive h ∧ rec.rid ≠ rec₀.rid) := by
    intro rec
    rw [hscan, List.mem_filter]
    simp
  by_cases hw : rowGet rec₀.fields col = Value.vNull
  · rw [hw]
    refine ⟨hnd, hnn, ?_, ?_⟩
    · intro e he r hre
      obtain ⟨rec, harec, hrid, hrnn, henc⟩ := hsound e he r hre
      refine ⟨rec, (hmem_scan' rec).mpr ⟨harec, ?_⟩, hrid, hrnn, henc⟩
      intro hrr
      have := HeapTable.active_rid_unique h hwf rec rec₀ harec ha hrr
      rw [this] at hrnn
      exact hrnn hw
    · intro rec hrec hv
      exact hcomp rec ((hmem_scan' rec).mp hrec).1 hv
  · have hrw : HashIndex.removeVal m (rowGet rec₀.fields col) rec₀.rid
        = HashIndex.removeKey m (encodeKey (rowGet rec₀.fields col)) rec₀.rid := by
      cases hv : rowGet rec₀.fields col with
      | vNull => exact absurd hv hw
      | vInt i => rfl
      | vStr s => rfl
      | vBool b => rfl
    rw [hrw]
    have hnd' := HashIndex.keysNodup_removeKey m (encodeKey (rowGet rec₀.fields col))
      rec₀.rid hnd
    refine ⟨hnd', ?_, ?_, ?_⟩
    · intro k hk
      exact hnn k ((HashIndex.keys_removeKey_sublist m _ _).subset hk)
    · intro e he r hre
      have hrget : r ∈ HashIndex.getSet
          (HashIndex.removeKey m (encodeKey (rowGet rec₀.fields col)) rec₀.rid) e.1 := by
        rw [HashIndex.getSet_of_mem_entry _ e hnd' he]
        exact hre
      rw [HashIndex.mem_getSet_removeKey m _ _ e.1 r hnd] at hrget
      obtain ⟨hold, hne⟩ := hrget
      obtain ⟨rec, harec, hrid, hrnn, henc⟩ :=
        IndexGood.sound_getSet col m h ⟨hnd, hnn, hsound, hcomp⟩ e.1 r hold
      refine ⟨rec, (hmem_scan' rec).mpr ⟨harec, ?_⟩, hrid, hrnn, henc⟩
      intro hrr
      have hreceq := HeapTable.active_rid_unique h hwf rec rec₀ harec ha hrr
      refine hne ⟨?_, ?_⟩
      · rw [← henc, hreceq]
      · rw [← hrid, hrr]
    · intro rec hrec hv
      obtain ⟨hold, hner⟩ := (hmem_scan' rec).mp hrec
      rw [HashIndex.mem_getSet_removeKey m _ _ _ _ hnd]
      refine ⟨hcomp rec hold hv, ?_⟩
      rintro ⟨_, hr⟩
      exact hner hr

theorem HashIndex.keysNodup_addVal (m : List (String × List Nat)) (v : Value)
    (rid : Nat) (hnd : (m.map Prod.fst).Nodup) :
    ((addVal m v rid).map Prod.fst).Nodup := by
  cases v with
  | vNull => exact hnd
  | vInt i => exact keysNodup_addKey m _ rid hnd
  | vStr s => exact keysNodup_addKey m _ rid hnd
  | vBool b => exact keysNodup_addKey m _ rid hnd

theorem HashIndex.mem_getSet_addVal (m : List (String × List Nat)) (v : Value)
    (rid : Nat) (k : String) (r : Nat) :
    r ∈ getSet (addVal m v rid) k ↔
      (r ∈ getSet m k ∨ (v ≠ .vNull ∧ k = encodeKey v ∧ r = rid)) := by
  cases v with
  | vNull =>
    show r ∈ getSet m k ↔ _
    constructor
    · exact fun hr => Or.inl hr
    · rintro (hr | ⟨hne, _⟩)
      · exact hr
      · exact absurd rfl hne
  | vInt i =>
    rw [show addVal m (Value.vInt i) rid = addKey m (encodeKey (Value.vInt i)) rid from rfl,
      mem_getSet_addKey]
    simp
  | vStr s =>
    rw [show addVal m (Value.vStr s) rid = addKey m (encodeKey (Value.vStr s)) rid from rfl,
      mem_getSet_addKey]
    simp
  | vBool b =>
    rw [show addVal m (Value.vBool b) rid = addKey m (encodeKey (Value.vBool b)) rid from rfl,
      mem_getSet_addKey]
    simp

theorem HashIndex.keys_addVal_subset (m : List (String × List Nat)) (v : Value)
    (rid : Nat) (k : String) (hk : k ∈ (addVal m v rid).map Prod.fst) :
    k ∈ m.map Prod.fst ∨ (v ≠ .vNull ∧ k = encodeKey v) := by
  cases v with
  | vNull => exact Or.inl hk
  | vInt i =>
    rcases (mem_keys_addKey m _ rid k).mp hk with hold | hnew
    · exact Or.inl hold
    · exact Or.inr ⟨by simp, hnew⟩
  | vStr s =>
    rcases (mem_keys_addKey m _ rid k).mp hk with hold | hnew
    · exact Or.inl hold
    · exact Or.inr ⟨by simp, hnew⟩
  | vBool b =>
    rcases (mem_keys_addKey m _ rid k).mp hk with hold | hnew
    · exact Or.inl hold
    · exact Or.inr ⟨by simp, hnew⟩

theorem HashIndex.keysNodup_buildMapping (col : String) (recs : List StoredRow) :
    ∀ m : List (String × List Nat), (m.map Prod.fst).Nodup →
      ((buildMapping col recs m).map Prod.fst).Nodup := by
  induction recs with
  | nil => exact fun m hnd => hnd
  | cons rec rest ih =>
    intro m hnd
    exact ih _ (keysNodup_addVal m _ _ hnd)

theorem HashIndex.keys_buildMapping_nonull (col : String) (recs : List StoredRow) :
    ∀ m : List (String × List Nat),
      (∀ k ∈ m.map Prod.fst, k ≠ encodeKey .vNull) →
      ∀ k ∈ (buildMapping col recs m).map Prod.fst, k ≠ encodeKey .vNull := by
  induction recs with
  | nil => exact fun m hm => hm
  | cons rec rest ih =>
    intro m hm
    refine ih _ ?_
    intro k hk
    rcases keys_addVal_subset m _ _ k hk with hold | ⟨hne, hkey⟩
    · exact hm k hold
    · rw [hkey]
      exact encodeKey_ne_null _ hne

theorem HashIndex.mem_getSet_buildMapping (col : String) (recs : List StoredRow) :
    ∀ (m : List (String × List Nat)) (k : String) (r : Nat),
      r ∈ getSet (buildMapping col recs m) k ↔
        (r ∈ getSet m k ∨ ∃ rec ∈ recs, rec.rid = r ∧
          rowGet rec.fields col ≠ Value.vNull ∧
          encodeKey (rowGet rec.fields col) = k) := by
  induction recs with
  | nil =>
    intro m k r
    simp [buildMapping]
  | cons rec rest ih =>
    intro m k r
    show r ∈ getSet (buildMapping col rest (addVal m (rowGet rec.fields col) rec.rid)) k ↔ _
    rw [ih]
    rw [mem_getSet_addVal]
    constructor
    · rintro ((hm | ⟨hne, hk, hr⟩) | ⟨rec', hrec', hrid, hnn, henc⟩)
      · exact Or.inl hm
      · exact Or.inr ⟨rec, List.mem_cons_self rec rest, hr.symm, hne, hk.symm⟩
      · exact Or.inr ⟨rec', List.mem_cons_of_mem rec hrec', hrid, hnn, henc⟩
    · rintro (hm | ⟨rec', hrec', hrid, hnn, henc⟩)
      · exact Or.inl (Or.inl hm)
      · rcases List.mem_cons.mp hrec' with hh | hh
        · subst hh
          exact Or.inl (Or.inr ⟨hnn, henc.symm, hrid.symm⟩)
        · exact Or.inr ⟨rec', hh, hrid, hnn, henc⟩

/-- After CREATE INDEX builds the mapping from a scan of the active rows,
the invariant holds. -/
theorem indexGood_build (col : String) (h : HeapState) :
    IndexGood col (HashIndex.buildMapping col (HeapTable.scanActive h) []) h := by
  have hnd : ((HashIndex.buildMapping col (HeapTable.scanActive h) []).map Prod.fst).Nodup :=
    HashIndex.keysNodup_buildMapping col _ [] (by simp)
  refine ⟨hnd, ?_, ?_, ?_⟩
  · exact HashIndex.keys_buildMapping_nonull col _ [] (by simp)
  · intro e he r hre
    have hrget : r ∈ HashIndex.getSet
        (HashIndex.buildMapping col (HeapTable.scanActive h) []) e.1 := by
      rw [HashIndex.getSet_of_mem_entry _ e hnd he]
      exact hre
    rw [HashIndex.mem_getSet_buildMapping] at hrget
    rcases hrget with hnil | hfound
    · exact absurd hnil (by simp [HashIndex.getSet])
    · exact hfound
  · intro rec hrec hv
    rw [HashIndex.mem_getSet_buildMapping]
    exact Or.inr ⟨rec, hrec, rfl, hv, rfl⟩

theorem HeapTable.insert_tombstone_comm (h : HeapState) (cand : Row) (rid₀ : Nat) :
    tombstone (insert h cand).2 rid₀ = (insert (tombstone h rid₀) cand).2 := rfl

/-- Removing an index pair for a rid with no active record, then tombstoning
that rid, preserves the invariant (both operations are no-ops at the level
the invariant observes). -/
theorem indexGood_remove_inactive (col : String) (m : List (String × List Nat))
    (h : HeapState) (v₀ : Value) (rid₀ : Nat)
    (hg : IndexGood col m h)
    (hno : ∀ rec ∈ HeapTable.scanActive h, rec.rid ≠ rid₀) :
    IndexGood col (HashIndex.removeVal m v₀ rid₀) (HeapTable.tombstone h rid₀) := by
  have hscan : HeapTable.scanActive (HeapTable.tombstone h rid₀)
      = HeapTable.scanActive h := by
    rw [HeapTable.scanActive_tombstone]
    apply List.filter_eq_self.mpr
    intro rec hrec
    simp only [decide_eq_true_eq]
    exact hno rec hrec
  obtain ⟨hnd, hnn, hsound, hcomp⟩ := hg
  have hnotin : ∀ k, rid₀ ∉ HashIndex.getSet m k := by
    intro k hmem
    obtain ⟨rec, harec, hrid, _, _⟩ :=
      IndexGood.sound_getSet col m h ⟨hnd, hnn, hsound, hcomp⟩ k rid₀ hmem
    exact hno rec harec hrid
  by_cases hw : v₀ = Value.vNull
  · rw [hw]
    refine ⟨hnd, hnn, ?_, ?_⟩
    · intro e he r hre
      obtain ⟨rec, harec, hrid, hrnn, henc⟩ := hsound e he r hre
      exact ⟨rec, by rw [hscan]; exact harec, hrid, hrnn, henc⟩
    · intro rec hrec hv
      rw [hscan] at hrec
      exact hcomp rec hrec hv
  · have hrw : HashIndex.removeVal m v₀ rid₀ = HashIndex.removeKey m (encodeKey v₀) rid₀ := by
      cases v₀ with
      | vNull => exact absurd rfl hw
      | vInt i => rfl
      | vStr s => rfl
      | vBool b => rfl
    rw [hrw]
    have hnd' := HashIndex.keysNodup_removeKey m (encodeKey v₀) rid₀ hnd
    refine ⟨hnd', ?_, ?_, ?_⟩
    · intro k hk
      exact hnn k ((HashIndex.keys_removeKey_sublist m _ _).subset hk)
    · intro e he r hre
      have hrget : r ∈ HashIndex.getSet (HashIndex.removeKey m (encodeKey v₀) rid₀) e.1 := by
        rw [HashIndex.getSet_of_mem_entry _ e hnd' he]
        exact hre
      rw [HashIndex.mem_getSet_removeKey m _ _ e.1 r hnd] at hrget
      obtain ⟨rec, harec, hrid, hrnn, henc⟩ :=
        IndexGood.sound_getSet col m h ⟨hnd, hnn, hsound, hcomp⟩ e.1 r hrget.1
      exact ⟨rec, by rw [hscan]; exact harec, hrid, hrnn, henc⟩
    · intro rec hrec hv
      rw [hscan] at hrec
      rw [HashIndex.mem_getSet_removeKey m _ _ _ _ hnd]
      refine ⟨hcomp rec hrec hv, ?_⟩
      rintro ⟨_, hr⟩
      exact hno rec hrec hr

/-- One iteration of the UPDATE mutation loop preserves the invariant:
insert the new version, tombstone the old rid, and swap the index pairs. -/
theorem indexGood_update_step (col : String) (m : List (String × List Nat))
    (h : HeapState) (rec₀ : StoredRow) (cand : Row) (hwf : HeapWF h)
    (hg : IndexGood col m h) (hlt : rec₀.rid < h.nextRid)
    (hu : ∀ rec' ∈ HeapTable.scanActive h, rec'.rid = rec₀.rid → rec' = rec₀) :
    IndexGood col
      (HashIndex.addVal (HashIndex.removeVal m (rowGet rec₀.fields col) rec₀.rid)
        (rowGet cand col) h.nextRid)
      (HeapTable.tombstone (HeapTable.insert h cand).2 rec₀.rid) := by
  rw [HeapTable.insert_tombstone_comm]
  have hwf1 : HeapWF (HeapTable.tombstone h rec₀.rid) :=
    HeapTable.heapWF_tombstone h rec₀.rid hwf hlt
  by_cases hact : rec₀ ∈ HeapTable.scanActive h
  · have step1 := indexGood_delete_step col m h rec₀ hwf hg hact
    exact indexGood_insert_step col _ (HeapTable.tombstone h rec₀.rid) cand hwf1 step1
  · have hno : ∀ rec ∈ HeapTable.scanActive h, rec.rid ≠ rec₀.rid := by
      intro rec hr hrr
      exact hact ((hu rec hr hrr) ▸ hr)
    have step1 := indexGood_remove_inactive col m h (rowGet rec₀.fields col) rec₀.rid
      hg hno
    exact indexGood_insert_step col _ (HeapTable.tombstone h rec₀.rid) cand hwf1 step1

/-- The DELETE mutation loop preserves storage well-formedness and every
index's invariant, provided each row in the list determines the unique
active record of its rid (true for the matched rows of a statement). -/
theorem applyDeletes_good (matched : List StoredRow) :
    ∀ (heap : HeapState) (indexes : List HashIndexSt),
      HeapWF heap →
      (∀ ix ∈ indexes, IndexGood ix.columnName ix.mapping heap) →
      (∀ rec ∈ matched, rec.rid < heap.nextRid ∧
        ∀ rec' ∈ HeapTable.scanActive heap, rec'.rid = rec.rid → rec' = rec) →
      HeapWF (Executor.applyDeletes heap indexes matched).1 ∧
        ∀ ix ∈ (Executor.applyDeletes heap indexes matched).2,
          IndexGood ix.columnName ix.mapping (Executor.applyDeletes heap indexes matched).1 := by
  induction matched with
  | nil => exact fun heap indexes hwf hgood _ => ⟨hwf, hgood⟩
  | cons rec rest ih =>
    intro heap indexes hwf hgood hh
    obtain ⟨hlt, hu⟩ := hh rec (List.mem_cons_self rec rest)
    show HeapWF (Executor.applyDeletes (HeapTable.tombstone heap rec.rid) _ rest).1 ∧ _
    refine ih (HeapTable.tombstone heap rec.rid) _ ?_ ?_ ?_
    · exact HeapTable.heapWF_tombstone heap rec.rid hwf hlt
    · intro ix' hix'
      obtain ⟨ix, hix, hmap⟩ := List.mem_map.mp hix'
      rw [← hmap]
      show IndexGood ix.columnName
        (HashIndex.removeVal ix.mapping (rowGet rec.fields ix.columnName) rec.rid) _
      by_cases hact : rec ∈ HeapTable.scanActive heap
      · exact indexGood_delete_step ix.columnName ix.mapping heap rec hwf
          (hgood ix hix) hact
      · refine indexGood_remove_inactive ix.columnName ix.mapping heap _ rec.rid
          (hgood ix hix) ?_
        intro rec' hr' hrr
        exact hact ((hu rec' hr' hrr) ▸ hr')
    · intro m hm
      obtain ⟨hmlt, hmu⟩ := hh m (List.mem_cons_of_mem rec hm)
      refine ⟨hmlt, ?_⟩
      intro rec' hr' hrr
      rw [HeapTable.scanActive_tombstone] at hr'
      exact hmu rec' (List.mem_of_mem_filter hr') hrr

/-- The UPDATE mutation loop preserves storage well-formedness and every
index's invariant. -/
theorem applyUpdates_good (pairs : List (StoredRow × Row)) :
    ∀ (heap : HeapState) (indexes : List HashIndexSt),
      HeapWF heap →
      (∀ ix ∈ indexes, IndexGood ix.columnName ix.mapping heap) →
      (∀ p ∈ pairs, p.1.rid < heap.nextRid ∧
        ∀ rec' ∈ HeapTable.scanActive heap, rec'.rid = p.1.rid → rec' = p.1) →
      HeapWF (Executor.applyUpdates heap indexes pairs).1 ∧
        ∀ ix ∈ (Executor.applyUpdates heap indexes pairs).2,
          IndexGood ix.columnName ix.mapping (Executor.applyUpdates heap indexes pairs).1 := by
  induction pairs with
  | nil => exact fun heap indexes hwf hgood _ => ⟨hwf, hgood⟩
  | cons p rest ih =>
    obtain ⟨old, cand⟩ := p
    intro heap indexes hwf hgood hh
    obtain ⟨hlt, hu⟩ := hh (old, cand) (List.mem_cons_self _ rest)
    simp only at hlt hu
    show HeapWF (Executor.applyUpdates
      (HeapTable.tombstone (HeapTable.insert heap cand).2 old.rid) _ rest).1 ∧ _
    have hwfins : HeapWF (HeapTable.insert heap cand).2 :=
      HeapTable.heapWF_insert heap cand hwf
    have hltins : old.rid < (HeapTable.insert heap cand).2.nextRid := by
      rw [HeapTable.insert_eq]
      exact Nat.lt_succ_of_lt hlt
    refine ih _ _ ?_ ?_ ?_
    · exact HeapTable.heapWF_tombstone _ old.rid hwfins hltins
    · intro ix' hix'
      obtain ⟨ix, hix, hmap⟩ := List.mem_map.mp hix'
      rw [← hmap]
      show IndexGood ix.columnName
        (HashIndex.addVal
          (HashIndex.removeVal ix.mapping (rowGet old.fields ix.columnName) old.rid)
          (rowGet cand ix.columnName) (HeapTable.insert heap cand).1) _
      exact indexGood_update_step ix.columnName ix.mapping heap old cand hwf
        (hgood ix hix) hlt hu
    · intro q hq
      obtain ⟨hqlt, hqu⟩ := hh q (List.mem_cons_of_mem _ hq)
      constructor
      · show q.1.rid < (HeapTable.tombstone (HeapTable.insert heap cand).2 old.rid).nextRid
        show q.1.rid < (HeapTable.insert heap cand).2.nextRid
        rw [HeapTable.insert_eq]
        exact Nat.lt_succ_of_lt hqlt
      · intro rec' hr' hrr
        rw [HeapTable.scanActive_tombstone] at hr'
        have hr'' := List.mem_of_mem_filter hr'
        rw [HeapTable.scanActive_insert heap cand hwf] at hr''
        rcases List.mem_append.mp hr'' with hold | hnew
        · exact hqu rec' hold hrr
        · exfalso
          rw [List.mem_singleton] at hnew
          rw [hnew] at hrr
          simp only at hrr
          omega

theorem HeapTable.getByRid_some_spec (h : HeapState) (hwf : HeapWF h) (rid : Nat)
    (rec : StoredRow) (hr : getByRid h rid = .ok (some rec)) :
    rec ∈ scanActive h ∧ rec.rid = rid := by
  by_cases hex : ∃ rec' ∈ scanActive h, rec'.rid = rid
  · obtain ⟨rec', ha', hr'⟩ := hex
    have := getByRid_active h hwf rec' ha'
    rw [hr'] at this
    rw [this] at hr
    injection hr with hh
    injection hh with hh2
    rw [← hh2]
    exact ⟨ha', hr'⟩
  · push_neg at hex
    have := getByRid_no_active h hwf rid hex
    rw [this] at hr
    injection hr with hh
    exact absurd hh (by simp)

theorem Executor.fetchRows_active (h : HeapState) (hwf : HeapWF h)
    (rids : List Nat) (out : List StoredRow)
    (hf : Executor.fetchRows h rids = .ok out) :
    ∀ rec ∈ out, rec ∈ HeapTable.scanActive h := by
  induction rids generalizing out with
  | nil =>
    simp only [Executor.fetchRows] at hf
    injection hf with hh
    rw [← hh]
    intro rec hrec
    exact absurd hrec (List.not_mem_nil rec)
  | cons rid rest ih =>
    simp only [Executor.fetchRows] at hf
    cases hg : HeapTable.getByRid h rid with
    | error e => rw [hg] at hf; exact absurd hf (by simp)
    | ok o =>
      rw [hg] at hf
      cases o with
      | none => exact ih out hf
      | some rec0 =>
        cases hrest : Executor.fetchRows h rest with
        | error e => rw [hrest] at hf; exact absurd hf (by simp)
        | ok out0 =>
          rw [hrest] at hf
          injection hf with hh
          rw [← hh]
          intro rec hrec
          rcases List.mem_cons.mp hrec with hh2 | hh2
          · rw [hh2]
            exact (HeapTable.getByRid_some_spec h hwf rid rec0 hg).1
          · exact ih out0 hrest rec hh2

theorem Executor.filterMatching_subset (tname : String) (w : Option WhereClause)
    (l out : List StoredRow) (hf : Executor.filterMatching tname w l = .ok out) :
    ∀ rec ∈ out, rec ∈ l := by
  induction l generalizing out with
  | nil =>
    simp only [Executor.filterMatching] at hf
    injection hf with hh
    rw [← hh]
    intro rec hrec
    exact absurd hrec (List.not_mem_nil rec)
  | cons r0 rest ih =>
    simp only [Executor.filterMatching] at hf
    cases hm : Executor.rowMatchesWhere tname r0.fields w with
    | error e => rw [hm] at hf; exact absurd hf (by simp)
    | ok b =>
      rw [hm] at hf
      cases b with
      | true =>
        simp only at hf
        cases hrest : Executor.filterMatching tname w rest with
        | error e => rw [hrest] at hf; exact absurd hf (by simp)
        | ok out0 =>
          rw [hrest] at hf
          injection hf with hh
          rw [← hh]
          intro rec hrec
          rcases List.mem_cons.mp hrec with hh2 | hh2
          · rw [hh2]; exact List.mem_cons_self r0 rest
          · exact List.mem_cons_of_mem r0 (ih out0 hrest rec hh2)
      | false =>
        simp only at hf
        intro rec hrec
        exact List.mem_cons_of_mem r0 (ih out hf rec hrec)

theorem Executor.candidateRows_active (t : Table) (hwf : HeapWF t.heap)
    (w : Option WhereClause) (cands : List StoredRow)
    (hc : Executor.candidateRows t w = .ok cands) :
    ∀ rec ∈ cands, rec ∈ HeapTable.scanActive t.heap := by
  unfold Executor.candidateRows at hc
  cases hch : Executor.chooseIndexCandidates t w with
  | none =>
    rw [hch] at hc
    injection hc with hh
    rw [← hh]
    exact fun rec hr => hr
  | some p =>
    rw [hch] at hc
    exact Executor.fetchRows_active t.heap hwf p.2 cands hc

/-- The "matched rows determine the unique active record of their rid"
hygiene needed by the mutation-loop lemmas. -/
theorem Executor.matched_hygiene (t : Table) (hwf : HeapWF t.heap)
    (matched : List StoredRow)
    (hact : ∀ rec ∈ matched, rec ∈ HeapTable.scanActive t.heap) :
    ∀ rec ∈ matched, rec.rid < t.heap.nextRid ∧
      ∀ rec' ∈ HeapTable.scanActive t.heap, rec'.rid = rec.rid → rec' = rec := by
  intro rec hrec
  constructor
  · exact hwf.2.2.2.1 rec (HeapTable.scanActive_subset_log t.heap rec (hact rec hrec))
  · intro rec' hr' hrr
    exact HeapTable.active_rid_unique t.heap hwf rec' rec hr' (hact rec hrec) hrr

/-- INSERT preserves table consistency (an error leaves the state
untouched). -/
theorem Executor.insertStmt_tableGood (t : Table) (cols : List String)
    (vals : List Value) (hg : TableGood t) :
    TableGood (Executor.insertStmt t cols vals).2 := by
  unfold Executor.insertStmt
  cases h1 : Executor.checkInsertCols t.meta.name t.meta.columnNames cols with
  | error e => simp only [h1]; exact hg
  | ok u =>
    cases u
    simp only [h1]
    cases h2 : Executor.validateTypes t.meta.name t.meta.columns
        (Executor.buildInsertRow t.meta.columns cols vals) with
    | error e => simp only [h2]; exact hg
    | ok u2 =>
      cases u2
      simp only [h2]
      cases h3 : Executor.enforceConstraintsBatch t.meta (HeapTable.scanActive t.heap)
          [Executor.buildInsertRow t.meta.columns cols vals] [] with
      | error e => simp only [h3]; exact hg
      | ok u3 =>
        cases u3
        simp only [h3]
        refine ⟨HeapTable.heapWF_insert t.heap _ hg.1, ?_⟩
        intro ix' hix'
        obtain ⟨ix, hix, hmap⟩ := List.mem_map.mp hix'
        rw [← hmap]
        exact indexGood_insert_step ix.columnName ix.mapping t.heap _ hg.1 (hg.2 ix hix)

/-- DELETE preserves table consistency. -/
theorem Executor.deleteStmt_tableGood (t : Table) (w : Option WhereClause)
    (hg : TableGood t) : TableGood (Executor.deleteStmt t w).2 := by
  unfold Executor.deleteStmt
  cases h1 : Executor.candidateRows t w with
  | error e => simp only [h1]; exact hg
  | ok candidates =>
    simp only [h1]
    cases h2 : Executor.filterMatching t.meta.name w candidates with
    | error e => simp only [h2]; exact hg
    | ok matched =>
      simp only [h2]
      have hact : ∀ rec ∈ matched, rec ∈ HeapTable.scanActive t.heap := by
        intro rec hrec
        exact Executor.candidateRows_active t hg.1 w candidates h1 rec
          (Executor.filterMatching_subset t.meta.name w candidates matched h2 rec hrec)
      have := applyDeletes_good matched t.heap t.indexes hg.1 hg.2
        (Executor.matched_hygiene t hg.1 matched hact)
      exact this

/-- UPDATE preserves table consistency. -/
theorem Executor.updateStmt_tableGood (t : Table) (assigns : List Assignment)
    (w : Option WhereClause) (hg : TableGood t) :
    TableGood (Executor.updateStmt t assigns w).2 := by
  unfold Executor.updateStmt
  cases h0 : Executor.checkAssignCols t.meta.name t.meta.columnNames assigns with
  | error e => simp only [h0]; exact hg
  | ok u0 =>
    cases u0
    simp only [h0]
    cases h1 : Executor.candidateRows t w with
    | error e => simp only [h1]; exact hg
    | ok candidates =>
      simp only [h1]
      cases h2 : Executor.filterMatching t.meta.name w candidates with
      | error e => simp only [h2]; exact hg
      | ok toUpdate =>
        simp only [h2]
        by_cases hemp : toUpdate.isEmpty
        · simp only [hemp, if_pos]
          exact hg
        · simp only [hemp, if_neg, Bool.false_eq_true, not_false_iff]
          cases h3 : Executor.buildCandidates t.meta.name t.meta.columns assigns toUpdate with
          | error e => simp only [h3]; exact hg
          | ok newRows =>
            simp only [h3]
            cases h4 : Executor.enforceConstraintsBatch t.meta
                (HeapTable.scanActive t.heap) newRows (toUpdate.map (fun r => r.rid)) with
            | error e => simp only [h4]; exact hg
            | ok u4 =>
              cases u4
              simp only [h4]
              have hact : ∀ rec ∈ toUpdate, rec ∈ HeapTable.scanActive t.heap := by
                intro rec hrec
                exact Executor.candidateRows_active t hg.1 w candidates h1 rec
                  (Executor.filterMatching_subset t.meta.name w candidates toUpdate h2
                    rec hrec)
              have hyg := Executor.matched_hygiene t hg.1 toUpdate hact
              have := applyUpdates_good (toUpdate.zip newRows) t.heap t.indexes hg.1 hg.2
                (by
                  intro p hp
                  exact hyg p.1 (List.of_mem_zip hp).1)
              exact this

/-- CREATE INDEX preserves table consistency, the new index included. -/
theorem Executor.createIndexStmt_tableGood (t : Table) (idxName colName : String)
    (hg : TableGood t) : TableGood (Executor.createIndexStmt t idxName colName).2 := by
  unfold Executor.createIndexStmt
  by_cases hc : colName ∉ t.meta.columnNames
  · simp only [hc, if_pos]
    exact hg
  · simp only [hc, if_neg, not_false_iff]
    refine ⟨hg.1, ?_⟩
    intro ix hix
    rcases List.mem_append.mp hix with hold | hnew
    · exact hg.2 ix hold
    · rw [List.mem_singleton] at hnew
      rw [hnew]
      exact indexGood_build colName t.heap

/-- Every mutating statement preserves table consistency. -/
theorem Executor.execStmt_tableGood (t : Table) (s : Stmt) (hg : TableGood t) :
    TableGood (Executor.execStmt t s).2 := by
  cases s with
  | sInsert cols vals => exact Executor.insertStmt_tableGood t cols vals hg
  | sUpdate assigns w => exact Executor.updateStmt_tableGood t assigns w hg
  | sDelete w => exact Executor.deleteStmt_tableGood t w hg
  | sCreateIndex n c => exact Executor.createIndexStmt_tableGood t n c hg

/-- C1: after any completed INSERT, UPDATE, DELETE, or CREATE INDEX
statement on a consistent table, every index of the table satisfies: the
set of rids returned by the index lookup for a (non-null) value `v` equals
the set of rids of active rows whose indexed-column value equals `v`;
lookups for null return nothing, and null values never appear in the index
(no mapping key is the null key). -/
theorem index_matches_scan_after_stmt (t : Table) (s : Stmt) (out : CommandOk)
    (t' : Table) (hg : TableGood t)
    (hexec : Executor.execStmt t s = (.ok out, t')) :
    ∀ ix ∈ t'.indexes,
      (∀ v : Value, v ≠ .vNull → ∀ r : Nat,
        (r ∈ HashIndex.lookup ix v ↔ ∃ rec ∈ HeapTable.scanActive t'.heap,
          rec.rid = r ∧ rowGet rec.fields ix.columnName = v)) ∧
      HashIndex.lookup ix .vNull = [] ∧
      (∀ k ∈ ix.mapping.map Prod.fst, k ≠ encodeKey .vNull) := by
  have ht' : t' = (Executor.execStmt t s).2 := by rw [hexec]
  subst ht'
  have hgood := Executor.execStmt_tableGood t s hg
  intro ix hix
  refine ⟨?_, rfl, (hgood.2 ix hix).2.1⟩
  intro v hv r
  exact IndexGood.mem_lookup_iff ix.columnName ix _ (hgood.2 ix hix) v hv r

/-- Witness for `index_matches_scan_after_stmt` at a concrete INSERT. -/
theorem index_matches_scan_after_stmt_witness :
    (1 ∈ HashIndex.lookup ⟨"idx_a", "a", [("i:7", [1])]⟩ (.vInt 7) ↔
      ∃ rec ∈ HeapTable.scanActive
          (⟨[⟨1, [("a", .vInt 7)]⟩], [(1, 0)], [], 2⟩ : HeapState),
        rec.rid = 1 ∧ rowGet rec.fields "a" = .vInt 7) :=
  ((index_matches_scan_after_stmt
      ⟨⟨"t", [⟨"a", ⟨"INTEGER", []⟩, false, false, false⟩]⟩, ⟨[], [], [], 1⟩,
        [⟨"idx_a", "a", []⟩]⟩
      (.sInsert ["a"] [.vInt 7]) ⟨1, "1 row inserted"⟩
      ⟨⟨"t", [⟨"a", ⟨"INTEGER", []⟩, false, false, false⟩]⟩,
        ⟨[⟨1, [("a", .vInt 7)]⟩], [(1, 0)], [], 2⟩,
        [⟨"idx_a", "a", [("i:7", [1])]⟩]⟩
      (by decide) (by rfl))
    ⟨"idx_a", "a", [("i:7", [1])]⟩ (by decide)).1 (.vInt 7) (by decide) 1

theorem Executor.checkNotNullRow_constraint (tname : String) (cols : List ColumnDef)
    (nr : Row) (e : Err) (h : Executor.checkNotNullRow tname cols nr = .error e) :
    e.isConstraint = true := by
  induction cols with
  | nil => exact absurd h (by simp [Executor.checkNotNullRow])
  | cons c rest ih =>
    simp only [Executor.checkNotNullRow] at h
    split at h
    · split at h <;> (injection h with hh; rw [← hh]; rfl)
    · exact ih h

theorem Executor.checkNotNull_constraint (tname : String) (cols : List ColumnDef)
    (rows : List Row) (e : Err) (h : Executor.checkNotNull tname cols rows = .error e) :
    e.isConstraint = true := by
  induction rows with
  | nil => exact absurd h (by simp [Executor.checkNotNull])
  | cons nr rest ih =>
    simp only [Executor.checkNotNull] at h
    cases hr : Executor.checkNotNullRow tname cols nr with
    | error e' =>
      rw [hr] at h
      injection h with hh
      rw [← hh]
      exact Executor.checkNotNullRow_constraint tname cols nr e' hr
    | ok u => cases u; rw [hr] at h; exact ih h

theorem Executor.checkPkLoop_constraint (tname pkCol : String)
    (existingPks : List Value) (rows : List Row) :
    ∀ (seen : List Value) (e : Err),
      Executor.checkPkLoop tname pkCol existingPks seen rows = .error e →
      e.isConstraint = true := by
  induction rows with
  | nil => intro seen e h; exact absurd h (by simp [Executor.checkPkLoop])
  | cons nr rest ih =>
    intro seen e h
    simp only [Executor.checkPkLoop] at h
    split at h
    · injection h with hh; rw [← hh]; rfl
    · split at h
      · injection h with hh; rw [← hh]; rfl
      · exact ih _ e h

theorem Executor.checkUniqueLoop_constraint (tname ucol : String)
    (existingVals : List Value) (rows : List Row) :
    ∀ (seen : List Value) (e : Err),
      Executor.checkUniqueLoop tname ucol existingVals seen rows = .error e →
      e.isConstraint = true := by
  induction rows with
  | nil => intro seen e h; exact absurd h (by simp [Executor.checkUniqueLoop])
  | cons nr rest ih =>
    intro seen e h
    simp only [Executor.checkUniqueLoop] at h
    split at h
    · exact ih _ e h
    · split at h
      · injection h with hh; rw [← hh]; rfl
      · split at h
        · injection h with hh; rw [← hh]; rfl
        · exact ih _ e h

theorem Executor.checkUniqueCols_constraint (tname : String) (existingKept : List Row)
    (newRows : List Row) (ucols : List String) (e : Err)
    (h : Executor.checkUniqueCols tname existingKept newRows ucols = .error e) :
    e.isConstraint = true := by
  induction ucols with
  | nil => exact absurd h (by simp [Executor.checkUniqueCols])
  | cons ucol rest ih =>
    simp only [Executor.checkUniqueCols] at h
    cases hr : Executor.checkUniqueLoop tname ucol
        (Executor.uniqueExisting existingKept ucol) [] newRows with
    | error e' =>
      rw [hr] at h
      injection h with hh
      rw [← hh]
      exact Executor.checkUniqueLoop_constraint tname ucol _ newRows [] e' hr
    | ok u => cases u; rw [hr] at h; exact ih h

/-- `_enforce_constraints_batch` only ever raises `ConstraintError`. -/
theorem Executor.enforceConstraintsBatch_constraint (table : TableMeta)
    (existingRows : List StoredRow) (newRows : List Row) (excludeRids : List Nat)
    (e : Err)
    (h : Executor.enforceConstraintsBatch table existingRows newRows excludeRids
      = .error e) : e.isConstraint = true := by
  unfold Executor.enforceConstraintsBatch at h
  cases h1 : Executor.checkNotNull table.name table.columns newRows with
  | error e' =>
    rw [h1] at h
    injection h with hh
    rw [← hh]
    exact Executor.checkNotNull_constraint table.name table.columns newRows e' h1
  | ok u =>
    cases u
    rw [h1] at h
    cases hpk : table.primaryKeyColumn with
    | none =>
      rw [hpk] at h
      simp only at h
      exact Executor.checkUniqueCols_constraint table.name _ newRows _ e h
    | some pkCol =>
      rw [hpk] at h
      simp only at h
      cases h2 : Executor.checkPkLoop table.name pkCol
          ((existingRows.filter (fun r => decide (r.rid ∉ excludeRids))).map
            (fun r : StoredRow => rowGet r.fields pkCol)) [] newRows with
      | error e' =>
        rw [h2] at h
        injection h with hh
        rw [← hh]
        exact Executor.checkPkLoop_constraint table.name pkCol _ newRows [] e' h2
      | ok u2 =>
        cases u2
        rw [h2] at h
        exact Executor.checkUniqueCols_constraint table.name _ newRows _ e h

/-- C2: an INSERT or UPDATE whose candidate batch violates a NOT NULL,
PRIMARY KEY, or UNIQUE constraint (its earlier phases — column checks, row
construction, type validation, and for UPDATE the row-matching phase —
having succeeded) raises a constraint error and leaves the heap log, rid
directory, tombstone set, and every index of the table exactly as they were:
the returned state is the input state, with no partial write. -/
theorem constraint_violation_no_partial_write :
    (∀ (t : Table) (cols : List String) (vals : List Value) (e : Err),
      Executor.checkInsertCols t.meta.name t.meta.columnNames cols = .ok () →
      Executor.validateTypes t.meta.name t.meta.columns
        (Executor.buildInsertRow t.meta.columns cols vals) = .ok () →
      Executor.enforceConstraintsBatch t.meta (HeapTable.scanActive t.heap)
        [Executor.buildInsertRow t.meta.columns cols vals] [] = .error e →
      Executor.insertStmt t cols vals = (.error e, t) ∧ e.isConstraint = true) ∧
    (∀ (t : Table) (assigns : List Assignment) (w : Option WhereClause)
        (candidates toUpdate : List StoredRow) (newRows : List Row) (e : Err),
      Executor.checkAssignCols t.meta.name t.meta.columnNames assigns = .ok () →
      Executor.candidateRows t w = .ok candidates →
      Executor.filterMatching t.meta.name w candidates = .ok toUpdate →
      toUpdate.isEmpty = false →
      Executor.buildCandidates t.meta.name t.meta.columns assigns toUpdate
        = .ok newRows →
      Executor.enforceConstraintsBatch t.meta (HeapTable.scanActive t.heap)
        newRows (toUpdate.map (fun r => r.rid)) = .error e →
      Executor.updateStmt t assigns w = (.error e, t) ∧ e.isConstraint = true) := by
  constructor
  · intro t cols vals e h1 h2 h3
    refine ⟨?_, Executor.enforceConstraintsBatch_constraint _ _ _ _ e h3⟩
    unfold Executor.insertStmt
    simp only [h1, h2, h3]
  · intro t assigns w candidates toUpdate newRows e h0 h1 h2 hne h3 h4
    refine ⟨?_, Executor.enforceConstraintsBatch_constraint _ _ _ _ e h4⟩
    unfold Executor.updateStmt
    simp only [h0, h1, h2, hne, h3, h4, Bool.false_eq_true, if_false]

/-- Witness for `constraint_violation_no_partial_write`: inserting a
duplicate primary-key value into a one-row table raises a constraint error
and leaves the table untouched, and likewise for an UPDATE that would
duplicate the primary key. -/
theorem constraint_violation_no_partial_write_witness :
    Executor.insertStmt
        ⟨⟨"t", [⟨"a", ⟨"INTEGER", []⟩, false, false, true⟩]⟩,
          ⟨[⟨1, [("a", .vInt 7)]⟩], [(1, 0)], [], 2⟩, []⟩
        ["a"] [.vInt 7]
      = (.error (.constraintError
          "PRIMARY KEY constraint failed: duplicate value for t.a"),
        ⟨⟨"t", [⟨"a", ⟨"INTEGER", []⟩, false, false, true⟩]⟩,
          ⟨[⟨1, [("a", .vInt 7)]⟩], [(1, 0)], [], 2⟩, []⟩) := by
  exact (constraint_violation_no_partial_write.1
    ⟨⟨"t", [⟨"a", ⟨"INTEGER", []⟩, false, false, true⟩]⟩,
      ⟨[⟨1, [("a", .vInt 7)]⟩], [(1, 0)], [], 2⟩, []⟩
    ["a"] [.vInt 7]
    (.constraintError "PRIMARY KEY constraint failed: duplicate value for t.a")
    (by rfl) (by rfl) (by rfl)).1

/-- C9: an UPDATE whose WHERE clause matches no active rows (its assignment
columns existing and its candidate phase succeeding) returns success with
`rows_affected = 0` and the table unchanged.  Neither type checking of the
SET values nor constraint enforcement runs: the conclusion holds for
arbitrary — even ill-typed or constraint-violating — assignment values. -/
theorem update_zero_rows_no_validation (t : Table) (assigns : List Assignment)
    (w : Option WhereClause) (candidates : List StoredRow)
    (h0 : Executor.checkAssignCols t.meta.name t.meta.columnNames assigns = .ok ())
    (h1 : Executor.candidateRows t w = .ok candidates)
    (h2 : Executor.filterMatching t.meta.name w candidates = .ok []) :
    Executor.updateStmt t assigns w = (.ok ⟨0, "0 rows updated"⟩, t) := by
  unfold Executor.updateStmt
  simp only [h0, h1, h2, List.isEmpty_nil, if_pos]

/-- Witness for `update_zero_rows_no_validation`: assigning a string to an
INTEGER column succeeds with zero rows affected when the WHERE clause
matches nothing. -/
theorem update_zero_rows_no_validation_witness :
    Executor.updateStmt
        ⟨⟨"t", [⟨"a", ⟨"INTEGER", []⟩, false, false, false⟩]⟩,
          ⟨[⟨1, [("a", .vInt 7)]⟩], [(1, 0)], [], 2⟩, []⟩
        [⟨"a", .vStr "not an int"⟩]
        (some ⟨[⟨⟨"a", none⟩, "=", .vInt 99⟩]⟩)
      = (.ok ⟨0, "0 rows updated"⟩,
        ⟨⟨"t", [⟨"a", ⟨"INTEGER", []⟩, false, false, false⟩]⟩,
          ⟨[⟨1, [("a", .vInt 7)]⟩], [(1, 0)], [], 2⟩, []⟩) :=
  update_zero_rows_no_validation
    ⟨⟨"t", [⟨"a", ⟨"INTEGER", []⟩, false, false, false⟩]⟩,
      ⟨[⟨1, [("a", .vInt 7)]⟩], [(1, 0)], [], 2⟩, []⟩
    [⟨"a", .vStr "not an int"⟩] (some ⟨[⟨⟨"a", none⟩, "=", .vInt 99⟩]⟩)
    [⟨1, [("a", .vInt 7)]⟩] (by rfl) (by rfl) (by rfl)

theorem zip_take_right (cols : List String) (vals : List Value) :
    cols.zip vals = cols.zip (vals.take cols.length) := by
  induction cols generalizing vals with
  | nil => simp
  | cons c rest ih =>
    cases vals with
    | nil => simp
    | cons v vrest =>
      simp only [List.zip_cons_cons, List.length_cons, List.take_succ_cons]
      rw [ih vrest]

theorem rowGet_rowSet_ne (r : Row) (c : String) (v : Value) (k : String)
    (hne : c ≠ k) : rowGet (rowSet r c v) k = rowGet r k := by
  induction r with
  | nil => simp [rowSet, rowGet, hne]
  | cons kv rest ih =>
    by_cases h1 : kv.1 = c
    · rw [show rowSet (kv :: rest) c v = (c, v) :: rest from by simp [rowSet, h1]]
      rw [show rowGet ((c, v) :: rest) k = rowGet rest k from by simp [rowGet, hne]]
      rw [show rowGet (kv :: rest) k = rowGet rest k from by
        simp [rowGet, h1 ▸ hne]]
    · rw [show rowSet (kv :: rest) c v = kv :: rowSet rest c v from by simp [rowSet, h1]]
      by_cases h2 : kv.1 = k
      · rw [show rowGet (kv :: rowSet rest c v) k = kv.2 from by simp [rowGet, h2],
          show rowGet (kv :: rest) k = kv.2 from by simp [rowGet, h2]]
      · rw [show rowGet (kv :: rowSet rest c v) k = rowGet (rowSet rest c v) k from by
          simp [rowGet, h2],
          show rowGet (kv :: rest) k = rowGet rest k from by simp [rowGet, h2]]
        exact ih

theorem applyPairs_get_not_mem (pairs : List (String × Value)) :
    ∀ (row : Row) (k : String), k ∉ pairs.map Prod.fst →
      rowGet (Executor.applyPairs row pairs) k = rowGet row k := by
  induction pairs with
  | nil => exact fun row k _ => rfl
  | cons p rest ih =>
    intro row k hk
    simp only [List.map_cons, List.mem_cons] at hk
    push_neg at hk
    obtain ⟨p1, p2⟩ := p
    show rowGet (Executor.applyPairs (rowSet row p1 p2) rest) k = rowGet row k
    rw [ih _ k hk.2, rowGet_rowSet_ne row p1 p2 k (fun hh => hk.1 hh.symm)]

theorem rowGet_all_null (columns : List ColumnDef) (k : String) :
    rowGet (columns.map (fun c => (c.name, Value.vNull))) k = Value.vNull := by
  induction columns with
  | nil => rfl
  | cons c rest ih =>
    by_cases h1 : c.name = k
    · simp [rowGet, h1]
    · simpa [rowGet, h1] using ih

theorem mem_map_fst_zip (cols : List String) (vals : List Value) (k : String)
    (hk : k ∈ (cols.zip vals).map Prod.fst) : k ∈ cols.take vals.length := by
  induction cols generalizing vals with
  | nil => simp at hk
  | cons c rest ih =>
    cases vals with
    | nil => simp at hk
    | cons v vrest =>
      simp only [List.zip_cons_cons, List.map_cons, List.mem_cons] at hk
      simp only [List.length_cons, List.take_succ_cons, List.mem_cons]
      rcases hk with hh | hh
      · exact Or.inl hh
      · exact Or.inr (ih vrest hh)

/-- C10: INSERT pairs the supplied column names and values positionally and
the shorter list governs silently: extra values beyond the column list
change nothing about the statement's outcome; columns left unpaired (fewer
values than columns) remain null in the built row; and when the statement
succeeds, the stored record is exactly the built row appended to the heap
log — no arity-mismatch error exists in either direction. -/
theorem insert_zip_semantics :
    (∀ (t : Table) (cols : List String) (vals : List Value),
      Executor.insertStmt t cols vals
        = Executor.insertStmt t cols (vals.take cols.length)) ∧
    (∀ (columns : List ColumnDef) (cols : List String) (vals : List Value)
        (c : ColumnDef), c ∈ columns → c.name ∉ cols.take vals.length →
      rowGet (Executor.buildInsertRow columns cols vals) c.name = .vNull) ∧
    (∀ (t : Table) (cols : List String) (vals : List Value) (out : CommandOk)
        (t' : Table), Executor.insertStmt t cols vals = (.ok out, t') →
      t'.heap.log = t.heap.log ++
        [⟨t.heap.nextRid, Executor.buildInsertRow t.meta.columns cols vals⟩]) := by
  have hbuild : ∀ (columns : List ColumnDef) (cols : List String) (vals : List Value),
      Executor.buildInsertRow columns cols (vals.take cols.length)
        = Executor.buildInsertRow columns cols vals := by
    intro columns cols vals
    unfold Executor.buildInsertRow
    rw [← zip_take_right]
  refine ⟨?_, ?_, ?_⟩
  · intro t cols vals
    unfold Executor.insertStmt
    rw [hbuild]
  · intro columns cols vals c hc hnk
    unfold Executor.buildInsertRow
    rw [applyPairs_get_not_mem _ _ c.name
      (fun hh => hnk (mem_map_fst_zip cols vals c.name hh))]
    exact rowGet_all_null columns c.name
  · intro t cols vals out t' hexec
    unfold Executor.insertStmt at hexec
    cases h1 : Executor.checkInsertCols t.meta.name t.meta.columnNames cols with
    | error e => rw [h1] at hexec; exact absurd hexec (by simp)
    | ok u1 =>
      cases u1
      rw [h1] at hexec
      cases h2 : Executor.validateTypes t.meta.name t.meta.columns
          (Executor.buildInsertRow t.meta.columns cols vals) with
      | error e => rw [h2] at hexec; exact absurd hexec (by simp)
      | ok u2 =>
        cases u2
        rw [h2] at hexec
        cases h3 : Executor.enforceConstraintsBatch t.meta (HeapTable.scanActive t.heap)
            [Executor.buildInsertRow t.meta.columns cols vals] [] with
        | error e => rw [h3] at hexec; exact absurd hexec (by simp)
        | ok u3 =>
          cases u3
          rw [h3] at hexec
          injection hexec with hout ht'
          rw [← ht']
          rfl

/-- Witness for `insert_zip_semantics` at concrete inputs: two columns, one
value — the unmatched column stays null, and extra values are dropped. -/
theorem insert_zip_semantics_witness :
    rowGet (Executor.buildInsertRow
        [⟨"a", ⟨"INTEGER", []⟩, false, false, false⟩,
         ⟨"b", ⟨"INTEGER", []⟩, false, false, false⟩]
        ["a", "b"] [.vInt 7]) "b" = .vNull :=
  insert_zip_semantics.2.1
    [⟨"a", ⟨"INTEGER", []⟩, false, false, false⟩,
     ⟨"b", ⟨"INTEGER", []⟩, false, false, false⟩]
    ["a", "b"] [.vInt 7]
    ⟨"b", ⟨"INTEGER", []⟩, false, false, false⟩ (by decide) (by decide)

/-- C8: for a column declared `VARCHAR(n)`, type validation accepts exactly
the strings of length at most `n` (longer ones get an execution error), and
a failed type validation aborts an INSERT or UPDATE before any storage
mutation: the statement returns the error with the table unchanged. -/
theorem varchar_length_check :
    (∀ (tname : String) (c : ColumnDef) (s : String) (n : Nat),
      c.typ = ⟨"VARCHAR", [n]⟩ →
      Executor.validateColumn tname c (.vStr s)
        = (if n < s.length then
            .error (.execError ("Type error: " ++ tname ++ "." ++ c.name ++
              " exceeds VARCHAR length"))
          else .ok ())) ∧
    (∀ (t : Table) (cols : List String) (vals : List Value) (e : Err),
      Executor.checkInsertCols t.meta.name t.meta.columnNames cols = .ok () →
      Executor.validateTypes t.meta.name t.meta.columns
        (Executor.buildInsertRow t.meta.columns cols vals) = .error e →
      Executor.insertStmt t cols vals = (.error e, t)) ∧
    (∀ (t : Table) (assigns : List Assignment) (w : Option WhereClause)
        (candidates toUpdate : List StoredRow) (e : Err),
      Executor.checkAssignCols t.meta.name t.meta.columnNames assigns = .ok () →
      Executor.candidateRows t w = .ok candidates →
      Executor.filterMatching t.meta.name w candidates = .ok toUpdate →
      toUpdate.isEmpty = false →
      Executor.buildCandidates t.meta.name t.meta.columns assigns toUpdate
        = .error e →
      Executor.updateStmt t assigns w = (.error e, t)) := by
  refine ⟨?_, ?_, ?_⟩
  · intro tname c s n htyp
    unfold Executor.validateColumn
    rw [htyp]
    simp [List.head?]
  · intro t cols vals e h1 h2
    unfold Executor.insertStmt
    simp only [h1, h2]
  · intro t assigns w candidates toUpdate e h0 h1 h2 hne h3
    unfold Executor.updateStmt
    simp only [h0, h1, h2, hne, h3, Bool.false_eq_true, if_false]

/-- Witness for `varchar_length_check`: a VARCHAR(3) column rejects a
4-character string and the insert leaves the table unchanged, while a
3-character string passes the column check. -/
theorem varchar_length_check_witness :
    (Executor.validateColumn "t" ⟨"a", ⟨"VARCHAR", [3]⟩, false, false, false⟩
        (.vStr "abc") = .ok ()) ∧
    Executor.insertStmt
        ⟨⟨"t", [⟨"a", ⟨"VARCHAR", [3]⟩, false, false, false⟩]⟩, ⟨[], [], [], 1⟩, []⟩
        ["a"] [.vStr "abcd"]
      = (.error (.execError "Type error: t.a exceeds VARCHAR length"),
        ⟨⟨"t", [⟨"a", ⟨"VARCHAR", [3]⟩, false, false, false⟩]⟩, ⟨[], [], [], 1⟩, []⟩) := by
  constructor
  · rw [varchar_length_check.1 "t" ⟨"a", ⟨"VARCHAR", [3]⟩, false, false, false⟩
      "abc" 3 rfl]
    rfl
  · exact varchar_length_check.2.1
      ⟨⟨"t", [⟨"a", ⟨"VARCHAR", [3]⟩, false, false, false⟩]⟩, ⟨[], [], [], 1⟩, []⟩
      ["a"] [.vStr "abcd"] (.execError "Type error: t.a exceeds VARCHAR length")
      (by rfl) (by rfl)

theorem pyMem_append (v : Value) (a b : List Value) :
    pyMem v (a ++ b) = (pyMem v a || pyMem v b) :=
  List.any_append

theorem pyEq_null_iff (a b : Value) (h : pyEq a b = true) :
    a = .vNull ↔ b = .vNull := by
  cases a <;> cases b <;> simp_all [pyEq]

theorem Executor.checkUniqueLoop_skip_null (tname ucol : String) (ev : List Value)
    (rows : List Row) : ∀ seen : List Value,
    Executor.checkUniqueLoop tname ucol ev seen rows =
      Executor.checkUniqueLoop tname ucol ev seen
        (rows.filter (fun nr => decide (rowGet nr ucol ≠ Value.vNull))) := by
  induction rows with
  | nil => intro seen; rfl
  | cons nr0 rest ih =>
    intro seen
    by_cases hn : rowGet nr0 ucol = Value.vNull
    · rw [show (nr0 :: rest).filter (fun nr => decide (rowGet nr ucol ≠ Value.vNull))
          = rest.filter (fun nr => decide (rowGet nr ucol ≠ Value.vNull)) from by
        simp [hn]]
      rw [show Executor.checkUniqueLoop tname ucol ev seen (nr0 :: rest)
          = Executor.checkUniqueLoop tname ucol ev seen rest from by
        simp only [Executor.checkUniqueLoop]
        rw [if_pos (by simp [hn])]]
      exact ih seen
    · rw [show (nr0 :: rest).filter (fun nr => decide (rowGet nr ucol ≠ Value.vNull))
          = nr0 :: rest.filter (fun nr => decide (rowGet nr ucol ≠ Value.vNull)) from by
        simp [hn]]
      simp only [Executor.checkUniqueLoop]
      by_cases h1 : pyMem (rowGet nr0 ucol) ev = true
      · simp [hn, h1]
      · by_cases h2 : pyMem (rowGet nr0 ucol) seen = true
        · simp [hn, h1, h2]
        · simp only [beq_iff_eq, hn, if_false, h1, h2]
          exact ih _

theorem Executor.checkUniqueLoop_all_null (tname ucol : String) (ev : List Value)
    (rows : List Row) (hall : ∀ nr ∈ rows, rowGet nr ucol = Value.vNull) :
    ∀ seen : List Value,
      Executor.checkUniqueLoop tname ucol ev seen rows = .ok () := by
  induction rows with
  | nil => intro seen; rfl
  | cons nr0 rest ih =>
    intro seen
    simp only [Executor.checkUniqueLoop]
    rw [if_pos (by simp [hall nr0 (List.mem_cons_self nr0 rest)])]
    exact ih (fun nr hnr => hall nr (List.mem_cons_of_mem nr0 hnr)) seen

theorem Executor.checkUniqueLoop_err_of_seen (tname ucol : String) (ev : List Value)
    (rows : List Row) : ∀ seen : List Value,
    (∃ nr ∈ rows, rowGet nr ucol ≠ Value.vNull ∧ pyMem (rowGet nr ucol) seen = true) →
    ∃ e : Err, Executor.checkUniqueLoop tname ucol ev seen rows = .error e ∧
      e.isConstraint = true := by
  induction rows with
  | nil =>
    rintro seen ⟨nr, hmem, _⟩
    exact absurd hmem (List.not_mem_nil nr)
  | cons nr0 rest ih =>
    rintro seen ⟨nr, hmem, hnn, hpm⟩
    simp only [Executor.checkUniqueLoop]
    by_cases h0 : rowGet nr0 ucol = Value.vNull
    · rw [if_pos (by simp [h0])]
      rcases List.mem_cons.mp hmem with hh | hh
      · exact absurd (hh ▸ h0) (hh ▸ hnn)
      · exact ih seen ⟨nr, hh, hnn, hpm⟩
    · rw [if_neg (by simp [h0])]
      by_cases h1 : pyMem (rowGet nr0 ucol) ev = true
      · rw [if_pos h1]
        exact ⟨_, rfl, rfl⟩
      · rw [if_neg h1]
        by_cases h2 : pyMem (rowGet nr0 ucol) seen = true
        · rw [if_pos h2]
          exact ⟨_, rfl, rfl⟩
        · rw [if_neg h2]
          rcases List.mem_cons.mp hmem with hh | hh
          · exact absurd (hh ▸ hpm) (hh ▸ h2)
          · refine ih _ ⟨nr, hh, hnn, ?_⟩
            rw [pyMem_append, hpm]
            rfl

theorem Executor.checkUniqueLoop_err_of_existing (tname ucol : String)
    (ev : List Value) (rows : List Row) : ∀ seen : List Value,
    (∃ nr ∈ rows, rowGet nr ucol ≠ Value.vNull ∧ pyMem (rowGet nr ucol) ev = true) →
    ∃ e : Err, Executor.checkUniqueLoop tname ucol ev seen rows = .error e ∧
      e.isConstraint = true := by
  induction rows with
  | nil =>
    rintro seen ⟨nr, hmem, _⟩
    exact absurd hmem (List.not_mem_nil nr)
  | cons nr0 rest ih =>
    rintro seen ⟨nr, hmem, hnn, hpm⟩
    simp only [Executor.checkUniqueLoop]
    by_cases h0 : rowGet nr0 ucol = Value.vNull
    · rw [if_pos (by simp [h0])]
      rcases List.mem_cons.mp hmem with hh | hh
      · exact absurd (hh ▸ h0) (hh ▸ hnn)
      · exact ih seen ⟨nr, hh, hnn, hpm⟩
    · rw [if_neg (by simp [h0])]
      by_cases h1 : pyMem (rowGet nr0 ucol) ev = true
      · rw [if_pos h1]
        exact ⟨_, rfl, rfl⟩
      · rw [if_neg h1]
        by_cases h2 : pyMem (rowGet nr0 ucol) seen = true
        · rw [if_pos h2]
          exact ⟨_, rfl, rfl⟩
        · rw [if_neg h2]
          rcases List.mem_cons.mp hmem with hh | hh
          · exact absurd (hh ▸ hpm) (hh ▸ h1)
          · exact ih _ ⟨nr, hh, hnn, hpm⟩

theorem Executor.checkUniqueLoop_err_of_batch (tname ucol : String) (ev : List Value)
    (l1 : List Row) :
    ∀ (nr1 : Row) (l2 : List Row) (nr2 : Row) (l3 : List Row) (seen : List Value),
      rowGet nr1 ucol ≠ Value.vNull →
      pyEq (rowGet nr1 ucol) (rowGet nr2 ucol) = true →
      ∃ e : Err, Executor.checkUniqueLoop tname ucol ev seen
        (l1 ++ nr1 :: l2 ++ nr2 :: l3) = .error e ∧ e.isConstraint = true := by
  induction l1 with
  | nil =>
    intro nr1 l2 nr2 l3 seen hnn hpe
    rw [List.nil_append]
    simp only [Executor.checkUniqueLoop]
    rw [if_neg (by simp [hnn])]
    by_cases h1 : pyMem (rowGet nr1 ucol) ev = true
    · rw [if_pos h1]
      exact ⟨_, rfl, rfl⟩
    · rw [if_neg h1]
      by_cases h2 : pyMem (rowGet nr1 ucol) seen = true
      · rw [if_pos h2]
        exact ⟨_, rfl, rfl⟩
      · rw [if_neg h2]
        refine Executor.checkUniqueLoop_err_of_seen tname ucol ev _ _
          ⟨nr2, List.mem_append_right l2 (List.mem_cons_self nr2 l3), ?_, ?_⟩
        · intro hn2
          exact hnn ((pyEq_null_iff _ _ hpe).mpr hn2)
        · rw [pyMem_append]
          have : pyMem (rowGet nr2 ucol) [rowGet nr1 ucol] = true := by
            simp [pyMem, hpe]
          rw [this]
          simp
  | cons h0 rest ih =>
    intro nr1 l2 nr2 l3 seen hnn hpe
    rw [List.cons_append]
    simp only [Executor.checkUniqueLoop]
    by_cases hn0 : rowGet h0 ucol = Value.vNull
    · rw [if_pos (by simp [hn0])]
      exact ih nr1 l2 nr2 l3 seen hnn hpe
    · rw [if_neg (by simp [hn0])]
      by_cases h1 : pyMem (rowGet h0 ucol) ev = true
      · rw [if_pos h1]
        exact ⟨_, rfl, rfl⟩
      · rw [if_neg h1]
        by_cases h2 : pyMem (rowGet h0 ucol) seen = true
        · rw [if_pos h2]
          exact ⟨_, rfl, rfl⟩
        · rw [if_neg h2]
          exact ih nr1 l2 nr2 l3 _ hnn hpe

theorem Executor.checkUniqueCols_ok_each (tname : String) (kept rows : List Row)
    (ucols : List String)
    (h : Executor.checkUniqueCols tname kept rows ucols = .ok ()) :
    ∀ uc ∈ ucols, Executor.checkUniqueLoop tname uc
      (Executor.uniqueExisting kept uc) [] rows = .ok () := by
  induction ucols with
  | nil => intro uc hmem; exact absurd hmem (List.not_mem_nil uc)
  | cons uc0 rest ih =>
    simp only [Executor.checkUniqueCols] at h
    cases hr : Executor.checkUniqueLoop tname uc0
        (Executor.uniqueExisting kept uc0) [] rows with
    | error e => rw [hr] at h; exact absurd h (by simp)
    | ok u =>
      cases u
      rw [hr] at h
      intro uc hmem
      rcases List.mem_cons.mp hmem with hh | hh
      · rw [hh]; exact hr
      · exact ih h uc hh

theorem Executor.enforce_ok_unique (table : TableMeta) (existingRows : List StoredRow)
    (newRows : List Row) (excludeRids : List Nat)
    (h : Executor.enforceConstraintsBatch table existingRows newRows excludeRids
      = .ok ()) :
    Executor.checkUniqueCols table.name
      ((existingRows.filter (fun r => decide (r.rid ∉ excludeRids))).map
        (fun r : StoredRow => r.fields))
      newRows ((table.columns.filter (fun c => c.unique)).map (fun c => c.name))
      = .ok () := by
  unfold Executor.enforceConstraintsBatch at h
  cases h1 : Executor.checkNotNull table.name table.columns newRows with
  | error e => rw [h1] at h; exact absurd h (by simp)
  | ok u1 =>
    cases u1
    rw [h1] at h
    cases hpk : table.primaryKeyColumn with
    | none =>
      rw [hpk] at h
      simpa using h
    | some pkCol =>
      rw [hpk] at h
      simp only at h
      cases h2 : Executor.checkPkLoop table.name pkCol
          ((existingRows.filter (fun r => decide (r.rid ∉ excludeRids))).map
            (fun r : StoredRow => rowGet r.fields pkCol)) [] newRows with
      | error e => rw [h2] at h; exact absurd h (by simp)
      | ok u2 =>
        cases u2
        rw [h2] at h
        exact h

/-- C7: null exemption and duplicate detection of UNIQUE columns in batch
constraint enforcement.  (a) Candidate rows holding null in the UNIQUE
column are skipped entirely by the uniqueness loop; (b) an all-null batch
passes the loop whatever the existing values hold; (c) a candidate whose
non-null value Python-equals a kept existing active row's value makes the
whole batch enforcement raise a constraint error; (d) so does a non-null
value occurring in two candidates of the same batch. -/
theorem unique_null_exemption :
    (∀ (tname ucol : String) (ev : List Value) (rows : List Row) (seen : List Value),
      Executor.checkUniqueLoop tname ucol ev seen rows =
        Executor.checkUniqueLoop tname ucol ev seen
          (rows.filter (fun nr => decide (rowGet nr ucol ≠ Value.vNull)))) ∧
    (∀ (tname ucol : String) (ev : List Value) (rows : List Row),
      (∀ nr ∈ rows, rowGet nr ucol = Value.vNull) →
      ∀ seen : List Value, Executor.checkUniqueLoop tname ucol ev seen rows = .ok ()) ∧
    (∀ (table : TableMeta) (existingRows : List StoredRow) (newRows : List Row)
        (excludeRids : List Nat) (ucol : String) (nr : Row),
      ucol ∈ (table.columns.filter (fun c => c.unique)).map (fun c => c.name) →
      nr ∈ newRows → rowGet nr ucol ≠ Value.vNull →
      pyMem (rowGet nr ucol)
        (Executor.uniqueExisting
          ((existingRows.filter (fun r => decide (r.rid ∉ excludeRids))).map
            (fun r : StoredRow => r.fields)) ucol) = true →
      ∃ e : Err, Executor.enforceConstraintsBatch table existingRows newRows
        excludeRids = .error e ∧ e.isConstraint = true) ∧
    (∀ (table : TableMeta) (existingRows : List StoredRow)
        (excludeRids : List Nat) (ucol : String) (l1 : List Row) (nr1 : Row)
        (l2 : List Row) (nr2 : Row) (l3 : List Row),
      ucol ∈ (table.columns.filter (fun c => c.unique)).map (fun c => c.name) →
      rowGet nr1 ucol ≠ Value.vNull →
      pyEq (rowGet nr1 ucol) (rowGet nr2 ucol) = true →
      ∃ e : Err, Executor.enforceConstraintsBatch table existingRows
        (l1 ++ nr1 :: l2 ++ nr2 :: l3) excludeRids = .error e ∧
        e.isConstraint = true) := by
  refine ⟨Executor.checkUniqueLoop_skip_null, ?_, ?_, ?_⟩
  · intro tname ucol ev rows hall seen
    exact Executor.checkUniqueLoop_all_null tname ucol ev rows hall seen
  · intro table existingRows newRows excludeRids ucol nr hu hmem hnn hpm
    cases henf : Executor.enforceConstraintsBatch table existingRows newRows
        excludeRids with
    | error e =>
      exact ⟨e, rfl, Executor.enforceConstraintsBatch_constraint _ _ _ _ e henf⟩
    | ok u =>
      cases u
      exfalso
      have huni := Executor.enforce_ok_unique table existingRows newRows
        excludeRids henf
      have hloop := Executor.checkUniqueCols_ok_each _ _ _ _ huni ucol hu
      obtain ⟨e, heq, _⟩ := Executor.checkUniqueLoop_err_of_existing table.name ucol
        _ newRows [] ⟨nr, hmem, hnn, hpm⟩
      rw [hloop] at heq
      exact absurd heq (by simp)
  · intro table existingRows excludeRids ucol l1 nr1 l2 nr2 l3 hu hnn hpe
    cases henf : Executor.enforceConstraintsBatch table existingRows
        (l1 ++ nr1 :: l2 ++ nr2 :: l3) excludeRids with
    | error e =>
      exact ⟨e, rfl, Executor.enforceConstraintsBatch_constraint _ _ _ _ e henf⟩
    | ok u =>
      cases u
      exfalso
      have huni := Executor.enforce_ok_unique table existingRows _ excludeRids henf
      have hloop := Executor.checkUniqueCols_ok_each _ _ _ _ huni ucol hu
      obtain ⟨e, heq, _⟩ := Executor.checkUniqueLoop_err_of_batch table.name ucol
        _ l1 nr1 l2 nr2 l3 [] hnn hpe
      rw [hloop] at heq
      exact absurd heq (by simp)

/-- Witness for `unique_null_exemption` at concrete inputs: two null
candidates pass the uniqueness loop alongside an existing null, and a
non-null duplicate of an existing value aborts enforcement with a
constraint error. -/
theorem unique_null_exemption_witness :
    (Executor.checkUniqueLoop "t" "u" [] []
        [[("u", Value.vNull)], [("u", Value.vNull)]] = .ok ()) ∧
    ∃ e : Err, Executor.enforceConstraintsBatch
        ⟨"t", [⟨"u", ⟨"INTEGER", []⟩, false, true, false⟩]⟩
        [⟨1, [("u", .vInt 5)]⟩] [[("u", .vInt 5)]] [] = .error e ∧
      e.isConstraint = true := by
  constructor
  · exact unique_null_exemption.2.1 "t" "u" []
      [[("u", Value.vNull)], [("u", Value.vNull)]] (by decide) []
  · exact unique_null_exemption.2.2.1
      ⟨"t", [⟨"u", ⟨"INTEGER", []⟩, false, true, false⟩]⟩
      [⟨1, [("u", .vInt 5)]⟩] [[("u", .vInt 5)]] [] "u" [("u", .vInt 5)]
      (by decide) (by decide) (by decide) (by decide)

/-- C5 amended: within a single `HeapTable.insert` call the persistent side
effects happen in this order: the `next_rid` counter is persisted first, then
the record is appended to the heap log, then the rid directory is updated with
the new offset. -/
theorem insert_effect_order (h : HeapState) (row : Row) :
    HeapTable.insertTrace h row = [.counterPersist, .logAppend, .dirUpdate] :=
  HeapTable.insertTrace_eq h row

theorem pyEq_refl (v : Value) : pyEq v v = true := by
  cases v <;> simp [pyEq]

theorem Executor.resolveColSingle_ok (tname ctx : String) (cr : ColumnRef)
    (hq : Executor.qualifierSkips cr.table tname = false) :
    Executor.resolveColSingle tname ctx cr = .ok cr.column := by
  cases htb : cr.table with
  | none => simp [Executor.resolveColSingle, htb]
  | some tb =>
    rw [htb] at hq
    simp only [Executor.qualifierSkips, decide_eq_false_iff_not, not_not] at hq
    simp [Executor.resolveColSingle, htb, hq]

theorem Executor.rowMatchesConds_pure (tname : String) (fields : Row)
    (conds : List Condition)
    (hok : ∀ cond ∈ conds, cond.op = "=" ∧
      Executor.qualifierSkips cond.left.table tname = false) :
    Executor.rowMatchesConds tname fields conds
      = .ok (Executor.rowMatchesPure fields conds) := by
  induction conds with
  | nil => rfl
  | cons cond rest ih =>
    obtain ⟨hop, hq⟩ := hok cond (List.mem_cons_self cond rest)
    unfold Executor.rowMatchesConds
    rw [if_neg (by simp [hop]), Executor.resolveColSingle_ok tname "WHERE" cond.left hq]
    by_cases hm : pyEq (rowGet fields cond.left.column) cond.right = true
    · have ih' := ih (fun c hc => hok c (List.mem_cons_of_mem cond hc))
      simp [ih', Executor.rowMatchesPure, hm]
    · simp only [Bool.not_eq_true] at hm
      simp [Executor.rowMatchesPure, hm]

theorem Executor.rowMatchesWhere_pure (tname : String) (fields : Row)
    (w : Option WhereClause)
    (hok : ∀ cond ∈ Executor.wConds w, cond.op = "=" ∧
      Executor.qualifierSkips cond.left.table tname = false) :
    Executor.rowMatchesWhere tname fields w
      = .ok (Executor.rowMatchesPure fields (Executor.wConds w)) := by
  cases w with
  | none => rfl
  | some wc => exact Executor.rowMatchesConds_pure tname fields wc.conditions hok

theorem Executor.filterMatching_pure (tname : String) (w : Option WhereClause)
    (l : List StoredRow)
    (hok : ∀ cond ∈ Executor.wConds w, cond.op = "=" ∧
      Executor.qualifierSkips cond.left.table tname = false) :
    Executor.filterMatching tname w l
      = .ok (l.filter (fun rec =>
          Executor.rowMatchesPure rec.fields (Executor.wConds w))) := by
  induction l with
  | nil => rfl
  | cons rec rest ih =>
    unfold Executor.filterMatching
    rw [Executor.rowMatchesWhere_pure tname rec.fields w hok]
    by_cases hm : Executor.rowMatchesPure rec.fields (Executor.wConds w) = true
    · rw [hm]
      simp only [ih]
      simp [List.filter_cons, hm]
    · simp only [Bool.not_eq_true] at hm
      rw [hm]
      simp only [ih]
      simp [List.filter_cons, hm]

theorem Executor.fetchRows_mem (h : HeapState) (hwf : HeapWF h) (rids : List Nat) :
    ∃ out, Executor.fetchRows h rids = .ok out ∧
      ∀ rec, rec ∈ out ↔ (rec ∈ HeapTable.scanActive h ∧ rec.rid ∈ rids) := by
  induction rids with
  | nil => exact ⟨[], rfl, by simp⟩
  | cons rid rest ih =>
    obtain ⟨out, hout, hmem⟩ := ih
    by_cases hex : ∃ rec ∈ HeapTable.scanActive h, rec.rid = rid
    · obtain ⟨rec0, ha0, hr0⟩ := hex
      have hg : HeapTable.getByRid h rid = .ok (some rec0) :=
        hr0 ▸ HeapTable.getByRid_active h hwf rec0 ha0
      refine ⟨rec0 :: out, by simp only [Executor.fetchRows, hg, hout], ?_⟩
      intro rec
      rw [List.mem_cons, hmem rec, List.mem_cons]
      constructor
      · rintro (hh | ⟨ha, hr⟩)
        · exact ⟨hh ▸ ha0, Or.inl (hh ▸ hr0)⟩
        · exact ⟨ha, Or.inr hr⟩
      · rintro ⟨ha, hh | hr⟩
        · exact Or.inl (HeapTable.active_rid_unique h hwf rec rec0 ha ha0
            (hh.trans hr0.symm))
        · exact Or.inr ⟨ha, hr⟩
    · push_neg at hex
      have hg : HeapTable.getByRid h rid = .ok none :=
        HeapTable.getByRid_no_active h hwf rid hex
      refine ⟨out, by simp only [Executor.fetchRows, hg, hout], ?_⟩
      intro rec
      rw [hmem rec, List.mem_cons]
      constructor
      · rintro ⟨ha, hr⟩
        exact ⟨ha, Or.inr hr⟩
      · rintro ⟨ha, hh | hr⟩
        · exact absurd hh (hex rec ha)
        · exact ⟨ha, hr⟩

theorem Executor.chooseLoop_spec (t : Table) (conds : List Condition)
    (best : Option (String × List Nat)) (p : String × List Nat)
    (hc : Executor.chooseLoop t conds best = some p) :
    best = some p ∨
    ∃ cond ∈ conds, cond.op = "=" ∧
      Executor.qualifierSkips cond.left.table t.meta.name = false ∧
      ∃ idx, t.indexes.find? (fun ix => ix.columnName == cond.left.column) = some idx ∧
        p.2 = HashIndex.lookup idx cond.right := by
  induction conds generalizing best with
  | nil => exact Or.inl hc
  | cons cond rest ih =>
    unfold Executor.chooseLoop at hc
    have step : ∀ b : Option (String × List Nat),
        Executor.chooseLoop t rest b = some p →
        (b = some p ∨ ∃ c ∈ cond :: rest, c.op = "=" ∧
          Executor.qualifierSkips c.left.table t.meta.name = false ∧
          ∃ idx, t.indexes.find? (fun ix => ix.columnName == c.left.column) = some idx ∧
            p.2 = HashIndex.lookup idx c.right) := by
      intro b hb
      rcases ih b hb with h | ⟨c, hcm, hrest⟩
      · exact Or.inl h
      · exact Or.inr ⟨c, List.mem_cons_of_mem cond hcm, hrest⟩
    by_cases hop : cond.op ≠ "="
    · rw [if_pos hop] at hc
      exact step best hc
    · rw [if_neg hop] at hc
      push_neg at hop
      by_cases hq : Executor.qualifierSkips cond.left.table t.meta.name = true
      · rw [if_pos hq] at hc
        exact step best hc
      · rw [if_neg hq] at hc
        simp only [Bool.not_eq_true] at hq
        cases hf : t.indexes.find? (fun ix => ix.columnName == cond.left.column) with
        | none =>
          simp only [hf] at hc
          exact step best hc
        | some idx =>
          cases best with
          | none =>
            simp only [hf] at hc
            rcases step (some (idx.name, HashIndex.lookup idx cond.right)) hc with h | h
            · injection h with h
              exact Or.inr ⟨cond, List.mem_cons_self cond rest, hop, hq, idx, hf,
                by rw [← h]⟩
            · exact Or.inr h
          | some b =>
            simp only [hf] at hc
            by_cases hlen : (HashIndex.lookup idx cond.right).length < b.2.length
            · rw [if_pos hlen] at hc
              rcases step (some (idx.name, HashIndex.lookup idx cond.right)) hc with h | h
              · injection h with h
                exact Or.inr ⟨cond, List.mem_cons_self cond rest, hop, hq, idx, hf,
                  by rw [← h]⟩
              · exact Or.inr h
            · rw [if_neg hlen] at hc
              exact step (some b) hc

theorem Executor.chooseLoop_noIndexes (t : Table) (conds : List Condition)
    (best : Option (String × List Nat)) :
    Executor.chooseLoop (Table.noIndexes t) conds best = best := by
  induction conds generalizing best with
  | nil => rfl
  | cons cond rest ih =>
    unfold Executor.chooseLoop
    have hf : (Table.noIndexes t).indexes.find?
        (fun ix => ix.columnName == cond.left.column) = none := rfl
    by_cases hop : cond.op ≠ "="
    · rw [if_pos hop]
      exact ih best
    · rw [if_neg hop]
      by_cases hq : Executor.qualifierSkips cond.left.table (Table.noIndexes t).meta.name
          = true
      · rw [if_pos hq]
        exact ih best
      · rw [if_neg hq, hf]
        exact ih best

theorem Executor.selectColsLoop_noIndexes (t : Table) (crs : List ColumnRef) :
    Executor.selectColsLoop (Table.noIndexes t) crs = Executor.selectColsLoop t crs := by
  induction crs with
  | nil => rfl
  | cons c rest ih =>
    unfold Executor.selectColsLoop
    rw [ih]
    rfl

theorem Executor.selectOutCols_noIndexes (t : Table) (cols? : Option (List ColumnRef)) :
    Executor.selectOutCols (Table.noIndexes t) cols? = Executor.selectOutCols t cols? := by
  cases cols? with
  | none => rfl
  | some crs => exact Executor.selectColsLoop_noIndexes t crs

theorem Executor.condsOkFor_spec (t : Table) (w : Option WhereClause)
    (hok : Executor.condsOkFor t w = true) :
    ∀ cond ∈ Executor.wConds w, cond.op = "=" ∧
      Executor.qualifierSkips cond.left.table t.meta.name = false ∧
      cond.right ≠ Value.vNull ∧
      ∀ rec ∈ HeapTable.scanActive t.heap,
        pyEq (rowGet rec.fields cond.left.column) cond.right = true →
        rowGet rec.fields cond.left.column = cond.right := by
  intro cond hcond
  have h := List.all_eq_true.mp hok cond hcond
  simp only [Bool.and_eq_true, Bool.not_eq_true', beq_iff_eq, beq_eq_false_iff_ne,
    List.all_eq_true, Bool.or_eq_true, Bool.not_eq_true] at h
  refine ⟨h.1.1.1, h.1.1.2, h.1.2, ?_⟩
  intro rec hrec hpy
  rcases h.2 rec hrec with hf | he
  · rw [hpy] at hf
    exact absurd hf (by simp)
  · exact he

theorem Executor.selectSingle_plan_equiv (t : Table) (cols? : Option (List ColumnRef))
    (w : Option WhereClause) (outCols : List String) (hg : TableGood t)
    (hcols : Executor.selectOutCols t cols? = .ok outCols)
    (hok : Executor.condsOkFor t w = true) :
    ∃ rows₁ rows₂,
      Executor.selectSingle t cols? w = .ok ⟨outCols, rows₁⟩ ∧
      Executor.selectSingle (Table.noIndexes t) cols? w = .ok ⟨outCols, rows₂⟩ ∧
      ∀ row, row ∈ rows₁ ↔ row ∈ rows₂ := by
  have hspec := Executor.condsOkFor_spec t w hok
  have hok2 : ∀ cond ∈ Executor.wConds w, cond.op = "=" ∧
      Executor.qualifierSkips cond.left.table t.meta.name = false :=
    fun c hc => ⟨(hspec c hc).1, (hspec c hc).2.1⟩
  have hchoose2 : Executor.chooseIndexCandidates (Table.noIndexes t) w = none := by
    cases w with
    | none => rfl
    | some wc => exact Executor.chooseLoop_noIndexes t wc.conditions none
  have hcand2 : Executor.candidateRows (Table.noIndexes t) w
      = .ok (HeapTable.scanActive t.heap) := by
    unfold Executor.candidateRows
    rw [hchoose2]
    rfl
  have heq2 : Executor.selectSingle (Table.noIndexes t) cols? w
      = .ok ⟨outCols, ((HeapTable.scanActive t.heap).filter (fun rec =>
          Executor.rowMatchesPure rec.fields (Executor.wConds w))).map
            (fun rec => outCols.map (fun c => rowGet rec.fields c))⟩ := by
    simp only [Executor.selectSingle, Executor.selectOutCols_noIndexes t cols?, hcols,
      hcand2, Executor.filterMatching_pure (Table.noIndexes t).meta.name w
        (HeapTable.scanActive t.heap) hok2]
  cases hch : Executor.chooseIndexCandidates t w with
  | none =>
    have hcand1 : Executor.candidateRows t w = .ok (HeapTable.scanActive t.heap) := by
      unfold Executor.candidateRows
      rw [hch]
    have heq1 : Executor.selectSingle t cols? w
        = .ok ⟨outCols, ((HeapTable.scanActive t.heap).filter (fun rec =>
            Executor.rowMatchesPure rec.fields (Executor.wConds w))).map
              (fun rec => outCols.map (fun c => rowGet rec.fields c))⟩ := by
      simp only [Executor.selectSingle, hcols, hcand1,
        Executor.filterMatching_pure t.meta.name w (HeapTable.scanActive t.heap) hok2]
    exact ⟨_, _, heq1, heq2, fun row => Iff.rfl⟩
  | some p =>
    cases w with
    | none => exact absurd hch (by simp [Executor.chooseIndexCandidates])
    | some wc =>
    rcases Executor.chooseLoop_spec t wc.conditions none p hch with hnone | hcond
    · exact absurd hnone (by simp)
    obtain ⟨cond, hcm, hop, hq, idx, hf, hp2⟩ := hcond
    have hidxmem : idx ∈ t.indexes := List.mem_of_find?_eq_some hf
    have hcolname : idx.columnName = cond.left.column := by
      have := List.find?_some hf
      simpa using this
    have hgood : IndexGood idx.columnName idx.mapping t.heap := hg.2 idx hidxmem
    obtain ⟨_, _, hnn, hcompat⟩ := hspec cond hcm
    obtain ⟨out, hout, hmemout⟩ := Executor.fetchRows_mem t.heap hg.1 p.2
    have hcand1 : Executor.candidateRows t (some wc) = .ok out := by
      unfold Executor.candidateRows
      rw [hch]
      exact hout
    have heq1 : Executor.selectSingle t cols? (some wc)
        = .ok ⟨outCols, (out.filter (fun rec =>
            Executor.rowMatchesPure rec.fields (Executor.wConds (some wc)))).map
              (fun rec => outCols.map (fun c => rowGet rec.fields c))⟩ := by
      simp only [Executor.selectSingle, hcols, hcand1,
        Executor.filterMatching_pure t.meta.name (some wc) out hok2]
    refine ⟨_, _, heq1, heq2, ?_⟩
    intro row
    have hbridge : ∀ rec : StoredRow,
        (rec ∈ out ∧ Executor.rowMatchesPure rec.fields (Executor.wConds (some wc))) ↔
        (rec ∈ HeapTable.scanActive t.heap ∧
          Executor.rowMatchesPure rec.fields (Executor.wConds (some wc))) := by
      intro rec
      constructor
      · rintro ⟨hro, hpm⟩
        exact ⟨((hmemout rec).mp hro).1, hpm⟩
      · rintro ⟨hra, hpm⟩
        refine ⟨(hmemout rec).mpr ⟨hra, ?_⟩, hpm⟩
        have hpy : pyEq (rowGet rec.fields cond.left.column) cond.right = true :=
          List.all_eq_true.mp hpm cond hcm
        have hveq : rowGet rec.fields cond.left.column = cond.right :=
          hcompat rec hra hpy
        rw [hp2]
        exact (IndexGood.mem_lookup_iff idx.columnName idx t.heap hgood cond.right hnn
          rec.rid).mpr ⟨rec, hra, rfl, by rw [hcolname]; exact hveq⟩
    constructor
    · intro hrow
      obtain ⟨rec, hrec, hproj⟩ := List.mem_map.mp hrow
      obtain ⟨hro, hpm⟩ := List.mem_filter.mp hrec
      exact List.mem_map.mpr ⟨rec, List.mem_filter.mpr
        ⟨((hbridge rec).mp ⟨hro, hpm⟩).1, hpm⟩, hproj⟩
    · intro hrow
      obtain ⟨rec, hrec, hproj⟩ := List.mem_map.mp hrow
      obtain ⟨hra, hpm⟩ := List.mem_filter.mp hrec
      exact List.mem_map.mpr ⟨rec, List.mem_filter.mpr
        ⟨((hbridge rec).mpr ⟨hra, hpm⟩).1, hpm⟩, hproj⟩

theorem Join.compatOk_spec (rheap : HeapState) (rightCol : String)
    (lref : ColumnRef) (leftRows : List CombinedRow)
    (hok : Join.compatOk rheap rightCol lref leftRows = true) :
    ∀ lrow ∈ leftRows, ∀ v, Join.resolveInCombined lrow lref = .ok v →
      v ≠ Value.vNull ∧
      ∀ rec ∈ HeapTable.scanActive rheap,
        pyEq (rowGet rec.fields rightCol) v = true →
        rowGet rec.fields rightCol = v := by
  intro lrow hlm v hres
  have h := List.all_eq_true.mp hok lrow hlm
  simp only [hres, Bool.and_eq_true, Bool.not_eq_true', beq_eq_false_iff_ne,
    List.all_eq_true, Bool.or_eq_true, Bool.not_eq_true, beq_iff_eq] at h
  refine ⟨h.1, ?_⟩
  intro rec hrec hpy
  rcases h.2 rec hrec with hf | he
  · rw [hpy] at hf
    exact absurd hf (by simp)
  · exact he

theorem Join.probeRids_mem (rheap : HeapState) (hwf : HeapWF rheap)
    (tname : String) (lrow : CombinedRow) (rids : List Nat) :
    ∃ out, Join.probeRids rheap tname lrow rids = .ok out ∧
      ∀ cr, cr ∈ out ↔ ∃ rec ∈ HeapTable.scanActive rheap,
        rec.rid ∈ rids ∧ cr = Join.extendCombined lrow tname rec := by
  induction rids with
  | nil => exact ⟨[], rfl, by simp⟩
  | cons rid rest ih =>
    obtain ⟨out, hout, hmem⟩ := ih
    by_cases hex : ∃ rec ∈ HeapTable.scanActive rheap, rec.rid = rid
    · obtain ⟨rec0, ha0, hr0⟩ := hex
      have hg : HeapTable.getByRid rheap rid = .ok (some rec0) :=
        hr0 ▸ HeapTable.getByRid_active rheap hwf rec0 ha0
      refine ⟨Join.extendCombined lrow tname rec0 :: out,
        by simp only [Join.probeRids, hg, hout], ?_⟩
      intro cr
      rw [List.mem_cons, hmem cr]
      constructor
      · rintro (hh | ⟨rec, ha, hr, hcr⟩)
        · exact ⟨rec0, ha0, by rw [hr0]; exact List.mem_cons_self rid rest, hh⟩
        · exact ⟨rec, ha, List.mem_cons_of_mem rid hr, hcr⟩
      · rintro ⟨rec, ha, hr, hcr⟩
        rcases List.mem_cons.mp hr with hh | hh
        · left
          have heq : rec = rec0 :=
            HeapTable.active_rid_unique rheap hwf rec rec0 ha ha0 (hh.trans hr0.symm)
          rw [hcr, heq]
        · exact Or.inr ⟨rec, ha, hh, hcr⟩
    · push_neg at hex
      have hg : HeapTable.getByRid rheap rid = .ok none :=
        HeapTable.getByRid_no_active rheap hwf rid hex
      refine ⟨out, by simp only [Join.probeRids, hg, hout], ?_⟩
      intro cr
      rw [hmem cr]
      constructor
      · rintro ⟨rec, ha, hr, hcr⟩
        exact ⟨rec, ha, List.mem_cons_of_mem rid hr, hcr⟩
      · rintro ⟨rec, ha, hr, hcr⟩
        rcases List.mem_cons.mp hr with hh | hh
        · exact absurd hh (hex rec ha)
        · exact ⟨rec, ha, hh, hcr⟩

theorem Join.indexLoop_scanLoop (rheap : HeapState) (hwf : HeapWF rheap)
    (idx : HashIndexSt) (hgood : IndexGood idx.columnName idx.mapping rheap)
    (tname : String) (lref : ColumnRef) (leftRows : List CombinedRow)
    (hok : Join.compatOk rheap idx.columnName lref leftRows = true)
    (out₁ : List CombinedRow)
    (hrun : Join.indexLoop rheap idx tname lref leftRows = .ok out₁) :
    ∃ out₂, Join.scanLoop (HeapTable.scanActive rheap) idx.columnName tname lref
        leftRows = .ok out₂ ∧ ∀ cr, cr ∈ out₁ ↔ cr ∈ out₂ := by
  induction leftRows generalizing out₁ with
  | nil =>
    simp only [Join.indexLoop] at hrun
    injection hrun with hh
    exact ⟨[], rfl, by rw [← hh]; exact fun cr => Iff.rfl⟩
  | cons lrow rest ih =>
    unfold Join.compatOk at hok
    rw [List.all_cons, Bool.and_eq_true] at hok
    obtain ⟨hokh, hokr⟩ := hok
    have hokrest : Join.compatOk rheap idx.columnName lref rest = true := hokr
    simp only [Join.indexLoop] at hrun
    cases hres : Join.resolveInCombined lrow lref with
    | error e =>
      simp only [hres] at hrun
      exact absurd hrun (by simp)
    | ok v =>
      simp only [hres] at hrun
      obtain ⟨pout, hpout, hpmem⟩ :=
        Join.probeRids_mem rheap hwf tname lrow (HashIndex.lookup idx v)
      simp only [hpout] at hrun
      cases hrest : Join.indexLoop rheap idx tname lref rest with
      | error e =>
        simp only [hrest] at hrun
        exact absurd hrun (by simp)
      | ok outr =>
        simp only [hrest] at hrun
        injection hrun with hh
        obtain ⟨out₂r, hrun2, hmem2⟩ := ih hokrest outr hrest
        obtain ⟨hnn, hcompat⟩ :=
          Join.compatOk_spec rheap idx.columnName lref (lrow :: rest)
            (by unfold Join.compatOk; rw [List.all_cons, Bool.and_eq_true]; exact ⟨hokh, hokr⟩)
            lrow (List.mem_cons_self lrow rest) v hres
        refine ⟨((HeapTable.scanActive rheap).filter (fun r =>
            pyEq (rowGet r.fields idx.columnName) v)).map
              (Join.extendCombined lrow tname) ++ out₂r, ?_, ?_⟩
        · simp only [Join.scanLoop, hres, hrun2]
        · intro cr
          rw [← hh, List.mem_append, List.mem_append, hpmem cr, hmem2 cr]
          have hblock : (∃ rec ∈ HeapTable.scanActive rheap,
              rec.rid ∈ HashIndex.lookup idx v ∧ cr = Join.extendCombined lrow tname rec) ↔
              cr ∈ ((HeapTable.scanActive rheap).filter (fun r =>
                pyEq (rowGet r.fields idx.columnName) v)).map
                  (Join.extendCombined lrow tname) := by
            constructor
            · rintro ⟨rec, ha, hrid, hcr⟩
              obtain ⟨rec', ha', hrid', hval'⟩ :=
                (IndexGood.mem_lookup_iff idx.columnName idx rheap hgood v hnn
                  rec.rid).mp hrid
              have heq : rec' = rec :=
                HeapTable.active_rid_unique rheap hwf rec' rec ha' ha hrid'
              rw [heq] at hval'
              refine List.mem_map.mpr ⟨rec, List.mem_filter.mpr ⟨ha, ?_⟩, hcr.symm⟩
              rw [hval']
              exact pyEq_refl v
            · intro hcr
              obtain ⟨rec, hrf, hcr'⟩ := List.mem_map.mp hcr
              obtain ⟨ha, hpy⟩ := List.mem_filter.mp hrf
              have hval : rowGet rec.fields idx.columnName = v := hcompat rec ha hpy
              refine ⟨rec, ha, ?_, hcr'.symm⟩
              exact (IndexGood.mem_lookup_iff idx.columnName idx rheap hgood v hnn
                rec.rid).mpr ⟨rec, ha, rfl, hval⟩
          rw [hblock]

theorem Join.innerJoin_plan_equiv (db₁ db₂ : Database) (j : JoinClause)
    (rt : Table) (rightCol : String) (lref : ColumnRef)
    (leftRows : List CombinedRow) (out₁ : List CombinedRow) (m : String)
    (h₁ : requireTable db₁ j.tableName = .ok rt)
    (h₂ : requireTable db₂ j.tableName = .ok (Table.noIndexes rt))
    (hsides : Join.onSides j = some (rightCol, lref))
    (hg : TableGood rt)
    (hok : Join.compatOk rt.heap rightCol lref leftRows = true)
    (hrun : Join.innerJoin db₁ leftRows j = .ok (out₁, m)) :
    ∃ out₂, Join.innerJoin db₂ leftRows j = .ok (out₂, "scan") ∧
      ∀ cr, cr ∈ out₁ ↔ cr ∈ out₂ := by
  have hf2 : (Table.noIndexes rt).indexes.find?
      (fun ix => ix.columnName == rightCol) = none := rfl
  have hheap : (Table.noIndexes rt).heap = rt.heap := rfl
  unfold Join.innerJoin at hrun ⊢
  simp only [h₁, hsides] at hrun
  simp only [h₂, hsides, hf2, hheap]
  cases hf : rt.indexes.find? (fun ix => ix.columnName == rightCol) with
  | none =>
    simp only [hf] at hrun
    cases hscan : Join.scanLoop (HeapTable.scanActive rt.heap) rightCol j.tableName
        lref leftRows with
    | error e =>
      simp only [hscan] at hrun
      exact absurd hrun (by simp)
    | ok out =>
      simp only [hscan] at hrun
      injection hrun with hh
      have hout : out = out₁ := congrArg Prod.fst hh
      refine ⟨out₁, ?_, fun cr => Iff.rfl⟩
      simp only [hout]
  | some idx =>
    simp only [hf] at hrun
    have hcol : idx.columnName = rightCol := by
      have := List.find?_some hf
      simpa using this
    have hidxmem : idx ∈ rt.indexes := List.mem_of_find?_eq_some hf
    have hgood : IndexGood idx.columnName idx.mapping rt.heap := hg.2 idx hidxmem
    cases hil : Join.indexLoop rt.heap idx j.tableName lref leftRows with
    | error e =>
      simp only [hil] at hrun
      exact absurd hrun (by simp)
    | ok out =>
      simp only [hil] at hrun
      injection hrun with hh
      have hout : out = out₁ := congrArg Prod.fst hh
      obtain ⟨out₂, hrun2, hmem2⟩ := Join.indexLoop_scanLoop rt.heap hg.1 idx hgood
        j.tableName lref leftRows (by rw [hcol]; exact hok) out hil
      rw [hcol] at hrun2
      refine ⟨out₂, by rw [hrun2], ?_⟩
      intro cr
      rw [← hout]
      exact hmem2 cr

/-- C3, counterexample: the claim admits null literals, but for
`WHERE a = NULL` on a table whose active row holds a null in an indexed
column (the index is consistent: nulls are never indexed), the index plan
returns no rows — `lookup` answers `[]` for null — while the forced scan
plan returns the row, because Python `None == None` holds.  The two plans
therefore do not produce identical result sets. -/
theorem index_scan_plan_equivalence_cex :
    TableGood planTNull ∧
    Executor.selectSingle planTNull none planWNull = .ok ⟨["a"], []⟩ ∧
    Executor.selectSingle (Table.noIndexes planTNull) none planWNull
      = .ok ⟨["a"], [[Value.vNull]]⟩ :=
  ⟨by decide, rfl, rfl⟩

/-- C3 (amended): plan equivalence holds away from the null/cross-type
discrepancies.  (1) Single-table SELECT: on a consistent table, when every
WHERE condition is an in-scope equality on a non-null literal and Python
equality with that literal agrees with structural equality on the active
rows, the chosen plan and the forced scan plan (indexes removed) return
rows with the same membership, under the same output columns.  (2) One
join step: under the analogous premises for the resolved join keys, if the
step succeeds on the original database it succeeds with the scan method on
the database whose right table lost its indexes, and the combined-row sets
agree. -/
theorem index_scan_plan_equivalence :
    (∀ (t : Table) (cols? : Option (List ColumnRef)) (w : Option WhereClause)
        (outCols : List String), TableGood t →
      Executor.selectOutCols t cols? = .ok outCols →
      Executor.condsOkFor t w = true →
      ∃ rows₁ rows₂,
        Executor.selectSingle t cols? w = .ok ⟨outCols, rows₁⟩ ∧
        Executor.selectSingle (Table.noIndexes t) cols? w = .ok ⟨outCols, rows₂⟩ ∧
        ∀ row, row ∈ rows₁ ↔ row ∈ rows₂) ∧
    (∀ (db₁ db₂ : Database) (j : JoinClause) (rt : Table) (rightCol : String)
        (lref : ColumnRef) (leftRows out₁ : List CombinedRow) (m : String),
      requireTable db₁ j.tableName = .ok rt →
      requireTable db₂ j.tableName = .ok (Table.noIndexes rt) →
      Join.onSides j = some (rightCol, lref) →
      TableGood rt →
      Join.compatOk rt.heap rightCol lref leftRows = true →
      Join.innerJoin db₁ leftRows j = .ok (out₁, m) →
      ∃ out₂, Join.innerJoin db₂ leftRows j = .ok (out₂, "scan") ∧
        ∀ cr, cr ∈ out₁ ↔ cr ∈ out₂) :=
  ⟨fun t cols? w outCols hg hcols hok =>
      Executor.selectSingle_plan_equiv t cols? w outCols hg hcols hok,
    fun db₁ db₂ j rt rightCol lref leftRows out₁ m h₁ h₂ hs hg hok hrun =>
      Join.innerJoin_plan_equiv db₁ db₂ j rt rightCol lref leftRows out₁ m
        h₁ h₂ hs hg hok hrun⟩

/-- The index-nested-loop step on `planDb1` computes `planOut1` (evaluated
here because `List.mergeSort` does not reduce definitionally). -/
theorem planRun1 : Join.innerJoin planDb1 planLeftRows planJ
    = .ok (planOut1, "index") := by
  have hl : HashIndex.lookup ⟨"ix_r_b", "b", [("i:7", [1])]⟩ (Value.vInt 7) = [1] := by
    have hget : HashIndex.getSet [("i:7", [1])] (encodeKey (Value.vInt 7)) = [1] := by
      decide
    show (HashIndex.getSet [("i:7", [1])] (encodeKey (Value.vInt 7))).mergeSort
      (fun a b => a ≤ b) = [1]
    rw [hget]
    simp [List.mergeSort]
  simp [Join.innerJoin, requireTable, Join.onSides, Join.indexLoop,
    Join.resolveInCombined, combinedHasKey, combinedGet, hl, Join.probeRids,
    HeapTable.getByRid, assocGet, Join.extendCombined, applyCombinedPairs,
    combinedSet, planDb1, planRt, planJ, planLeftRows, planOut1]

theorem index_scan_plan_equivalence_witness :
    (∃ rows₁ rows₂,
      Executor.selectSingle planT1 none planW1 = .ok ⟨["a"], rows₁⟩ ∧
      Executor.selectSingle (Table.noIndexes planT1) none planW1
        = .ok ⟨["a"], rows₂⟩ ∧
      ∀ row, row ∈ rows₁ ↔ row ∈ rows₂) ∧
    (∃ out₂, Join.innerJoin planDb2 planLeftRows planJ = .ok (out₂, "scan") ∧
      ∀ cr, cr ∈ planOut1 ↔ cr ∈ out₂) :=
  ⟨index_scan_plan_equivalence.1 planT1 none planW1 ["a"] (by decide) rfl (by decide),
    index_scan_plan_equivalence.2 planDb1 planDb2 planJ planRt "b" ⟨"a", some "l"⟩
      planLeftRows planOut1 "index" rfl rfl rfl (by decide) (by decide) planRun1⟩

/-! ### Joined-query column resolution errors -/

theorem Executor.qualifyCols_err (crs : List ColumnRef)
    (h : ∃ c ∈ crs, c.table = none) :
    ∃ e, Executor.qualifyCols crs = .error e := by
  induction crs with
  | nil =>
    obtain ⟨c, hc, _⟩ := h
    exact absurd hc (List.not_mem_nil c)
  | cons c0 rest ih =>
    cases htb : c0.table with
    | none =>
      refine ⟨.execError
        "In JOIN queries, qualify selected columns with table (e.g., users.id).", ?_⟩
      unfold Executor.qualifyCols
      rw [htb]
    | some tb =>
      obtain ⟨c, hc, hcn⟩ := h
      rcases List.mem_cons.mp hc with hh | hh
      · rw [← hh] at htb
        rw [htb] at hcn
        exact absurd hcn (by simp)
      · obtain ⟨e, he⟩ := ih ⟨c, hh, hcn⟩
        refine ⟨e, ?_⟩
        unfold Executor.qualifyCols
        rw [htb]
        simp only [he]

/-- C6, counterexample: a qualified projection reference to a column that
exists in no joined table does NOT fail: the projection loop accepts any
qualified reference and projects it with `row.get`, so the statement
succeeds and returns nulls for the missing column. -/
theorem join_unknown_column_errors_cex :
    Executor.selectJoin joinDbEx joinStmtMissingProj
      = .ok ⟨["a.zzz"], [[Value.vNull]]⟩ := rfl

/-- C6 (amended): the resolver raises an execution error for a qualified
reference whose (table, column) key is absent from the combined row, for
an unqualified reference matching no column, and for an unqualified
reference matching more than one; a WHERE clause whose resolution fails on
the first combined row aborts the joined SELECT with that error; and an
unqualified reference in the explicit projection list aborts the joined
SELECT.  (A qualified projection reference to a missing column, however,
is not an error — see the counterexample.) -/
theorem join_unknown_column_errors :
    (∀ (row : CombinedRow) (tb c : String),
      combinedHasKey row (tb, c) = false →
      Join.resolveInCombined row ⟨c, some tb⟩
        = .error (.execError ("Unknown column in joined row: " ++ tb ++ "." ++ c))) ∧
    (∀ (row : CombinedRow) (c : String),
      (row.map Prod.fst).filter (fun k => decide (k.2 = c)) = [] →
      Join.resolveInCombined row ⟨c, none⟩
        = .error (.execError ("Unknown column: " ++ c))) ∧
    (∀ (row : CombinedRow) (c : String) (k1 k2 : String × String)
        (ks : List (String × String)),
      (row.map Prod.fst).filter (fun k => decide (k.2 = c)) = k1 :: k2 :: ks →
      Join.resolveInCombined row ⟨c, none⟩
        = .error (.execError ("Ambiguous column: " ++ c ++ " (qualify with table.)"))) ∧
    (∀ (db : Database) (stmt : SelectStmt) (base : Table) (r : CombinedRow)
        (rest : List CombinedRow) (e : Err),
      requireTable db stmt.fromTable = .ok base →
      Join.joinFold db stmt.joins ((HeapTable.scanActive base.heap).map (fun rec =>
        applyCombinedPairs []
          (rec.fields.map (fun kv => ((stmt.fromTable, kv.1), kv.2)))))
        = .ok (r :: rest) →
      Join.whereMatches r stmt.whereC = .error e →
      Executor.selectJoin db stmt = .error e) ∧
    (∀ (db : Database) (stmt : SelectStmt) (base : Table)
        (rows frows : List CombinedRow) (crs : List ColumnRef),
      requireTable db stmt.fromTable = .ok base →
      Join.joinFold db stmt.joins ((HeapTable.scanActive base.heap).map (fun rec =>
        applyCombinedPairs []
          (rec.fields.map (fun kv => ((stmt.fromTable, kv.1), kv.2)))))
        = .ok rows →
      Join.whereFilter stmt.whereC rows = .ok frows →
      stmt.columns = some crs →
      (∃ c ∈ crs, c.table = none) →
      ∃ e, Executor.selectJoin db stmt = .error e) := by
  refine ⟨?_, ?_, ?_, ?_, ?_⟩
  · intro row tb c hk
    unfold Join.resolveInCombined
    simp only [hk]
    rfl
  · intro row c hf
    unfold Join.resolveInCombined
    simp only [hf]
  · intro row c k1 k2 ks hf
    unfold Join.resolveInCombined
    simp only [hf]
  · intro db stmt base r rest e hbase hfold hw
    have hwf : Join.whereFilter stmt.whereC (r :: rest) = .error e := by
      unfold Join.whereFilter
      simp only [hw]
    simp only [Executor.selectJoin, hbase, hfold, hwf]
  · intro db stmt base rows frows crs hbase hfold hfilt hcols hun
    obtain ⟨e, he⟩ := Executor.qualifyCols_err crs hun
    refine ⟨e, ?_⟩
    simp only [Executor.selectJoin, hbase, hfold, hfilt, hcols, he]

theorem join_unknown_column_errors_witness :
    (Join.resolveInCombined [] ⟨"x", some "t"⟩
      = .error (.execError ("Unknown column in joined row: " ++ "t" ++ "." ++ "x"))) ∧
    (Join.resolveInCombined [] ⟨"x", none⟩
      = .error (.execError ("Unknown column: " ++ "x"))) ∧
    (Join.resolveInCombined
        [(("t", "x"), Value.vInt 1), (("u", "x"), Value.vInt 2)] ⟨"x", none⟩
      = .error (.execError ("Ambiguous column: " ++ "x" ++ " (qualify with table.)"))) ∧
    (Executor.selectJoin joinDbEx joinStmtBadWhere
      = .error (.execError "Unknown column in joined row: a.zzz")) ∧
    (∃ e, Executor.selectJoin joinDbEx joinStmtUnqual = .error e) :=
  ⟨join_unknown_column_errors.1 [] "t" "x" rfl,
    join_unknown_column_errors.2.1 [] "x" rfl,
    join_unknown_column_errors.2.2.1
      [(("t", "x"), Value.vInt 1), (("u", "x"), Value.vInt 2)] "x"
      ("t", "x") ("u", "x") [] rfl,
    join_unknown_column_errors.2.2.2.1 joinDbEx joinStmtBadWhere joinTa
      joinRowEx [] (.execError "Unknown column in joined row: a.zzz") rfl rfl rfl,
    join_unknown_column_errors.2.2.2.2 joinDbEx joinStmtUnqual joinTa
      [joinRowEx] [joinRowEx] [⟨"x", none⟩] rfl rfl rfl rfl (by decide)⟩

end SimpleDB
